import Mathlib

/-!
# lgogdownloader: `galaxyapi.cpp`

A shallow embedding of the manifest normaliser, the depot filter, the product
file normaliser and the downlink path resolver of `src/galaxyapi.cpp`, with
the properties proved about them.

Conventions of the embedding

* `std::string` is `Str`, a list of characters (one `Char` per byte).
* `size_t`, `uintmax_t` and `unsigned int` are `Nat`, reduced modulo `2^64`
  (resp. `2^32`) wherever the source can wrap; `std::string::npos` is `2^64 - 1`.
* An exception thrown by the JSON library (a `Json::LogicError` on an access of
  the wrong kind) and undefined behaviour (an iterator range outside its
  string) are both the result `none`.
* The network is a parameter: every function that fetches takes the function
  giving the decoded response. Where a call fetches more than once, the
  response may depend on the number of fetches done before, which is passed
  along with the result.
* `productInfoJsonToGameDetails` recurses into the document; the model takes
  a bound on the depth of the recursion, set from the depth of the document.
-/

namespace GalaxyApi

/-! ## Strings -/

/-- Model of `std::string`. -/
abbrev Str := List Char

instance : Coe String Str := ⟨String.toList⟩

/-- Model of `std::string::npos`, the largest `size_t`. -/
def npos : Nat := 2 ^ 64 - 1

/-- Scan for `s.find(pat)`: `i` is the index of the head of the remaining text. -/
def findFrom (pat : Str) : Str → Nat → Nat
  | [], i => if pat.isEmpty then i else npos
  | c :: cs, i => if pat.isPrefixOf (c :: cs) then i else findFrom pat cs (i + 1)

/-- Model of `s.find(pat)`: index of the first occurrence of `pat`, else `npos`. -/
def find (s pat : Str) : Nat := findFrom pat s 0

/-- Scan for `find_first_of`. -/
def findFirstOfFrom (chars : Str) : Str → Nat → Nat
  | [], _ => npos
  | c :: cs, i => if chars.contains c then i else findFirstOfFrom chars cs (i + 1)

/-- Model of `s.find_first_of(chars)`: index of the first character of `s` that
is one of `chars`, else `npos`. -/
def find_first_of (s chars : Str) : Nat := findFirstOfFrom chars s 0

/-- Scan for `find_last_of`: `acc` is the last hit seen so far. -/
def findLastOfFrom (chars : Str) : Str → Nat → Nat → Nat
  | [], _, acc => acc
  | c :: cs, i, acc => findLastOfFrom chars cs (i + 1) (if chars.contains c then i else acc)

/-- Model of `s.find_last_of(chars)`: index of the last character of `s` that is
one of `chars`, else `npos`. -/
def find_last_of (s chars : Str) : Nat := findLastOfFrom chars s 0 npos

/-- Model of the iterator range `[s.begin()+first, s.begin()+last)` as used by
`assign` and `append`: defined only when `first ≤ last ≤ s.size()`. -/
def iterRange (s : Str) (first last : Nat) : Option Str :=
  if first ≤ last ∧ last ≤ s.length then some ((s.take last).drop first) else none

/-! ## JSON values (jsoncpp `Json::Value`) -/

/-- Model of `Json::Value`. An object is an association list read at the first
entry of a key. A real number is carried by what the two conversions used in
this file give for it: its text (`asString`) and its value as an unsigned
integer (`asLargestUInt`, `none` when out of range). -/
inductive Json where
  | null
  | bool (b : Bool)
  | int (i : Int)
  | uint (n : Nat)
  | real (text : Str) (asUInt : Option Nat)
  | str (s : Str)
  | arr (elems : List Json)
  | obj (members : List (Str × Json))

namespace Json

/-- First value stored under `key`. -/
def lookup (key : Str) : List (Str × Json) → Option Json
  | [] => none
  | (k, v) :: ms => if k = key then some v else lookup key ms

/-- Model of `value[key]`: the member, `null` when absent; throws unless the
value is an object or null. -/
def get (j : Json) (key : Str) : Option Json :=
  match j with
  | null => some null
  | obj ms => some ((lookup key ms).getD null)
  | _ => none

/-- Model of `value[index]`: the element, `null` when absent; throws unless the
value is an array or null. -/
def idx (j : Json) (i : Nat) : Option Json :=
  match j with
  | null => some null
  | arr es => some (es.getD i null)
  | _ => none

/-- Model of `value.size()`: number of elements or members, 0 for a scalar. -/
def size : Json → Nat
  | arr es => es.length
  | obj ms => ms.length
  | _ => 0

/-- Model of `value.empty()`: null, or an array or object of size 0. -/
def empty : Json → Bool
  | null => true
  | arr es => es.isEmpty
  | obj ms => ms.isEmpty
  | _ => false

/-- Model of `value.isMember(key)`; throws unless the value is an object or null. -/
def isMember (j : Json) (key : Str) : Option Bool :=
  match j with
  | null => some false
  | obj ms => some (lookup key ms).isSome
  | _ => none

/-- Decimal text of an integer, as `valueToString` prints it. -/
def intText (i : Int) : Str :=
  if i < 0 then '-' :: (Nat.repr i.natAbs).toList else (Nat.repr i.natAbs).toList

/-- Model of `value.asString()`; throws on an array or object. -/
def asString : Json → Option Str
  | null => some []
  | bool b => some (if b then "true".toList else "false".toList)
  | int i => some (intText i)
  | uint n => some (Nat.repr n).toList
  | real text _ => some text
  | str s => some s
  | _ => none

/-- Model of `value.asLargestUInt()`; throws on a negative or out-of-range
number, a string, an array or an object. -/
def asLargestUInt : Json → Option Nat
  | null => some 0
  | bool b => some (if b then 1 else 0)
  | int i => if 0 ≤ i then some i.toNat else none
  | uint n => some n
  | real _ u => u
  | _ => none

/-- Model of `value.asUInt()`: as `asLargestUInt`, within 32 bits. -/
def asUInt (j : Json) : Option Nat :=
  match j.asLargestUInt with
  | some n => if n < 2 ^ 32 then some n else none
  | none => none

end Json

/-- Model of `for (unsigned int i = 0; i < n; ++i)` over the state the body
updates; the loop ends at the first exception. -/
def forLoop {σ : Type} (n : Nat) (body : Nat → σ → Option σ) (init : σ) : Option σ :=
  (List.range n).foldlM (fun s i => body i s) init

/-! ## Manifest resolver -/

/-- Model of `galaxyAPI::hashToGalaxyPath`. -/
def hashToGalaxyPath (hash : Str) : Option Str :=
  if find hash "/" = npos then do
    let a ← iterRange hash 0 2
    let b ← iterRange hash 2 4
    pure (a ++ "/".toList ++ b ++ "/".toList ++ hash)
  else
    pure hash

/-- Model of `galaxyAPI::getManifestV2`; `getResponseJson url zlib` is the
decoded response of the fetch. -/
def getManifestV2 (getResponseJson : Str → Bool → Json) (manifest_hash : Str)
    (is_dependency : Bool) : Option Json := do
  let manifest_hash ←
    if !manifest_hash.isEmpty && find manifest_hash "/" = npos then
      hashToGalaxyPath manifest_hash
    else pure manifest_hash
  let url : Str :=
    if is_dependency then
      "https://cdn.gog.com/content-system/v2/dependencies/meta/".toList ++ manifest_hash
    else
      "https://cdn.gog.com/content-system/v2/meta/".toList ++ manifest_hash
  pure (getResponseJson url true)

/-! ## Depot normaliser -/

/-- Model of `galaxyDepotItemChunk`. -/
structure galaxyDepotItemChunk where
  md5_compressed : Str
  md5_uncompressed : Str
  size_compressed : Nat
  size_uncompressed : Nat
  offset_compressed : Nat
  offset_uncompressed : Nat
deriving DecidableEq

/-- Model of `galaxyDepotItem`. -/
structure galaxyDepotItem where
  path : Str
  chunks : List galaxyDepotItemChunk
  totalSizeCompressed : Nat
  totalSizeUncompressed : Nat
  md5 : Str
  product_id : Str
  isDependency : Bool
deriving DecidableEq

/-- Modelled from the spec: `Util::replaceString` is not under src. The loop
`while (Util::replaceString(path, "\\", "/"));` replaces backslashes by forward
slashes until none remain. -/
def replaceBackslashes (path : Str) : Str :=
  path.map (fun c => if c = '\\' then '/' else c)

/-- Body of the chunk loop of `getDepotItemsVector` (lines 213-224), for the
chunk of index `j` of the manifest item `itemJson`. -/
def chunkLoopBody (itemJson : Json) (j : Nat) (item : galaxyDepotItem) :
    Option galaxyDepotItem := do
  let chunkJson ← (← itemJson.get "chunks").idx j
  let md5_compressed ← (← chunkJson.get "compressedMd5").asString
  let md5_uncompressed ← (← chunkJson.get "md5").asString
  let size_compressed ← (← chunkJson.get "compressedSize").asLargestUInt
  let size_uncompressed ← (← chunkJson.get "size").asLargestUInt
  let chunk : galaxyDepotItemChunk :=
    { md5_compressed := md5_compressed
      md5_uncompressed := md5_uncompressed
      size_compressed := size_compressed
      size_uncompressed := size_uncompressed
      offset_compressed := item.totalSizeCompressed
      offset_uncompressed := item.totalSizeUncompressed }
  pure { item with
    totalSizeCompressed := (item.totalSizeCompressed + chunk.size_compressed) % 2 ^ 64
    totalSizeUncompressed := (item.totalSizeUncompressed + chunk.size_uncompressed) % 2 ^ 64
    chunks := item.chunks ++ [chunk] }

/-- Lines 204-232 of `getDepotItemsVector`: the item built from a manifest item
whose chunk list is not empty. -/
def buildDepotItem (itemJson : Json) (is_dependency : Bool) : Option galaxyDepotItem := do
  let item : galaxyDepotItem :=
    { path := replaceBackslashes (← (← itemJson.get "path").asString)
      chunks := []
      totalSizeCompressed := 0
      totalSizeUncompressed := 0
      md5 := []
      product_id := []
      isDependency := is_dependency }
  let item ← forLoop (← itemJson.get "chunks").size (chunkLoopBody itemJson) item
  if (← itemJson.isMember "md5") then
    pure { item with md5 := (← (← itemJson.get "md5").asString) }
  else if (← itemJson.get "chunks").size = 1 then
    pure { item with
      md5 := (← (← (← (← itemJson.get "chunks").idx 0).get "md5").asString) }
  else
    pure item

/-- Body of the item loop of `getDepotItemsVector` (lines 202-233). -/
def itemLoopBody (json : Json) (is_dependency : Bool) (i : Nat)
    (items : List galaxyDepotItem) : Option (List galaxyDepotItem) := do
  let itemJson ← (← (← json.get "depot").get "items").idx i
  if !(← itemJson.get "chunks").empty then
    pure (items ++ [← buildDepotItem itemJson is_dependency])
  else
    pure items

/-- The part of `getDepotItemsVector` after the fetch: the items of the
manifest document `json`. -/
def depotItemsOfManifest (json : Json) (is_dependency : Bool) :
    Option (List galaxyDepotItem) := do
  forLoop (← (← json.get "depot").get "items").size (itemLoopBody json is_dependency) []

/-- Model of `galaxyAPI::getDepotItemsVector`. -/
def getDepotItemsVector (getResponseJson : Str → Bool → Json) (hash : Str)
    (is_dependency : Bool) : Option (List galaxyDepotItem) := do
  let json ← getManifestV2 getResponseJson hash is_dependency
  depotItemsOfManifest json is_dependency

/-! ## URL/path resolver -/

/-- Lines 508-516 of `getPathFromDownlinkUrl`: the workaround that cuts the
path at its last `?` when that lies after its last `/`. -/
def cutQueryFragment (path : Str) : Option Str :=
  if find path "?" ≠ npos then
    if find_last_of path "?" > find_last_of path "/" then
      iterRange path 0 (find_last_of path "?")
    else
      pure path
  else
    pure path

/-- Lines 481-496 of `getPathFromDownlinkUrl`: the position where the file
name ends in the unescaped URL. -/
def filenameEndPos (downlink_url_unescaped : Str) : Nat :=
  if find downlink_url_unescaped "?path=" ≠ npos then
    let token_pos := find downlink_url_unescaped "&token="
    let access_token_pos := find downlink_url_unescaped "&access_token="
    if token_pos ≠ npos ∧ access_token_pos ≠ npos then
      min token_pos access_token_pos
    else
      find_first_of downlink_url_unescaped "&"
  else
    find_first_of downlink_url_unescaped "?"

/-- Model of `galaxyAPI::getPathFromDownlinkUrl`; `curl_easy_unescape` gives
the URL-decoded text of its argument. In `begin() + find_last_of("/") + 1` the
position `npos` moves the iterator by -1 and then by 1, to position 0: the
start of that range is the position plus one modulo `2^64`. -/
def getPathFromDownlinkUrl (curl_easy_unescape : Str → Str) (downlink_url gamename : Str) :
    Option Str := do
  let downlink_url_unescaped := curl_easy_unescape downlink_url
  let filename_end_pos := filenameEndPos downlink_url_unescaped
  let path ←
    if find downlink_url_unescaped ("/".toList ++ gamename ++ "/".toList) ≠ npos then
      iterRange downlink_url_unescaped
        (find downlink_url_unescaped ("/".toList ++ gamename ++ "/".toList)) filename_end_pos
    else do
      let name ← iterRange downlink_url_unescaped
        ((find_last_of downlink_url_unescaped "/" + 1) % 2 ^ 64) filename_end_pos
      pure ("/".toList ++ gamename ++ "/".toList ++ name)
  cutQueryFragment path


/-! ## Regular expressions (Boost.Regex, Perl syntax, `icase`)

The two patterns of this file, `^(<language>)$` and `/secure$`, are compiled
with `boost::regex::perl | boost::regex::icase` and run with `regex_search`
under the default match flags. The model covers the patterns made of literal
characters, `.`, `|`, `(`, `)`, `^` and `$`. -/

/-- A compiled pattern. -/
inductive Regex where
  | empty
  | char (c : Char)
  | any
  | startLine
  | endLine
  | seq (a b : Regex)
  | alt (a b : Regex)
deriving DecidableEq

/-- A group being parsed: the alternatives closed so far by `|`, and the
sequence being read. -/
structure RegexFrame where
  alts : Option Regex
  cur : Regex
deriving DecidableEq

/-- The pattern of a group when it ends. -/
def RegexFrame.close (f : RegexFrame) : Regex :=
  match f.alts with
  | none => f.cur
  | some a => .alt a f.cur

/-- Quantifiers, classes, braces and escapes: metacharacters outside the model. -/
def isUnmodelledMeta (c : Char) : Bool :=
  c = '*' || c = '+' || c = '?' || c = '[' || c = ']' || c = '{' || c = '}' || c = '\\'

/-- The characters with a meaning of their own in a Perl-syntax pattern. -/
def isRegexMeta (c : Char) : Bool :=
  c = '.' || c = '|' || c = '(' || c = ')' || c = '^' || c = '$' || isUnmodelledMeta c

/-- Append an atom to the sequence being read. -/
def RegexFrame.push (f : RegexFrame) (r : Regex) : RegexFrame :=
  { f with cur := .seq f.cur r }

/-- One character of the pattern; the stack holds the open groups, innermost
first. `none`: the pattern is rejected, or is outside the model. -/
def regexParseStep (stack : List RegexFrame) (c : Char) : Option (List RegexFrame) :=
  match stack with
  | [] => none
  | f :: fs =>
    if c = '(' then some (⟨none, .empty⟩ :: f :: fs)
    else if c = ')' then
      match fs with
      | [] => none
      | g :: gs => some (g.push f.close :: gs)
    else if c = '|' then some (⟨some f.close, .empty⟩ :: fs)
    else if c = '.' then some (f.push .any :: fs)
    else if c = '^' then some (f.push .startLine :: fs)
    else if c = '$' then some (f.push .endLine :: fs)
    else if isUnmodelledMeta c then none
    else some (f.push (.char c) :: fs)

/-- Model of `boost::regex re(pattern, boost::regex::perl | boost::regex::icase)`. -/
def regexCompile (pattern : Str) : Option Regex :=
  match pattern.foldlM regexParseStep [⟨none, .empty⟩] with
  | some [f] => some f.close
  | _ => none

/-- Boost's `is_separator`: the characters that end a line. -/
def isLineSeparator (c : Char) : Bool :=
  c = '\n' || c = '\r' || c = '\x0c'

/-- Position `p` of `s` is where `^` matches: the start of the text, or just
after a line separator (but not between `\r` and `\n`). -/
def atLineStart (s : Str) (p : Nat) : Bool :=
  p = 0 ||
  (match s[p - 1]? with
   | some t => isLineSeparator t && !(t = '\r' && s[p]? = some '\n')
   | none => false)

/-- Position `p` of `s` is where `$` matches: the end of the text, or just
before a line separator (but not between `\r` and `\n`). -/
def atLineEnd (s : Str) (p : Nat) : Bool :=
  match s[p]? with
  | none => p = s.length
  | some t => isLineSeparator t && !(0 < p && s[p - 1]? = some '\r' && t = '\n')

/-- The positions where a match of `re` that starts at position `p` of `s` can
end, letter case ignored. -/
def regexMatchEnds (s : Str) : Regex → Nat → List Nat
  | .empty, p => [p]
  | .char c, p =>
    match s[p]? with
    | some d => if d.toLower = c.toLower then [p + 1] else []
    | none => []
  | .any, p => if p < s.length then [p + 1] else []
  | .startLine, p => if atLineStart s p then [p] else []
  | .endLine, p => if atLineEnd s p then [p] else []
  | .seq a b, p => (regexMatchEnds s a p).flatMap (regexMatchEnds s b)
  | .alt a b, p => regexMatchEnds s a p ++ regexMatchEnds s b p

/-- Model of `boost::regex_search(s, what, re)`: some substring of `s` matches. -/
def regex_search (s : Str) (re : Regex) : Bool :=
  (List.range (s.length + 1)).any (fun p => !(regexMatchEnds s re p).isEmpty)

/-! ## Depot filter -/

/-- Lines 428-437 of `getFilteredDepotItemsVectorFromJson`: the language test. -/
def languageTest (depot_json : Json) (galaxy_language : Str) : Option Bool := do
  let language_re ← regexCompile ("^(".toList ++ galaxy_language ++ ")$".toList)
  forLoop (← depot_json.get "languages").size (fun j bSelectedLanguage => do
    let language ← (← (← depot_json.get "languages").idx j).asString
    if language = "*".toList ∨ regex_search language language_re then
      pure true
    else
      pure bSelectedLanguage) false

/-- Model of `gameFile`: the fields that `galaxyapi.cpp` assigns. -/
structure gameFile where
  updated : Int
  gamename : Str
  id : Str
  name : Str
  path : Str
  size : Str
  platform : Nat
  language : Nat
  type : Nat
  galaxy_downlink_json_url : Str
  version : Str
deriving DecidableEq

/-- Model of `DownloadConfig`: the fields that `galaxyapi.cpp` reads. -/
structure DownloadConfig where
  bInstallers : Bool
  bExtras : Bool
  bPatches : Bool
  bLanguagePacks : Bool
  bDLC : Bool
  bDuplicateHandler : Bool
  iInstallerPlatform : Nat
  iInstallerLanguage : Nat
deriving DecidableEq

/-- What `galaxyapi.cpp` uses of the rest of the program and of the network,
none of it under src: the file-type bits, the default platform and language,
`Util::getOptionValue` on the platform and language tables,
`Util::getJsonUIntValueAsString`, a default-constructed `gameFile`, curl's URL
decoder, and `getResponseJson n url`, the decoded response of the `n`-th fetch
of a call when it asks for `url`. -/
structure Externals where
  GFTYPE_INSTALLER : Nat
  GFTYPE_EXTRA : Nat
  GFTYPE_PATCH : Nat
  GFTYPE_LANGPACK : Nat
  GFTYPE_DLC : Nat
  PLATFORM_WINDOWS : Nat
  LANGUAGE_EN : Nat
  platformValue : Str → Nat
  languageValue : Str → Nat
  getJsonUIntValueAsString : Json → Str
  newGameFile : gameFile
  curl_easy_unescape : Str → Str
  getResponseJson : Nat → Str → Json

/-- Lines 377-387 of `fileJsonNodeToGameFileVector`: the search for a record
with the path of `gf`. Gives `bDuplicate` and the records after the search. -/
def mergeDuplicate (X : Externals) (type : Nat) (gf : gameFile) :
    List gameFile → Bool × List gameFile
  | [] => (false, [])
  | g :: gs =>
    if g.path = gf.path then
      (true, (if type &&& X.GFTYPE_EXTRA = 0 then
                { g with language := g.language ||| gf.language }
              else g) :: gs)
    else
      ((mergeDuplicate X type gf gs).1, g :: (mergeDuplicate X type gf gs).2)

/-- Lines 375-392 of `fileJsonNodeToGameFileVector`: the record `gf` is merged
into a duplicate or pushed back. -/
def addGameFile (X : Externals) (dlConf : DownloadConfig) (type : Nat)
    (gamefiles : List gameFile) (gf : gameFile) : List gameFile :=
  if dlConf.bDuplicateHandler then
    if (mergeDuplicate X type gf gamefiles).1 then
      (mergeDuplicate X type gf gamefiles).2
    else
      gamefiles ++ [gf]
  else
    gamefiles ++ [gf]

/-- Lines 342-373 of `fileJsonNodeToGameFileVector`: the record of the file of
index `j` of an info node, `none` when the file is skipped; `k` is the number
of fetches done before. -/
def gameFileOfNode (X : Externals) (gamename : Str) (infoNode : Json) (name version : Str)
    (iPlatform iLanguage type : Nat) (j k : Nat) : Option (Option gameFile) := do
  let fileNode ← (← infoNode.get "files").idx j
  let downlink ← (← fileNode.get "downlink").asString
  let downlinkJson := X.getResponseJson k downlink
  if downlinkJson.empty then
    pure none
  else
    let downlink_url ← (← downlinkJson.get "downlink").asString
    let path ← getPathFromDownlinkUrl X.curl_easy_unescape downlink_url gamename
    let path_re ← regexCompile "/secure$"
    if regex_search path path_re then
      pure none
    else
      let gf : gameFile :=
        { X.newGameFile with
          gamename := gamename
          type := type
          id := (← (← fileNode.get "id").asString)
          name := name
          path := path
          size := X.getJsonUIntValueAsString (← fileNode.get "size")
          updated := 0
          galaxy_downlink_json_url := downlink
          version := version }
      if type &&& X.GFTYPE_EXTRA = 0 then
        pure (some { gf with platform := iPlatform, language := iLanguage })
      else
        pure (some gf)

/-- Body of the file loop of `fileJsonNodeToGameFileVector` (lines 341-392);
the state is the output so far and the number of fetches done. -/
def fileLoopBody (X : Externals) (gamename : Str) (infoNode : Json) (name version : Str)
    (iPlatform iLanguage type : Nat) (dlConf : DownloadConfig) (j : Nat)
    (st : List gameFile × Nat) : Option (List gameFile × Nat) := do
  match (← gameFileOfNode X gamename infoNode name version iPlatform iLanguage type j st.2) with
  | none => pure (st.1, st.2 + 1)
  | some gf => pure (addGameFile X dlConf type st.1 gf, st.2 + 1)

/-- Lines 333-393 of `fileJsonNodeToGameFileVector`: a node with `count` and
`total_size` both zero is skipped, else its files are read. -/
def infoNodeFiles (X : Externals) (gamename : Str) (infoNode : Json) (iFiles : Nat)
    (name version : Str) (iPlatform iLanguage type : Nat) (dlConf : DownloadConfig)
    (st : List gameFile × Nat) : Option (List gameFile × Nat) := do
  let countJson ← infoNode.get "count"
  let count ← countJson.asUInt
  let totalSizeJson ← infoNode.get "total_size"
  let total_size ← totalSizeJson.asLargestUInt
  if count = 0 ∧ total_size = 0 then
    pure st
  else
    forLoop iFiles
      (fileLoopBody X gamename infoNode name version iPlatform iLanguage type dlConf) st

/-- Lines 314-317 of `fileJsonNodeToGameFileVector`: the version of a node,
empty when the node has none. -/
def infoNodeVersion (infoNode : Json) : Option Str := do
  let versionJson ← infoNode.get "version"
  if !versionJson.empty then versionJson.asString else pure []

/-- Body of the info-node loop of `fileJsonNodeToGameFileVector` (lines 311-393). -/
def infoNodeLoopBody (X : Externals) (gamename : Str) (json : Json) (type : Nat)
    (dlConf : DownloadConfig) (i : Nat) (st : List gameFile × Nat) :
    Option (List gameFile × Nat) := do
  let infoNode ← json.idx i
  let filesJson ← infoNode.get "files"
  let iFiles := filesJson.size
  let nameJson ← infoNode.get "name"
  let name ← nameJson.asString
  let version ← infoNodeVersion infoNode
  if type &&& X.GFTYPE_EXTRA = 0 then
    let osJson ← infoNode.get "os"
    let os ← osJson.asString
    let languageJson ← infoNode.get "language"
    let language ← languageJson.asString
    if X.platformValue os &&& dlConf.iInstallerPlatform = 0 then
      pure st
    else if X.languageValue language &&& dlConf.iInstallerLanguage = 0 then
      pure st
    else
      infoNodeFiles X gamename infoNode iFiles name version (X.platformValue os)
        (X.languageValue language) type dlConf st
  else
    infoNodeFiles X gamename infoNode iFiles name version X.PLATFORM_WINDOWS X.LANGUAGE_EN
      type dlConf st

/-- Model of `galaxyAPI::fileJsonNodeToGameFileVector`, from fetch number `k`
on: the records and the number of fetches done when it returns. -/
def fileJsonNodeToGameFileVector (X : Externals) (gamename : Str) (json : Json) (type : Nat)
    (dlConf : DownloadConfig) (k : Nat) : Option (List gameFile × Nat) :=
  forLoop json.size (infoNodeLoopBody X gamename json type dlConf) ([], k)

/-- Model of `gameDetails`: the fields that `galaxyapi.cpp` assigns. -/
structure gameDetails where
  gamename : Str
  product_id : Str
  title : Str
  icon : Str
  changelog : Str
  installers : List gameFile
  extras : List gameFile
  patches : List gameFile
  languagepacks : List gameFile
  dlcs : List gameDetails

/-- Lines 287-294 of `productInfoJsonToGameDetails`: `type |= GFTYPE_DLC` on
every file of a list. -/
def addDlcType (X : Externals) (files : List gameFile) : List gameFile :=
  files.map (fun f => { f with type := f.type ||| X.GFTYPE_DLC })

/-- Lines 286-294 of `productInfoJsonToGameDetails`: the DLC type added to
every file of a DLC. -/
def markDlc (X : Externals) (dlc_gamedetails : gameDetails) : gameDetails :=
  { dlc_gamedetails with
    installers := addDlcType X dlc_gamedetails.installers
    extras := addDlcType X dlc_gamedetails.extras
    patches := addDlcType X dlc_gamedetails.patches
    languagepacks := addDlcType X dlc_gamedetails.languagepacks }

/-- The test of line 297: the DLC has a file. -/
def hasFiles (dlc_gamedetails : gameDetails) : Bool :=
  !dlc_gamedetails.installers.isEmpty || !dlc_gamedetails.extras.isEmpty
    || !dlc_gamedetails.patches.isEmpty || !dlc_gamedetails.languagepacks.isEmpty

/-- Body of the DLC loop of `productInfoJsonToGameDetails` (lines 283-299);
`recurse` is the call of line 284. The state is the `dlcs` so far and the
number of fetches done. -/
def dlcLoopBody (X : Externals)
    (recurse : Json → DownloadConfig → Nat → Option (gameDetails × Nat))
    (json : Json) (dlConf : DownloadConfig) (i : Nat) (st : List gameDetails × Nat) :
    Option (List gameDetails × Nat) := do
  let dlcsJson ← json.get "expanded_dlcs"
  let dlcJson ← dlcsJson.idx i
  let r ← recurse dlcJson dlConf st.2
  let dlc_gamedetails := markDlc X r.1
  if hasFiles dlc_gamedetails then
    pure (st.1 ++ [dlc_gamedetails], r.2)
  else
    pure (st.1, r.2)

/-- The file list of one category (lines 258-276): the normaliser runs on the
node when the category is switched on. -/
def categoryFiles (X : Externals) (enabled : Bool) (gamename : Str) (node : Option Json)
    (type : Nat) (dlConf : DownloadConfig) (k : Nat) : Option (List gameFile × Nat) :=
  if enabled then
    node.bind (fun json => fileJsonNodeToGameFileVector X gamename json type dlConf k)
  else
    some ([], k)

/-- Lines 250-256 of `productInfoJsonToGameDetails`: the details before any
file list is read. -/
def productHeader (json : Json) : Option gameDetails := do
  let slugJson ← json.get "slug"
  let gamename ← slugJson.asString
  let idJson ← json.get "id"
  let product_id ← idJson.asString
  let titleJson ← json.get "title"
  let title ← titleJson.asString
  let imagesJson ← json.get "images"
  let iconJson ← imagesJson.get "icon"
  let icon ← iconJson.asString
  let hasChangelog ← json.isMember "changelog"
  let changelog ← if hasChangelog then (json.get "changelog").bind Json.asString else pure []
  pure { gamename := gamename
         product_id := product_id
         title := title
         icon := "https:".toList ++ icon
         changelog := changelog
         installers := []
         extras := []
         patches := []
         languagepacks := []
         dlcs := [] }

/-- Lines 258-276 of `productInfoJsonToGameDetails`: the four file lists. -/
def productFiles (X : Externals) (json : Json) (dlConf : DownloadConfig)
    (gamedetails : gameDetails) (k : Nat) : Option (gameDetails × Nat) := do
  let downloads := json.get "downloads"
  let installers ← categoryFiles X dlConf.bInstallers gamedetails.gamename
    (downloads.bind (fun d => d.get "installers")) X.GFTYPE_INSTALLER dlConf k
  let extras ← categoryFiles X dlConf.bExtras gamedetails.gamename
    (downloads.bind (fun d => d.get "bonus_content")) X.GFTYPE_EXTRA dlConf installers.2
  let patches ← categoryFiles X dlConf.bPatches gamedetails.gamename
    (downloads.bind (fun d => d.get "patches")) X.GFTYPE_PATCH dlConf extras.2
  let languagepacks ← categoryFiles X dlConf.bLanguagePacks gamedetails.gamename
    (downloads.bind (fun d => d.get "language_packs")) X.GFTYPE_LANGPACK dlConf patches.2
  pure ({ gamedetails with
          installers := installers.1
          extras := extras.1
          patches := patches.1
          languagepacks := languagepacks.1 }, languagepacks.2)

/-- Lines 278-301 of `productInfoJsonToGameDetails`: the DLC list; `recurse` is
the call of line 284. -/
def productDlcs (X : Externals)
    (recurse : Json → DownloadConfig → Nat → Option (gameDetails × Nat))
    (json : Json) (dlConf : DownloadConfig) (k : Nat) : Option (List gameDetails × Nat) :=
  if dlConf.bDLC then do
    let hasDlcs ← json.isMember "expanded_dlcs"
    if hasDlcs then
      (json.get "expanded_dlcs").bind (fun dlcsJson =>
        forLoop dlcsJson.size (dlcLoopBody X recurse json dlConf) ([], k))
    else
      pure ([], k)
  else
    some ([], k)

/-- Model of `galaxyAPI::productInfoJsonToGameDetails` with a bound on the
depth of the recursion into `expanded_dlcs`. -/
def productInfoJsonToGameDetailsFuel (X : Externals) :
    Nat → Json → DownloadConfig → Nat → Option (gameDetails × Nat)
  | 0, _, _, _ => none
  | fuel + 1, json, dlConf, k => do
    let header ← productHeader json
    let files ← productFiles X json dlConf header k
    let dlcs ← productDlcs X (productInfoJsonToGameDetailsFuel X fuel) json dlConf files.2
    pure ({ files.1 with dlcs := dlcs.1 }, dlcs.2)

mutual
/-- Nesting depth of a JSON value. -/
def Json.depth : Json → Nat
  | .arr es => Json.depthList es + 1
  | .obj ms => Json.depthMembers ms + 1
  | _ => 0
/-- Largest depth in a list of values. -/
def Json.depthList : List Json → Nat
  | [] => 0
  | e :: es => max e.depth (Json.depthList es)
/-- Largest depth among the members of an object. -/
def Json.depthMembers : List (Str × Json) → Nat
  | [] => 0
  | (_, v) :: ms => max v.depth (Json.depthMembers ms)
end

/-- Model of `galaxyAPI::productInfoJsonToGameDetails`, from fetch number `k`
on. The recursion descends into the document, so its depth bounds it. -/
def productInfoJsonToGameDetails (X : Externals) (json : Json) (dlConf : DownloadConfig)
    (k : Nat) : Option (gameDetails × Nat) :=
  productInfoJsonToGameDetailsFuel X (json.depth + 1) json dlConf k


/-! ## Vocabulary of the properties of the string functions -/

/-- Position `k` is the first occurrence of `pat` in `s`. -/
def FirstOccurrence (s pat : Str) (k : Nat) : Prop :=
  k ≤ s.length ∧ pat <+: s.drop k ∧ ∀ k', k' < k → ¬ pat <+: s.drop k'


/-! ## Vocabulary of the properties of the depot normaliser -/

/-- Sum of the compressed sizes of a chunk list. -/
def sumCompressed (cs : List galaxyDepotItemChunk) : Nat :=
  (cs.map (fun c => c.size_compressed)).sum

/-- Sum of the uncompressed sizes of a chunk list. -/
def sumUncompressed (cs : List galaxyDepotItemChunk) : Nat :=
  (cs.map (fun c => c.size_uncompressed)).sum

/-- The offsets of an item are the running sums of its chunk sizes and its
totals are the sums of all of them, in 64-bit unsigned arithmetic. -/
def OffsetsAreRunningSums (item : galaxyDepotItem) : Prop :=
  (∀ i c, item.chunks[i]? = some c →
      c.offset_compressed = sumCompressed (item.chunks.take i) % 2 ^ 64 ∧
      c.offset_uncompressed = sumUncompressed (item.chunks.take i) % 2 ^ 64) ∧
  item.totalSizeCompressed = sumCompressed item.chunks % 2 ^ 64 ∧
  item.totalSizeUncompressed = sumUncompressed item.chunks % 2 ^ 64

/-- The chunk read from the manifest chunk `chunkJson`, placed at the given offsets. -/
def chunkOfJson (chunkJson : Json) (offC offU : Nat) : Option galaxyDepotItemChunk := do
  let md5_compressed ← (← chunkJson.get "compressedMd5").asString
  let md5_uncompressed ← (← chunkJson.get "md5").asString
  let size_compressed ← (← chunkJson.get "compressedSize").asLargestUInt
  let size_uncompressed ← (← chunkJson.get "size").asLargestUInt
  pure { md5_compressed := md5_compressed
         md5_uncompressed := md5_uncompressed
         size_compressed := size_compressed
         size_uncompressed := size_uncompressed
         offset_compressed := offC
         offset_uncompressed := offU }

/-- The item under construction before its first chunk (lines 204-208). -/
def emptyDepotItem (path : Str) (is_dependency : Bool) : galaxyDepotItem :=
  { path := replaceBackslashes path
    chunks := []
    totalSizeCompressed := 0
    totalSizeUncompressed := 0
    md5 := []
    product_id := []
    isDependency := is_dependency }

/-- The four data fields of `c` are those read from the manifest chunk `chunkJson`. -/
def ChunkReadFrom (chunkJson : Json) (c : galaxyDepotItemChunk) : Prop :=
  chunkOfJson chunkJson c.offset_compressed c.offset_uncompressed = some c

/-- The items array of a manifest document, empty when there is none. -/
def manifestItems (json : Json) : List Json :=
  match (json.get "depot").bind (fun d => d.get "items") with
  | some (.arr es) => es
  | _ => []

/-- The test of line 202 on a manifest item: `!item["chunks"].empty()`. -/
def chunksNotEmpty (itemJson : Json) : Bool :=
  match itemJson.get "chunks" with
  | some c => !c.empty
  | none => false

/-- The chunk list of a manifest item is a non-empty list. -/
def hasChunkList (itemJson : Json) : Bool :=
  match itemJson.get "chunks" with
  | some (.arr (_ :: _)) => true
  | _ => false

/-! ## Example documents -/

/-- A manifest chunk with the given checksum and sizes. -/
def exampleChunk (md5 : Str) (compressedSize size : Nat) : Json :=
  .obj [("compressedMd5", .str "cm"), ("md5", .str md5),
        ("compressedSize", .uint compressedSize), ("size", .uint size)]

/-- Manifest items: a two-chunk file, a directory entry without chunks, a
one-chunk file and a file that carries its own checksum. -/
def exampleManifestItems : List Json :=
  [ .obj [("path", .str "bin\\game.exe"),
          ("chunks", .arr [exampleChunk "m1" 3 5, exampleChunk "m2" 4 6])],
    .obj [("path", .str "bin")],
    .obj [("path", .str "readme.txt"), ("chunks", .arr [exampleChunk "m3" 1 2])],
    .obj [("path", .str "data.bin"), ("md5", .str "whole"),
          ("chunks", .arr [exampleChunk "m4" 7 9])] ]

/-- A v2 manifest with the items `exampleManifestItems`. -/
def exampleManifest : Json :=
  .obj [("depot", .obj [("items", .arr exampleManifestItems)])]

/-- The items of `exampleManifest`. -/
def exampleItems : List galaxyDepotItem :=
  [ { path := "bin/game.exe"
      chunks := [⟨"cm", "m1", 3, 5, 0, 0⟩, ⟨"cm", "m2", 4, 6, 3, 5⟩]
      totalSizeCompressed := 7, totalSizeUncompressed := 11
      md5 := "", product_id := "", isDependency := false },
    { path := "readme.txt"
      chunks := [⟨"cm", "m3", 1, 2, 0, 0⟩]
      totalSizeCompressed := 1, totalSizeUncompressed := 2
      md5 := "m3", product_id := "", isDependency := false },
    { path := "data.bin"
      chunks := [⟨"cm", "m4", 7, 9, 0, 0⟩]
      totalSizeCompressed := 7, totalSizeUncompressed := 9
      md5 := "whole", product_id := "", isDependency := false } ]

/-- The path `r` is `sub` cut at a `?` that lies after its final `/`, if there
is one: either `sub` is `r`, a `?` and a rest without `?` or `/`, or no `?` of
`sub` lies after its final `/` and `r` is `sub`. -/
def CutAtQuery (sub r : Str) : Prop :=
  (∃ rest, sub = r ++ '?' :: rest ∧ '?' ∉ rest ∧ '/' ∉ rest) ∨
  (r = sub ∧ ∀ pre rest, sub = pre ++ '?' :: rest → '/' ∈ rest)

/-! ## Vocabulary of the properties of the depot filter -/

/-- The pattern read from a run of literal characters after `acc`. -/
def litSeq (acc : Regex) (w : Str) : Regex :=
  w.foldl (fun r c => .seq r (.char c)) acc

/-- The text `w` stands at the head of `t`, letter case ignored. -/
def icasePrefix (w t : Str) : Bool :=
  (w.map Char.toLower).isPrefixOf (t.map Char.toLower)

/-- The texts of a list of JSON values, when each has one. -/
def allStrings : List Json → Option (List Str)
  | [] => some []
  | e :: es => do
    let s ← e.asString
    let ss ← allStrings es
    pure (s :: ss)

/-- The entries of the member `key` of a document, as the loops of the depot
filter read them: none when the member is missing or is a scalar. -/
def listEntries (depot_json : Json) (key : Str) : Option (List Str) := do
  match (← depot_json.get key) with
  | .arr es => allStrings es
  | .obj (_ :: _) => none
  | _ => some []

/-- A depot whose only language entry is `en`. -/
def exampleDepotEn : Json :=
  .obj [("languages", .arr [.str "en"]), ("manifest", .str "ab/cd/abcdef123456"),
        ("productId", .str "1207658924")]

/-- A depot for German and US English, 64-bit only. -/
def exampleDepot : Json :=
  .obj [("languages", .arr [.str "de-DE", .str "en-US"]), ("osBitness", .arr [.str "64"]),
        ("manifest", .str "ab/cd/abcdef123456"), ("productId", .str "1207658924")]

/-- Example values for what lies outside `galaxyapi.cpp`: the type bits 1, 2,
4, 8 and 16, two platforms, three languages, and a network that answers the
request for `u` with the downlink `https://cdn.example/u?token=t`. -/
def exampleExternals : Externals :=
  { GFTYPE_INSTALLER := 1
    GFTYPE_EXTRA := 2
    GFTYPE_PATCH := 4
    GFTYPE_LANGPACK := 8
    GFTYPE_DLC := 16
    PLATFORM_WINDOWS := 1
    LANGUAGE_EN := 1
    platformValue := fun s => if s = "windows".toList then 1 else if s = "linux".toList then 4 else 0
    languageValue := fun s =>
      if s = "en".toList then 1 else if s = "de".toList then 2 else if s = "fr".toList then 4
      else 0
    getJsonUIntValueAsString := fun j => (j.asString).getD []
    newGameFile :=
      { updated := 0, gamename := [], id := [], name := [], path := [], size := []
        platform := 1, language := 1, type := 0, galaxy_downlink_json_url := [], version := [] }
    curl_easy_unescape := id
    getResponseJson := fun _ u =>
      if u.isEmpty then .null
      else .obj [("downlink", .str ("https://cdn.example/".toList ++ u ++ "?token=t".toList))] }

/-- A download config that wants everything, with duplicate handling. -/
def exampleConfig : DownloadConfig :=
  { bInstallers := true, bExtras := true, bPatches := true, bLanguagePacks := true
    bDLC := true, bDuplicateHandler := true, iInstallerPlatform := 5, iInstallerLanguage := 7 }

/-- An info node with one file. -/
def exampleInfoNode (name os language id downlink : Str) : Json :=
  .obj [("name", .str name), ("os", .str os), ("language", .str language),
        ("count", .uint 1), ("total_size", .uint 1000),
        ("files", .arr [.obj [("id", .str id), ("size", .uint 1000),
                              ("downlink", .str downlink)]])]

/-- Installers of the example game: the same file for English and for German,
and a French one. -/
def exampleInstallers : Json :=
  .arr [exampleInfoNode "Game" "windows" "en" "en1" "game/setup.exe",
        exampleInfoNode "Game" "windows" "de" "de1" "game/setup.exe",
        exampleInfoNode "Game" "windows" "fr" "fr1" "game/setup_fr.exe"]

/-- A product with one DLC that has an installer and one that has no file. -/
def exampleProduct : Json :=
  .obj [("slug", .str "game"), ("id", .str "1"), ("title", .str "Game"),
        ("images", .obj [("icon", .str "//img/icon.png")]),
        ("downloads", .obj [("installers", exampleInstallers)]),
        ("expanded_dlcs", .arr [
          .obj [("slug", .str "dlc_one"), ("id", .str "2"), ("title", .str "DLC 1"),
                ("downloads", .obj [("installers",
                  .arr [exampleInfoNode "DLC" "windows" "en" "dlc1" "dlc_one/dlc.exe"])])],
          .obj [("slug", .str "dlc_two"), ("id", .str "3"), ("title", .str "DLC 2")]])]

/-! ## Vocabulary of the properties of the product file normaliser -/

/-- Bitwise OR of a list of masks. -/
def orAll (masks : List Nat) : Nat :=
  masks.foldl (fun a b => a ||| b) 0

/-- The language masks of the files of `files` whose path is `p`, in order. -/
def languagesAt (files : List gameFile) (p : Str) : List Nat :=
  (files.filter (fun g => decide (g.path = p))).map (fun g => g.language)

/-- The language of `gf` OR-ed into a record that has its path (line 383). -/
def mergeLanguage (gf r : gameFile) : gameFile :=
  if r.path = gf.path then { r with language := r.language ||| gf.language } else r

/-- The state of the output `out` after the accepted files `acc`: its paths
are distinct, they are the paths of `acc`, and each record has the OR of the
languages of the accepted files with its path. -/
def MergedOutput (out acc : List gameFile) : Prop :=
  (out.map (fun g => g.path)).Nodup ∧
  (∀ p, p ∈ out.map (fun g => g.path) ↔ p ∈ acc.map (fun g => g.path)) ∧
  ∀ r ∈ out, r.language = orAll (languagesAt acc r.path)

/-- The outputs of two runs of the file loops, one with the duplicate handling
of `dlConf` and one that keeps every accepted file: the same number of fetches
done, and the first output is the second one with its files added one by one. -/
def MergesInto (X : Externals) (dlConf : DownloadConfig) (type : Nat)
    (s t : List gameFile × Nat) : Prop :=
  s.2 = t.2 ∧ s.1 = t.1.foldl (addGameFile X dlConf type) []

/-- The record of an installer of the example game. -/
def exampleGameFile (id path downlink : Str) (language : Nat) : gameFile :=
  { updated := 0, gamename := "game", id := id, name := "Game", path := path, size := "1000"
    platform := 1, language := language, type := 1, galaxy_downlink_json_url := downlink
    version := "" }

/-- The installers of the example game with duplicate handling: the English
and German files share a path and are one record for both languages. -/
def exampleMergedFiles : List gameFile :=
  [exampleGameFile "en1" "/game/setup.exe" "game/setup.exe" 3,
   exampleGameFile "fr1" "/game/setup_fr.exe" "game/setup_fr.exe" 4]

/-- The details of the example product: the DLC without files is left out and
the installer of the other one carries the DLC bit. -/
def exampleGameDetails : gameDetails :=
  { gamename := "game", product_id := "1", title := "Game", icon := "https://img/icon.png"
    changelog := ""
    installers := exampleMergedFiles, extras := [], patches := [], languagepacks := []
    dlcs :=
      [ { gamename := "dlc_one", product_id := "2", title := "DLC 1", icon := "https:"
          changelog := ""
          installers :=
            [ { updated := 0, gamename := "dlc_one", id := "dlc1", name := "DLC"
                path := "/dlc_one/dlc.exe", size := "1000", platform := 1, language := 1
                type := 17, galaxy_downlink_json_url := "dlc_one/dlc.exe", version := "" } ]
          extras := [], patches := [], languagepacks := [], dlcs := [] } ] }

/-! ## Vocabulary of the properties of the records -/

/-- The pattern compiled from `/secure$`. -/
def securePattern : Regex :=
  .seq (litSeq .empty "/secure".toList) .endLine

/-- The record built at lines 358-373 of `fileJsonNodeToGameFileVector` from
the texts read for a file. -/
def recordOf (X : Externals) (gamename name version : Str) (iPlatform iLanguage type : Nat)
    (id path size downlink : Str) : gameFile :=
  if type &&& X.GFTYPE_EXTRA = 0 then
    { X.newGameFile with
      gamename := gamename, type := type, id := id, name := name, path := path, size := size
      updated := 0, galaxy_downlink_json_url := downlink, version := version
      platform := iPlatform, language := iLanguage }
  else
    { X.newGameFile with
      gamename := gamename, type := type, id := id, name := name, path := path, size := size
      updated := 0, galaxy_downlink_json_url := downlink, version := version }

/-- Lines 343-373 of `fileJsonNodeToGameFileVector` for the file `fileNode`:
its record, `none` when the file is skipped. -/
def gameFileOfFile (X : Externals) (gamename : Str) (fileNode : Json) (name version : Str)
    (iPlatform iLanguage type : Nat) (k : Nat) : Option (Option gameFile) := do
  let downlinkJson ← fileNode.get "downlink"
  let downlink ← downlinkJson.asString
  if (X.getResponseJson k downlink).empty then
    pure none
  else
    let urlJson ← (X.getResponseJson k downlink).get "downlink"
    let downlink_url ← urlJson.asString
    let path ← getPathFromDownlinkUrl X.curl_easy_unescape downlink_url gamename
    if regex_search path securePattern then
      pure none
    else
      let idJson ← fileNode.get "id"
      let id ← idJson.asString
      let sizeJson ← fileNode.get "size"
      pure (some (recordOf X gamename name version iPlatform iLanguage type id path
        (X.getJsonUIntValueAsString sizeJson) downlink))

/-- The platform mask that line 323 resolves for the node of index `i`. -/
def nodePlatform (X : Externals) (json : Json) (i : Nat) : Option Nat := do
  let infoNode ← json.idx i
  let osJson ← infoNode.get "os"
  let os ← osJson.asString
  pure (X.platformValue os)

/-- The language mask that line 324 resolves for the node of index `i`. -/
def nodeLanguage (X : Externals) (json : Json) (i : Nat) : Option Nat := do
  let infoNode ← json.idx i
  let languageJson ← infoNode.get "language"
  let language ← languageJson.asString
  pure (X.languageValue language)

/-- The node of index `i` declares a `count` of 0 and a `total_size` of 0. -/
def ZeroCountNode (json : Json) (i : Nat) : Prop :=
  ∃ infoNode, json.idx i = some infoNode ∧
    (infoNode.get "count").bind Json.asUInt = some 0 ∧
    (infoNode.get "total_size").bind Json.asLargestUInt = some 0

/-- Info nodes that declare no content, each with a list of files. -/
def exampleEmptyNodes : Json :=
  .arr [.obj [("name", .str "Game"), ("os", .str "windows"), ("language", .str "en"),
              ("count", .uint 0), ("total_size", .uint 0),
              ("files", .arr [.obj [("id", .str "en1"), ("downlink", .str "game/setup.exe")],
                              .obj [("id", .str "en2"), ("downlink", .str "game/setup.bin")]])],
        .obj [("name", .str "Game"), ("os", .str "windows"), ("language", .str "de"),
              ("total_size", .uint 0),
              ("files", .arr [.obj [("id", .str "de1"), ("downlink", .str "game/setup_de.exe")]])]]

/-- A download config that wants Windows and English only, without duplicate
handling. -/
def exampleConfigEn : DownloadConfig :=
  { bInstallers := true, bExtras := true, bPatches := true, bLanguagePacks := true
    bDLC := true, bDuplicateHandler := false, iInstallerPlatform := 1, iInstallerLanguage := 1 }

/-- The installers of the example game for a config that wants English only:
the German and the French node are skipped. -/
def exampleEnglishFiles : List gameFile :=
  [exampleGameFile "en1" "/game/setup.exe" "game/setup.exe" 1]

/-- Two info nodes have the same members, `os` and `language` apart. -/
def SameButTags (n n' : Json) : Prop :=
  ∀ key : Str, key ≠ "os".toList → key ≠ "language".toList → n.get key = n'.get key

/-- Two info-node lists of the same length whose nodes differ, one by one, in
their `os` and `language` tags only. -/
def SameNodesButTags (json json' : Json) : Prop :=
  json.size = json'.size ∧
  ∀ i, i < json.size → ∃ n n', json.idx i = some n ∧ json'.idx i = some n' ∧ SameButTags n n'

/-- An extra of the example game, tagged with a platform and a language. -/
def exampleExtraNode (os language : Str) : Json :=
  .obj [("name", .str "Manual"), ("os", .str os), ("language", .str language),
        ("count", .uint 1), ("total_size", .uint 20),
        ("files", .arr [.obj [("id", .str "manual"), ("size", .uint 20),
                              ("downlink", .str "game/manual.pdf")]])]

/-- The record of the extra of the example game: platform and language are
those of a new record. -/
def exampleExtraFiles : List gameFile :=
  [ { updated := 0, gamename := "game", id := "manual", name := "Manual"
      path := "/game/manual.pdf", size := "20", platform := 1, language := 1, type := 2
      galaxy_downlink_json_url := "game/manual.pdf", version := "" } ]

/-- The records of `out` against the accepted files `acc`: the two lists have
the same paths, `out` is not longer, and each record of `out` is the first file
of `acc` with its path in every field but the language (in the language too
when `keepLanguage` holds). -/
def KeepsFirstRecords (keepLanguage : Prop) (out acc : List gameFile) : Prop :=
  (∀ p, p ∈ out.map (fun g => g.path) ↔ p ∈ acc.map (fun g => g.path)) ∧
  out.length ≤ acc.length ∧
  ∀ r ∈ out, ∃ first,
    acc.find? (fun g => decide (g.path = r.path)) = some first ∧
    r = { first with language := r.language } ∧
    (keepLanguage → r = first)

/-- The path ends in `/secure`, letter case ignored. -/
def EndsInSecure (path : Str) : Prop :=
  "/secure".toList <:+ path.map Char.toLower

/-- An installer node whose file resolves to the path `/game/SECURE`. -/
def exampleSecureNode : Json :=
  exampleInfoNode "Game" "windows" "en" "s1" "game/SECURE"

/-- Lines 498-506 of `getPathFromDownlinkUrl`: the path taken from the
unescaped URL, before the workaround of lines 508-516. -/
def substringPath (curl_easy_unescape : Str → Str) (downlink_url gamename : Str) :
    Option Str :=
  if find (curl_easy_unescape downlink_url) ("/".toList ++ gamename ++ "/".toList) ≠ npos then
    iterRange (curl_easy_unescape downlink_url)
      (find (curl_easy_unescape downlink_url) ("/".toList ++ gamename ++ "/".toList))
      (filenameEndPos (curl_easy_unescape downlink_url))
  else do
    let name ← iterRange (curl_easy_unescape downlink_url)
      ((find_last_of (curl_easy_unescape downlink_url) "/" + 1) % 2 ^ 64)
      (filenameEndPos (curl_easy_unescape downlink_url))
    pure ("/".toList ++ gamename ++ "/".toList ++ name)

/-- The number of `?` after the final `/` of `s` (in `s`, when it has no `/`). -/
def queriesInName (s : Str) : Nat :=
  (s.reverse.takeWhile (fun c => decide (c ≠ '/'))).count '?'

/-! ## Vocabulary of the order of the output -/

/-- The elements of a JSON list, in order; a value that is no list has none. -/
def Json.elements : Json → List Json
  | .arr es => es
  | _ => []

/-- The lists that `g` gives for the elements of a list, one after the other,
in the order of the elements; the fetch counter goes from each element to the
next. -/
def collectInOrder (g : Json → Nat → Option (List gameFile × Nat)) :
    List Json → Nat → Option (List gameFile × Nat)
  | [], k => some ([], k)
  | e :: es, k =>
    (g e k).bind (fun r => (collectInOrder g es r.2).map (fun r' => (r.1 ++ r'.1, r'.2)))

/-- The accepted file of a file node, if it is accepted: the record that the
file gives when it is not skipped. One fetch is done. -/
def acceptedOfFile (X : Externals) (gamename name version : Str)
    (iPlatform iLanguage type : Nat) (fileNode : Json) (k : Nat) :
    Option (List gameFile × Nat) :=
  (gameFileOfFile X gamename fileNode name version iPlatform iLanguage type k).map
    (fun r => (r.toList, k + 1))

/-- The accepted files of a node that passed the platform and language tests,
in the order of its `files`: none when `count` and `total_size` are both 0. -/
def acceptedOfKeptNode (X : Externals) (gamename : Str) (infoNode : Json) (name version : Str)
    (iPlatform iLanguage type : Nat) (k : Nat) : Option (List gameFile × Nat) := do
  let countJson ← infoNode.get "count"
  let count ← countJson.asUInt
  let totalSizeJson ← infoNode.get "total_size"
  let total_size ← totalSizeJson.asLargestUInt
  let filesJson ← infoNode.get "files"
  if count = 0 ∧ total_size = 0 then
    pure ([], k)
  else
    collectInOrder (acceptedOfFile X gamename name version iPlatform iLanguage type)
      filesJson.elements k

/-- The accepted files of an info node, in the order of its `files`: none when
the node fails the platform or the language test for a type that is not Extra. -/
def acceptedOfNode (X : Externals) (gamename : Str) (type : Nat)
    (wantedPlatform wantedLanguage : Nat) (infoNode : Json) (k : Nat) :
    Option (List gameFile × Nat) := do
  let nameJson ← infoNode.get "name"
  let name ← nameJson.asString
  let version ← infoNodeVersion infoNode
  if type &&& X.GFTYPE_EXTRA = 0 then
    let osJson ← infoNode.get "os"
    let os ← osJson.asString
    let languageJson ← infoNode.get "language"
    let language ← languageJson.asString
    if X.platformValue os &&& wantedPlatform = 0 then
      pure ([], k)
    else if X.languageValue language &&& wantedLanguage = 0 then
      pure ([], k)
    else
      acceptedOfKeptNode X gamename infoNode name version (X.platformValue os)
        (X.languageValue language) type k
  else
    acceptedOfKeptNode X gamename infoNode name version X.PLATFORM_WINDOWS X.LANGUAGE_EN type k

/-- The accepted files of an info-node list: node by node and, within a node,
in the order of its `files`. -/
def acceptedFiles (X : Externals) (gamename : Str) (json : Json) (type : Nat)
    (dlConf : DownloadConfig) (k : Nat) : Option (List gameFile × Nat) :=
  collectInOrder
    (acceptedOfNode X gamename type dlConf.iInstallerPlatform dlConf.iInstallerLanguage)
    json.elements k

/-- The id of a file node, when it has a text for one. -/
def fileIdOf (fileNode : Json) : List Str :=
  ((fileNode.get "id").bind Json.asString).toList

/-- The ids of the files of an info node, in the order of its `files`. -/
def nodeFileIds (infoNode : Json) : List Str :=
  (((infoNode.get "files").map Json.elements).getD []).flatMap fileIdOf

/-- The ids of the input files, node by node and, within a node, in the order
of its `files`. -/
def inputFileIds (json : Json) : List Str :=
  json.elements.flatMap nodeFileIds

/-- The three installers of the example game, before the duplicates merge. -/
def exampleAcceptedFiles : List gameFile :=
  [exampleGameFile "en1" "/game/setup.exe" "game/setup.exe" 1,
   exampleGameFile "de1" "/game/setup.exe" "game/setup.exe" 2,
   exampleGameFile "fr1" "/game/setup_fr.exe" "game/setup_fr.exe" 4]

/-- A v2 manifest whose only item carries a number as its `chunks`. -/
def exampleScalarChunksManifest : Json :=
  .obj [("depot", .obj [("items", .arr [.obj [("path", .str "a"), ("chunks", .uint 5)]])])]

/-! ## Loops -/

/-- A property kept by every step of a fold in `Option` holds of its result. -/
theorem foldlM_option_inv {σ ι : Type} (P : σ → Prop) (f : σ → ι → Option σ)
    (hstep : ∀ s i s', P s → f s i = some s' → P s') :
    ∀ (l : List ι) (init r : σ), P init → l.foldlM f init = some r → P r := by
  intro l
  induction l with
  | nil =>
    intro init r h0 h
    simp at h
    exact h ▸ h0
  | cons a l ih =>
    intro init r h0 h
    simp only [List.foldlM_cons, Option.bind_eq_bind, Option.bind_eq_some] at h
    obtain ⟨s, hs, h⟩ := h
    exact ih s r (hstep init a s h0 hs) h

/-- A property kept by every iteration of a `for` loop holds when it ends. -/
theorem forLoop_inv {σ : Type} (P : σ → Prop) (n : Nat) (body : Nat → σ → Option σ)
    (hstep : ∀ i s s', P s → body i s = some s' → P s') (init r : σ)
    (h0 : P init) (h : forLoop n body init = some r) : P r :=
  foldlM_option_inv P (fun s i => body i s) (fun s i s' => hstep i s s') _ init r h0 h

/-! ## Chunk offsets -/

theorem sumCompressed_append (xs ys : List galaxyDepotItemChunk) :
    sumCompressed (xs ++ ys) = sumCompressed xs + sumCompressed ys := by
  simp [sumCompressed]

theorem sumUncompressed_append (xs ys : List galaxyDepotItemChunk) :
    sumUncompressed (xs ++ ys) = sumUncompressed xs + sumUncompressed ys := by
  simp [sumUncompressed]

theorem chunkOfJson_offsets (chunkJson : Json) (offC offU : Nat) (c : galaxyDepotItemChunk)
    (h : chunkOfJson chunkJson offC offU = some c) :
    c.offset_compressed = offC ∧ c.offset_uncompressed = offU := by
  simp only [chunkOfJson, Option.bind_eq_bind, Option.bind_eq_some, Option.pure_def,
    Option.some.injEq] at h
  obtain ⟨_, _, _, _, _, _, _, _, _, _, _, _, _, _, _, _, rfl⟩ := h
  exact ⟨rfl, rfl⟩

/-- One iteration of the chunk loop appends the chunk read at index `j`, placed
at the current totals, and adds its sizes to the totals. -/
theorem chunkLoopBody_eq_some (itemJson : Json) (j : Nat) (item item' : galaxyDepotItem)
    (h : chunkLoopBody itemJson j item = some item') :
    ∃ chunksJson chunkJson chunk,
      itemJson.get "chunks" = some chunksJson ∧ chunksJson.idx j = some chunkJson ∧
      chunkOfJson chunkJson item.totalSizeCompressed item.totalSizeUncompressed = some chunk ∧
      item' = { item with
        totalSizeCompressed := (item.totalSizeCompressed + chunk.size_compressed) % 2 ^ 64
        totalSizeUncompressed := (item.totalSizeUncompressed + chunk.size_uncompressed) % 2 ^ 64
        chunks := item.chunks ++ [chunk] } := by
  simp only [chunkLoopBody, Option.bind_eq_bind, Option.bind_eq_some, Option.pure_def,
    Option.some.injEq] at h
  obtain ⟨cj, hcj, c, hc, a1, h1, a2, h2, b1, g1, b2, g2, c1, k1, c2, k2, d1, l1, d2, l2, rfl⟩ := h
  refine ⟨cj, c, _, hcj, hc, ?_, rfl⟩
  simp only [chunkOfJson, Option.bind_eq_bind, Option.pure_def, h1, h2, g1, g2, k1, k2, l1, l2,
    Option.some_bind]

theorem chunkLoopBody_offsets (itemJson : Json) (j : Nat) (item item' : galaxyDepotItem)
    (hinv : OffsetsAreRunningSums item) (h : chunkLoopBody itemJson j item = some item') :
    OffsetsAreRunningSums item' := by
  obtain ⟨hoff, htc, htu⟩ := hinv
  obtain ⟨_, chunkJson, chunk, _, _, hchunk, rfl⟩ := chunkLoopBody_eq_some _ _ _ _ h
  obtain ⟨hoc, hou⟩ := chunkOfJson_offsets _ _ _ _ hchunk
  refine ⟨?_, ?_, ?_⟩
  · intro i c hc
    simp only at hc ⊢
    rcases Nat.lt_or_ge i item.chunks.length with hi | hi
    · rw [List.getElem?_append_left hi] at hc
      rw [List.take_append_of_le_length (Nat.le_of_lt hi)]
      exact hoff i c hc
    · rw [List.getElem?_append_right hi] at hc
      have hi0 : i = item.chunks.length := by
        by_contra hne
        have : i - item.chunks.length ≠ 0 := by omega
        obtain ⟨k, hk⟩ := Nat.exists_eq_succ_of_ne_zero this
        rw [hk] at hc
        simp at hc
      subst hi0
      simp only [Nat.sub_self, List.getElem?_cons_zero, Option.some.injEq] at hc
      subst hc
      simp only [List.take_left', hoc, hou, htc, htu, and_self]
  · simp only [sumCompressed_append, htc]
    simp [sumCompressed, Nat.add_mod]
  · simp only [sumUncompressed_append, htu]
    simp [sumUncompressed, Nat.add_mod]

/-- An item that is built is the result of the chunk loop with its `md5` set. -/
theorem buildDepotItem_eq_some (itemJson : Json) (dep : Bool) (item : galaxyDepotItem)
    (h : buildDepotItem itemJson dep = some item) :
    ∃ pathJson path chunksJson it md5,
      itemJson.get "path" = some pathJson ∧ pathJson.asString = some path ∧
      itemJson.get "chunks" = some chunksJson ∧
      forLoop chunksJson.size (chunkLoopBody itemJson) (emptyDepotItem path dep) = some it ∧
      item = { it with md5 := md5 } := by
  simp only [buildDepotItem, Option.bind_eq_bind, Option.bind_eq_some, Option.pure_def] at h
  obtain ⟨pj, hpj, p, hp, cj, hcj, it, hloop, b, _, h⟩ := h
  refine ⟨pj, p, cj, it, item.md5, hpj, hp, hcj, hloop, ?_⟩
  split at h
  · simp only [Option.bind_eq_some, Option.some.injEq] at h
    obtain ⟨_, _, _, _, rfl⟩ := h
    rfl
  · simp only [Option.bind_eq_some] at h
    obtain ⟨_, _, h⟩ := h
    split at h
    · simp only [Option.bind_eq_some, Option.some.injEq] at h
      obtain ⟨_, _, _, _, _, _, _, _, rfl⟩ := h
      rfl
    · simp only [Option.some.injEq] at h
      subst h
      rfl

theorem buildDepotItem_offsets (itemJson : Json) (dep : Bool) (item : galaxyDepotItem)
    (h : buildDepotItem itemJson dep = some item) : OffsetsAreRunningSums item := by
  obtain ⟨_, path, chunksJson, it, md5, _, _, _, hloop, rfl⟩ := buildDepotItem_eq_some _ _ _ h
  refine forLoop_inv OffsetsAreRunningSums _ _
    (fun i s s' => chunkLoopBody_offsets itemJson i s s') _ it ?_ hloop
  refine ⟨?_, ?_, ?_⟩ <;> simp [emptyDepotItem, sumCompressed, sumUncompressed]

theorem depotItemsOfManifest_offsets (json : Json) (dep : Bool) (items : List galaxyDepotItem)
    (h : depotItemsOfManifest json dep = some items) :
    ∀ item ∈ items, OffsetsAreRunningSums item := by
  simp only [depotItemsOfManifest, Option.bind_eq_bind, Option.bind_eq_some] at h
  obtain ⟨_, _, _, _, h⟩ := h
  refine forLoop_inv (fun its => ∀ item ∈ its, OffsetsAreRunningSums item) _ _ ?_ [] items
    (by simp) h
  intro i s s' hs hstep
  simp only [itemLoopBody, Option.bind_eq_bind, Option.bind_eq_some, Option.pure_def] at hstep
  obtain ⟨_, _, _, _, _, _, _, _, hstep⟩ := hstep
  split at hstep
  · simp only [Option.bind_eq_some, Option.some.injEq] at hstep
    obtain ⟨it, hit, rfl⟩ := hstep
    intro item hmem
    rcases List.mem_append.mp hmem with hm | hm
    · exact hs item hm
    · rw [List.mem_singleton] at hm
      exact hm ▸ buildDepotItem_offsets _ _ _ hit
  · simp only [Option.some.injEq] at hstep
    exact hstep ▸ hs

theorem forLoop_succ {σ : Type} (n : Nat) (body : Nat → σ → Option σ) (init : σ) :
    forLoop (n + 1) body init = (forLoop n body init).bind (body n) := by
  simp [forLoop, List.range_succ, List.foldlM_append]

theorem forLoop_zero {σ : Type} (body : Nat → σ → Option σ) (init : σ) :
    forLoop 0 body init = some init := by
  simp [forLoop]

theorem chunkOfJson_readFrom (chunkJson : Json) (offC offU : Nat) (c : galaxyDepotItemChunk)
    (h : chunkOfJson chunkJson offC offU = some c) : ChunkReadFrom chunkJson c := by
  obtain ⟨h1, h2⟩ := chunkOfJson_offsets _ _ _ _ h
  rw [ChunkReadFrom, h1, h2]
  exact h

/-- The chunk loop run `n` times appends `n` chunks, the one of index `j` read
from the manifest chunk of index `j`, and leaves the other fields alone. -/
theorem chunkLoop_spec (itemJson : Json) :
    ∀ (n : Nat) (init it : galaxyDepotItem),
      forLoop n (chunkLoopBody itemJson) init = some it →
      it.path = init.path ∧ it.md5 = init.md5 ∧ it.product_id = init.product_id ∧
      it.isDependency = init.isDependency ∧
      ∃ cs, it.chunks = init.chunks ++ cs ∧ cs.length = n ∧
        ∀ j c, cs[j]? = some c → ∃ chunksJson chunkJson,
          itemJson.get "chunks" = some chunksJson ∧ chunksJson.idx j = some chunkJson ∧
          ChunkReadFrom chunkJson c := by
  intro n
  induction n with
  | zero =>
    intro init it h
    rw [forLoop_zero] at h
    simp only [Option.some.injEq] at h
    subst h
    exact ⟨rfl, rfl, rfl, rfl, [], by simp, rfl, by simp⟩
  | succ n ih =>
    intro init it h
    rw [forLoop_succ, Option.bind_eq_some] at h
    obtain ⟨mid, hmid, hstep⟩ := h
    obtain ⟨hp, hm, hpid, hdep, cs, hcs, hlen, hread⟩ := ih init mid hmid
    obtain ⟨chunksJson, chunkJson, chunk, hget, hidx, hchunk, rfl⟩ :=
      chunkLoopBody_eq_some _ _ _ _ hstep
    refine ⟨hp, hm, hpid, hdep, cs ++ [chunk], ?_, by simp [hlen], ?_⟩
    · simp only [hcs, List.append_assoc]
    · intro j c hj
      rcases Nat.lt_or_ge j cs.length with hlt | hge
      · rw [List.getElem?_append_left hlt] at hj
        exact hread j c hj
      · rw [List.getElem?_append_right hge] at hj
        have hj0 : j = n := by
          by_contra hne
          have : j - cs.length ≠ 0 := by omega
          obtain ⟨k, hk⟩ := Nat.exists_eq_succ_of_ne_zero this
          rw [hk] at hj
          simp at hj
        subst hj0
        simp only [hlen, Nat.sub_self, List.getElem?_cons_zero, Option.some.injEq] at hj
        subst hj
        exact ⟨chunksJson, chunkJson, hget, hidx, chunkOfJson_readFrom _ _ _ _ hchunk⟩

/-- What is known of an item that was built: its chunks are those of the
manifest item, in order and number, and the fields the chunk loop does not
touch are those set before it. -/
theorem buildDepotItem_chunks (itemJson : Json) (dep : Bool) (item : galaxyDepotItem)
    (h : buildDepotItem itemJson dep = some item) :
    ∃ chunksJson, itemJson.get "chunks" = some chunksJson ∧
      item.chunks.length = chunksJson.size ∧
      ∀ j c, item.chunks[j]? = some c →
        ∃ chunkJson, chunksJson.idx j = some chunkJson ∧ ChunkReadFrom chunkJson c := by
  obtain ⟨_, path, chunksJson, it, md5, _, _, hget, hloop, rfl⟩ := buildDepotItem_eq_some _ _ _ h
  obtain ⟨_, _, _, _, cs, hcs, hlen, hread⟩ := chunkLoop_spec itemJson _ _ _ hloop
  simp only [emptyDepotItem, List.nil_append] at hcs
  refine ⟨chunksJson, hget, by simp [hcs, hlen], ?_⟩
  intro j c hj
  simp only [hcs] at hj
  obtain ⟨cj, chunkJson, hget', hidx, hrd⟩ := hread j c hj
  rw [hget] at hget'
  simp only [Option.some.injEq] at hget'
  subst hget'
  exact ⟨chunkJson, hidx, hrd⟩

theorem itemLoop_spec (json : Json) (dep : Bool) (es : List Json)
    (hes : (json.get "depot").bind (fun d => d.get "items") = some (.arr es)) :
    ∀ (n : Nat), n ≤ es.length → ∀ items,
      forLoop n (itemLoopBody json dep) [] = some items →
      List.Forall₂ (fun itemJson item => buildDepotItem itemJson dep = some item)
        ((es.take n).filter chunksNotEmpty) items := by
  intro n
  induction n with
  | zero =>
    intro _ items h
    rw [forLoop_zero] at h
    simp only [Option.some.injEq] at h
    subst h
    simp
  | succ n ih =>
    intro hn items h
    rw [forLoop_succ, Option.bind_eq_some] at h
    obtain ⟨mid, hmid, hstep⟩ := h
    have hprev := ih (Nat.le_of_succ_le hn) mid hmid
    have hlt : n < es.length := hn
    have htake : es.take (n + 1) = es.take n ++ [es[n]] := by
      rw [List.take_succ, List.getElem?_eq_getElem hlt]
      rfl
    rw [htake, List.filter_append]
    simp only [Option.bind_eq_some] at hes
    obtain ⟨d, hd, hitems⟩ := hes
    simp only [itemLoopBody, Option.bind_eq_bind, Option.bind_eq_some, Option.pure_def]
      at hstep
    obtain ⟨d', hd', its', hits', itemJson, hij, cj, hcj, hstep⟩ := hstep
    rw [hd, Option.some.injEq] at hd'
    subst hd'
    rw [hitems, Option.some.injEq] at hits'
    subst hits'
    have hgetD : es.getD n Json.null = es[n] := by
      simp [List.getD_eq_getElem?_getD, List.getElem?_eq_getElem hlt]
    simp only [Json.idx, hgetD, Option.some.injEq] at hij
    subst hij
    split at hstep
    · rename_i hne
      simp only [Option.bind_eq_some, Option.some.injEq] at hstep
      obtain ⟨it, hit, rfl⟩ := hstep
      have : chunksNotEmpty es[n] = true := by
        unfold chunksNotEmpty
        rw [hcj]
        exact hne
      simp only [List.filter_cons, this, if_true, List.filter_nil]
      exact List.rel_append hprev (List.Forall₂.cons hit List.Forall₂.nil)
    · rename_i hne
      simp only [Option.some.injEq] at hstep
      subst hstep
      have : chunksNotEmpty es[n] = false := by
        unfold chunksNotEmpty
        rw [hcj]
        simpa using hne
      simp only [List.filter_cons, this, List.filter_nil, List.append_nil, Bool.false_eq_true,
        if_false]
      exact hprev

/-- The output of the normaliser is, in manifest order, the items built from
the manifest items that pass the test of line 202. -/
theorem depotItemsOfManifest_forall₂ (json : Json) (dep : Bool) (items : List galaxyDepotItem)
    (h : depotItemsOfManifest json dep = some items) :
    List.Forall₂ (fun itemJson item => buildDepotItem itemJson dep = some item)
      ((manifestItems json).filter chunksNotEmpty) items := by
  simp only [depotItemsOfManifest, Option.bind_eq_bind, Option.bind_eq_some] at h
  obtain ⟨d, hd, its, hits, h⟩ := h
  have hes : (json.get "depot").bind (fun d => d.get "items") = some its := by
    rw [hd, Option.some_bind, hits]
  have hnil : ∀ v, (∀ es, v ≠ Json.arr es) →
      (json.get "depot").bind (fun d => d.get "items") = some v → manifestItems json = [] := by
    intro v hv hvs
    unfold manifestItems
    rw [hvs]
    cases v <;> first | rfl | exact absurd rfl (hv _)
  cases its with
  | arr es =>
    have := itemLoop_spec json dep es hes es.length (Nat.le_refl _) items h
    rw [List.take_length] at this
    have hm : manifestItems json = es := by
      unfold manifestItems
      rw [hes]
    rw [hm]
    exact this
  | obj ms =>
    cases ms with
    | nil =>
      simp only [Json.size, List.length_nil, forLoop_zero, Option.some.injEq] at h
      subst h
      rw [hnil _ (by intro es; exact Json.noConfusion) hes]
      exact List.Forall₂.nil
    | cons m ms =>
      exfalso
      simp only [Json.size, List.length_cons, forLoop, List.range_succ_eq_map, List.foldlM_cons,
        Option.bind_eq_bind, Option.bind_eq_some] at h
      obtain ⟨_, h, _⟩ := h
      simp only [itemLoopBody, Option.bind_eq_bind, Option.bind_eq_some] at h
      obtain ⟨d', hd', its', hits', ij, hij, _⟩ := h
      rw [hd, Option.some.injEq] at hd'
      subst hd'
      rw [hits, Option.some.injEq] at hits'
      subst hits'
      simp [Json.idx] at hij
  | null | bool _ | int _ | uint _ | real _ _ | str _ =>
    simp only [Json.size, forLoop_zero, Option.some.injEq] at h
    subst h
    rw [hnil _ (by intro es; exact Json.noConfusion) hes]
    exact List.Forall₂.nil

theorem forall₂_exists_mem_left {α β : Type} {R : α → β → Prop} :
    ∀ {xs : List α} {ys : List β}, List.Forall₂ R xs ys → ∀ y ∈ ys, ∃ x ∈ xs, R x y := by
  intro xs ys h
  induction h with
  | nil => intro y hy; cases hy
  | cons hxy _ ih =>
    intro y hy
    rcases List.mem_cons.mp hy with rfl | hy'
    · exact ⟨_, List.mem_cons_self _ _, hxy⟩
    · obtain ⟨x, hx, hr⟩ := ih y hy'
      exact ⟨x, List.mem_cons_of_mem _ hx, hr⟩

theorem chunkOfJson_md5 (chunkJson : Json) (offC offU : Nat) (c : galaxyDepotItemChunk)
    (h : chunkOfJson chunkJson offC offU = some c) :
    (chunkJson.get "md5").bind Json.asString = some c.md5_uncompressed := by
  simp only [chunkOfJson, Option.bind_eq_bind, Option.bind_eq_some, Option.pure_def,
    Option.some.injEq] at h
  obtain ⟨_, _, _, _, m, hm, s, hs, _, _, _, _, _, _, _, _, rfl⟩ := h
  rw [hm, Option.some_bind, hs]

/-- The checksum rule of lines 227-230 for one built item. -/
theorem buildDepotItem_md5 (itemJson : Json) (dep : Bool) (item : galaxyDepotItem)
    (h : buildDepotItem itemJson dep = some item) :
    (itemJson.isMember "md5" = some true →
      (itemJson.get "md5").bind Json.asString = some item.md5) ∧
    (itemJson.isMember "md5" = some false →
      (∀ c, item.chunks = [c] → item.md5 = c.md5_uncompressed) ∧
      (item.chunks.length ≠ 1 → item.md5 = [])) := by
  obtain ⟨chunksJson, hget, hlen, hread⟩ := buildDepotItem_chunks _ _ _ h
  simp only [buildDepotItem, Option.bind_eq_bind, Option.bind_eq_some, Option.pure_def] at h
  obtain ⟨pj, hpj, p, hp, cj, hcj, it, hloop, b, hb, h⟩ := h
  rw [hget, Option.some.injEq] at hcj
  subst hcj
  obtain ⟨_, hmd5, _, _, _⟩ := chunkLoop_spec itemJson _ _ _ hloop
  constructor
  · intro hmem
    rw [hb, Option.some.injEq] at hmem
    subst hmem
    simp only [if_true, Option.bind_eq_some, Option.some.injEq] at h
    obtain ⟨v, hv, s, hs, rfl⟩ := h
    rw [hv, Option.some_bind, hs]
  · intro hmem
    rw [hb, Option.some.injEq] at hmem
    subst hmem
    simp only [Bool.false_eq_true, if_false, Option.bind_eq_some] at h
    obtain ⟨cj', hcj', h⟩ := h
    rw [hget, Option.some.injEq] at hcj'
    subst hcj'
    split at h
    · rename_i hone
      simp only [Option.bind_eq_some, Option.some.injEq] at h
      obtain ⟨cj', hcj', c0, hc0, m, hm, s, hs, rfl⟩ := h
      rw [hget, Option.some.injEq] at hcj'
      subst hcj'
      constructor
      · intro c hc
        simp only at hc ⊢
        obtain ⟨chunkJson, hidx, hrd⟩ := hread 0 c (by simp [hc])
        rw [hc0, Option.some.injEq] at hidx
        subst hidx
        have := chunkOfJson_md5 _ _ _ _ hrd
        rw [hm, Option.some_bind, hs, Option.some.injEq] at this
        exact this
      · intro hne
        exact absurd (hlen.trans hone) hne
    · rename_i hone
      simp only [Option.some.injEq] at h
      subst h
      constructor
      · intro c hc
        exfalso
        apply hone
        rw [← hlen, hc, List.length_singleton]
      · intro _
        exact hmd5

/-! ## The depot normaliser: claims C1, C2, C3 -/

theorem getDepotItemsVector_eq (getResponseJson : Str → Bool → Json) (hash : Str) (dep : Bool)
    (json : Json) (hman : getManifestV2 getResponseJson hash dep = some json) :
    getDepotItemsVector getResponseJson hash dep = depotItemsOfManifest json dep := by
  simp only [getDepotItemsVector, hman, Option.bind_eq_bind, Option.some_bind]

/-- C1: in every item returned by `getDepotItemsVector` the first chunk is at
offsets 0, the offsets of the chunk of index `i` are the sums of the compressed
(resp. uncompressed) sizes of the chunks before it, and the two totals are the
sums of the sizes of all its chunks, all in unsigned 64-bit arithmetic. -/
theorem getDepotItemsVector_chunk_offsets (getResponseJson : Str → Bool → Json) (hash : Str)
    (dep : Bool) (items : List galaxyDepotItem)
    (h : getDepotItemsVector getResponseJson hash dep = some items) :
    ∀ item ∈ items,
      (∀ c, item.chunks[0]? = some c → c.offset_compressed = 0 ∧ c.offset_uncompressed = 0) ∧
      (∀ i c, item.chunks[i]? = some c →
        c.offset_compressed = sumCompressed (item.chunks.take i) % 2 ^ 64 ∧
        c.offset_uncompressed = sumUncompressed (item.chunks.take i) % 2 ^ 64) ∧
      item.totalSizeCompressed = sumCompressed item.chunks % 2 ^ 64 ∧
      item.totalSizeUncompressed = sumUncompressed item.chunks % 2 ^ 64 := by
  intro item hitem
  simp only [getDepotItemsVector, Option.bind_eq_bind, Option.bind_eq_some] at h
  obtain ⟨json, _, h⟩ := h
  obtain ⟨hoff, htc, htu⟩ := depotItemsOfManifest_offsets json dep items h item hitem
  refine ⟨?_, hoff, htc, htu⟩
  intro c hc
  have := hoff 0 c hc
  simpa [sumCompressed, sumUncompressed] using this

theorem getDepotItemsVector_chunk_offsets_witness :
    getDepotItemsVector (fun _ _ => exampleManifest) "abcdef123456" false = some exampleItems ∧
    ∀ item ∈ exampleItems,
      (∀ c, item.chunks[0]? = some c → c.offset_compressed = 0 ∧ c.offset_uncompressed = 0) ∧
      (∀ i c, item.chunks[i]? = some c →
        c.offset_compressed = sumCompressed (item.chunks.take i) % 2 ^ 64 ∧
        c.offset_uncompressed = sumUncompressed (item.chunks.take i) % 2 ^ 64) ∧
      item.totalSizeCompressed = sumCompressed item.chunks % 2 ^ 64 ∧
      item.totalSizeUncompressed = sumUncompressed item.chunks % 2 ^ 64 :=
  ⟨by decide, getDepotItemsVector_chunk_offsets (fun _ _ => exampleManifest) "abcdef123456"
    false exampleItems (by decide)⟩

/-- C2: every item emitted by `getDepotItemsVector` is built from a manifest
item; its `md5` is the text of that item's own `md5` member when it has one;
otherwise the checksum of its only chunk when it has exactly one chunk;
otherwise empty. -/
theorem getDepotItemsVector_md5 (getResponseJson : Str → Bool → Json) (hash : Str)
    (dep : Bool) (json : Json) (items : List galaxyDepotItem)
    (hman : getManifestV2 getResponseJson hash dep = some json)
    (h : getDepotItemsVector getResponseJson hash dep = some items) :
    ∀ item ∈ items, ∃ itemJson ∈ manifestItems json,
      buildDepotItem itemJson dep = some item ∧
      (itemJson.isMember "md5" = some true →
        (itemJson.get "md5").bind Json.asString = some item.md5) ∧
      (itemJson.isMember "md5" = some false →
        (∀ c, item.chunks = [c] → item.md5 = c.md5_uncompressed) ∧
        (item.chunks.length ≠ 1 → item.md5 = [])) := by
  intro item hitem
  rw [getDepotItemsVector_eq _ _ _ json hman] at h
  obtain ⟨itemJson, hmem, hbuild⟩ :=
    forall₂_exists_mem_left (depotItemsOfManifest_forall₂ json dep items h) item hitem
  exact ⟨itemJson, List.mem_of_mem_filter hmem, hbuild, buildDepotItem_md5 _ _ _ hbuild⟩

theorem getDepotItemsVector_md5_witness :
    getManifestV2 (fun _ _ => exampleManifest) "ab/cd/abcdef123456" false
      = some exampleManifest ∧
    getDepotItemsVector (fun _ _ => exampleManifest) "ab/cd/abcdef123456" false
      = some exampleItems ∧
    ∀ item ∈ exampleItems, ∃ itemJson ∈ manifestItems exampleManifest,
      buildDepotItem itemJson false = some item ∧
      (itemJson.isMember "md5" = some true →
        (itemJson.get "md5").bind Json.asString = some item.md5) ∧
      (itemJson.isMember "md5" = some false →
        (∀ c, item.chunks = [c] → item.md5 = c.md5_uncompressed) ∧
        (item.chunks.length ≠ 1 → item.md5 = [])) :=
  ⟨rfl, by decide,
   getDepotItemsVector_md5 (fun _ _ => exampleManifest) "ab/cd/abcdef123456" false
    exampleManifest exampleItems rfl (by decide)⟩

theorem forall₂_imp_of_mem {α β : Type} {R S : α → β → Prop} :
    ∀ {xs : List α} {ys : List β}, List.Forall₂ R xs ys →
      (∀ x ∈ xs, ∀ y, R x y → S x y) → List.Forall₂ S xs ys := by
  intro xs ys h
  induction h with
  | nil => intro _; exact List.Forall₂.nil
  | cons hxy _ ih =>
    intro himp
    exact List.Forall₂.cons (himp _ (List.mem_cons_self _ _) _ hxy)
      (ih (fun x hx y hr => himp x (List.mem_cons_of_mem _ hx) y hr))

theorem hasChunkList_eq_some (itemJson : Json) (h : hasChunkList itemJson = true) :
    ∃ c cs, itemJson.get "chunks" = some (.arr (c :: cs)) := by
  unfold hasChunkList at h
  split at h
  · rename_i c cs heq
    exact ⟨c, cs, heq⟩
  · cases h

/-- On a manifest item whose `chunks` member is a list or is missing, the test
of line 202 says whether the list is non-empty. -/
theorem chunksNotEmpty_eq_hasChunkList (itemJson : Json)
    (hlist : ∀ c, itemJson.get "chunks" = some c → c = .null ∨ ∃ es, c = .arr es) :
    chunksNotEmpty itemJson = hasChunkList itemJson := by
  unfold chunksNotEmpty hasChunkList
  cases hget : itemJson.get "chunks" with
  | none => rfl
  | some c =>
    rcases hlist c hget with rfl | ⟨es, rfl⟩
    · rfl
    · cases es <;> rfl

/-- C3, as amended: for a manifest whose items each have a list of chunks or
none, the output of `getDepotItemsVector` holds, in manifest order, exactly one
item for each manifest item whose chunk list is non-empty and none for the
others; each output item has at least one chunk and as many chunks as the
manifest item, the chunk of index `j` being read from the manifest chunk of
index `j`. -/
theorem getDepotItemsVector_items (getResponseJson : Str → Bool → Json) (hash : Str)
    (dep : Bool) (json : Json) (items : List galaxyDepotItem)
    (hman : getManifestV2 getResponseJson hash dep = some json)
    (hlist : ∀ itemJson ∈ manifestItems json, ∀ c, itemJson.get "chunks" = some c →
      c = .null ∨ ∃ es, c = .arr es)
    (h : getDepotItemsVector getResponseJson hash dep = some items) :
    List.Forall₂
      (fun itemJson item => ∃ cs, itemJson.get "chunks" = some (.arr cs) ∧
        item.chunks.length = cs.length ∧ 0 < item.chunks.length ∧
        ∀ (j : Nat) (c : galaxyDepotItemChunk), item.chunks[j]? = some c →
          ∃ chunkJson, cs[j]? = some chunkJson ∧ ChunkReadFrom chunkJson c)
      ((manifestItems json).filter hasChunkList) items := by
  rw [getDepotItemsVector_eq _ _ _ json hman] at h
  have hbuilt := depotItemsOfManifest_forall₂ json dep items h
  have hfilter : (manifestItems json).filter chunksNotEmpty
      = (manifestItems json).filter hasChunkList :=
    List.filter_congr (fun x hx => chunksNotEmpty_eq_hasChunkList x (hlist x hx))
  rw [hfilter] at hbuilt
  refine forall₂_imp_of_mem hbuilt ?_
  intro itemJson hmem item hbuild
  obtain ⟨c0, cs, hget⟩ := hasChunkList_eq_some itemJson (List.mem_filter.mp hmem).2
  obtain ⟨chunksJson, hget', hlen, hread⟩ := buildDepotItem_chunks _ _ _ hbuild
  rw [hget, Option.some.injEq] at hget'
  subst hget'
  have hlen' : item.chunks.length = (c0 :: cs).length := hlen
  refine ⟨c0 :: cs, hget, hlen', by rw [hlen']; exact Nat.succ_pos _, ?_⟩
  intro j c hj
  obtain ⟨chunkJson, hidx, hrd⟩ := hread j c hj
  refine ⟨chunkJson, ?_, hrd⟩
  have hjlt : j < (c0 :: cs).length := by
    rw [← hlen']
    by_contra hge
    rw [List.getElem?_eq_none (Nat.le_of_not_lt hge)] at hj
    cases hj
  simp only [Json.idx, Option.some.injEq] at hidx
  rw [← hidx, List.getD_eq_getElem?_getD, List.getElem?_eq_getElem hjlt]
  rfl

theorem getDepotItemsVector_items_witness :
    getManifestV2 (fun _ _ => exampleManifest) "abcdef123456" true = some exampleManifest ∧
    (∀ itemJson ∈ manifestItems exampleManifest, ∀ c, itemJson.get "chunks" = some c →
      c = .null ∨ ∃ es, c = .arr es) ∧
    ((manifestItems exampleManifest).filter hasChunkList).length = 3 ∧
    List.Forall₂
      (fun itemJson item => ∃ cs, itemJson.get "chunks" = some (.arr cs) ∧
        item.chunks.length = cs.length ∧ 0 < item.chunks.length ∧
        ∀ (j : Nat) (c : galaxyDepotItemChunk), item.chunks[j]? = some c →
          ∃ chunkJson, cs[j]? = some chunkJson ∧ ChunkReadFrom chunkJson c)
      ((manifestItems exampleManifest).filter hasChunkList)
      (exampleItems.map (fun item => { item with isDependency := true })) :=
  have hlist : ∀ itemJson ∈ manifestItems exampleManifest, ∀ c,
      itemJson.get "chunks" = some c → c = .null ∨ ∃ es, c = .arr es := by
    intro itemJson hmem c hc
    have hm : manifestItems exampleManifest = exampleManifestItems := rfl
    rw [hm] at hmem
    simp only [exampleManifestItems, List.mem_cons, List.mem_singleton, List.not_mem_nil,
      or_false] at hmem
    rcases hmem with rfl | rfl | rfl | rfl <;>
      · cases hc
        first
          | exact Or.inl rfl
          | exact Or.inr ⟨_, rfl⟩
  ⟨rfl, hlist, rfl,
   getDepotItemsVector_items (fun _ _ => exampleManifest) "abcdef123456" true
    exampleManifest _ rfl hlist (by decide)⟩

/-- An item whose `chunks` is the number 5: the manifest has no item with a
non-empty chunk list, `empty()` is false on a number and `size()` is 0, and the
output has one item, with no chunk. -/
theorem getDepotItemsVector_scalar_chunks_counterexample :
    (manifestItems exampleScalarChunksManifest).filter hasChunkList = [] ∧
    (manifestItems exampleScalarChunksManifest).map (fun itemJson => itemJson.get "chunks")
      = [some (.uint 5)] ∧
    (Json.uint 5).empty = false ∧ (Json.uint 5).size = 0 ∧
    getDepotItemsVector (fun _ _ => exampleScalarChunksManifest) "abcdef123456" false
      = some [{ path := "a", chunks := [], totalSizeCompressed := 0
                totalSizeUncompressed := 0, md5 := "", product_id := ""
                isDependency := false }] := by
  refine ⟨rfl, rfl, rfl, rfl, by decide⟩

/-! ## Searching in strings -/

theorem findFrom_eq_npos (pat : Str) : ∀ (s : Str) (i : Nat),
    (∀ k, k ≤ s.length → ¬ pat <+: s.drop k) → findFrom pat s i = npos := by
  intro s
  induction s with
  | nil =>
    intro i h
    have h0 := h 0 (Nat.le_refl _)
    simp only [List.drop_nil, List.prefix_nil] at h0
    simp [findFrom, h0]
  | cons c cs ih =>
    intro i h
    have h0 := h 0 (Nat.zero_le _)
    rw [List.drop_zero, ← List.isPrefixOf_iff_prefix] at h0
    rw [findFrom, if_neg h0]
    apply ih
    intro k hk
    exact h (k + 1) (Nat.succ_le_succ hk)

theorem findFrom_eq_add (pat : Str) : ∀ (s : Str) (i k : Nat),
    k ≤ s.length → pat <+: s.drop k → (∀ k', k' < k → ¬ pat <+: s.drop k') →
    findFrom pat s i = i + k := by
  intro s
  induction s with
  | nil =>
    intro i k hk hpre _
    have hk0 : k = 0 := Nat.le_zero.mp hk
    subst hk0
    simp only [List.drop_nil, List.prefix_nil] at hpre
    simp [findFrom, hpre]
  | cons c cs ih =>
    intro i k hk hpre hmin
    cases k with
    | zero =>
      rw [List.drop_zero, ← List.isPrefixOf_iff_prefix] at hpre
      rw [findFrom, if_pos hpre, Nat.add_zero]
    | succ k =>
      have h0 := hmin 0 (Nat.succ_pos _)
      rw [List.drop_zero, ← List.isPrefixOf_iff_prefix] at h0
      rw [findFrom, if_neg h0, ih (i + 1) k (Nat.le_of_succ_le_succ hk) hpre
        (fun k' hk' => hmin (k' + 1) (Nat.succ_lt_succ hk'))]
      omega

theorem find_of_firstOccurrence (s pat : Str) (k : Nat) (h : FirstOccurrence s pat k) :
    find s pat = k := by
  rw [find, findFrom_eq_add pat s 0 k h.1 h.2.1 h.2.2, Nat.zero_add]

theorem find_eq_npos_of_absent (s pat : Str) (h : ¬ pat <:+: s) : find s pat = npos := by
  apply findFrom_eq_npos
  intro k _ hpre
  exact h (hpre.isInfix.trans (List.drop_suffix k s).isInfix)

theorem exists_firstOccurrence (s pat : Str) (h : pat <:+: s) :
    ∃ k, FirstOccurrence s pat k := by
  have hex : ∃ k, k ≤ s.length ∧ pat <+: s.drop k := by
    obtain ⟨a, b, hab⟩ := h
    refine ⟨a.length, ?_, ?_⟩
    · rw [← hab]; simp
    · rw [← hab, List.append_assoc, List.drop_left]
      exact List.prefix_append _ _
  classical
  refine ⟨Nat.find hex, (Nat.find_spec hex).1, (Nat.find_spec hex).2, ?_⟩
  intro k' hk' hpre
  refine Nat.find_min hex hk' ⟨?_, hpre⟩
  exact Nat.le_trans (Nat.le_of_lt hk') (Nat.find_spec hex).1

theorem find_ne_npos_of_present (s pat : Str) (hsize : s.length < npos) (h : pat <:+: s) :
    find s pat ≠ npos := by
  obtain ⟨k, hk⟩ := exists_firstOccurrence s pat h
  rw [find_of_firstOccurrence s pat k hk]
  exact Nat.ne_of_lt (Nat.lt_of_le_of_lt hk.1 hsize)

theorem singleton_infix_iff (c : Char) (s : Str) : [c] <:+: s ↔ c ∈ s := by
  constructor
  · rintro ⟨a, b, rfl⟩
    simp
  · intro h
    obtain ⟨a, b, rfl⟩ := List.append_of_mem h
    exact ⟨a, b, by simp⟩

/-! ## Hash sharding: claim C4 -/

/-- C4, as amended: for every hash of at least 4 characters that contains no
`/`, `hashToGalaxyPath` returns its first 2 characters, `/`, its next 2
characters, `/`, then the full hash; every string that contains `/` is
returned unchanged. -/
theorem hashToGalaxyPath_sharded (hash : Str) (hsize : hash.length < npos) :
    ('/' ∉ hash → 4 ≤ hash.length →
      hashToGalaxyPath hash
        = some (hash.take 2 ++ "/".toList ++ (hash.drop 2).take 2 ++ "/".toList ++ hash)) ∧
    ('/' ∈ hash → hashToGalaxyPath hash = some hash) := by
  constructor
  · intro hno hlen
    have hfind : find hash "/".toList = npos :=
      find_eq_npos_of_absent _ _ (fun h => hno ((singleton_infix_iff _ _).mp h))
    have h2 : iterRange hash 0 2 = some (hash.take 2) := by
      simp [iterRange]; omega
    have h4 : iterRange hash 2 4 = some ((hash.drop 2).take 2) := by
      have : (hash.take 4).drop 2 = (hash.drop 2).take 2 := by
        rw [List.drop_take]
      simp only [iterRange, this]
      rw [if_pos]
      omega
    simp only [hashToGalaxyPath, hfind, if_true, h2, h4, Option.bind_eq_bind, Option.some_bind,
      Option.pure_def]
  · intro hmem
    have hfind : find hash "/".toList ≠ npos :=
      find_ne_npos_of_present _ _ hsize ((singleton_infix_iff _ _).mpr hmem)
    simp only [hashToGalaxyPath, hfind, if_false, Option.pure_def]

theorem hashToGalaxyPath_sharded_witness :
    hashToGalaxyPath "abcdef123456".toList = some "ab/cd/abcdef123456".toList ∧
    hashToGalaxyPath "ab/cd/abcdef123456".toList = some "ab/cd/abcdef123456".toList :=
  ⟨(hashToGalaxyPath_sharded "abcdef123456".toList (by decide)).1 (by decide) (by decide),
   (hashToGalaxyPath_sharded "ab/cd/abcdef123456".toList (by decide)).2 (by decide)⟩

/-- C4 fails as stated on a hash of fewer than 4 characters: on `abc`, which has
no `/`, the iterator `hash.begin()+4` is past the end and no path is returned. -/
theorem hashToGalaxyPath_short_counterexample :
    '/' ∉ "abc".toList ∧ hashToGalaxyPath "abc".toList = none ∧
    hashToGalaxyPath "abc".toList ≠
      some ("abc".toList.take 2 ++ "/".toList ++ ("abc".toList.drop 2).take 2 ++ "/".toList
        ++ "abc".toList) := by
  decide

/-! ## Searching for a character -/

theorem findFirstOfFrom_eq_npos (chars : Str) : ∀ (s : Str) (i : Nat),
    (∀ d ∈ s, chars.contains d = false) → findFirstOfFrom chars s i = npos := by
  intro s
  induction s with
  | nil => intro i _; rfl
  | cons c cs ih =>
    intro i h
    have hc := h c (List.mem_cons_self _ _)
    rw [findFirstOfFrom, hc]
    exact ih (i + 1) (fun d hd => h d (List.mem_cons_of_mem _ hd))

theorem findFirstOfFrom_eq_add (chars : Str) (c : Char) (rest : Str)
    (hc : chars.contains c = true) : ∀ (pre : Str) (i : Nat),
    (∀ d ∈ pre, chars.contains d = false) →
    findFirstOfFrom chars (pre ++ c :: rest) i = i + pre.length := by
  intro pre
  induction pre with
  | nil =>
    intro i _
    rw [List.nil_append, findFirstOfFrom, hc]
    simp
  | cons p pre ih =>
    intro i h
    have hp := h p (List.mem_cons_self _ _)
    rw [List.cons_append, findFirstOfFrom, hp]
    simp only [Bool.false_eq_true, if_false]
    rw [ih (i + 1) (fun d hd => h d (List.mem_cons_of_mem _ hd)), List.length_cons]
    omega

theorem findLastOfFrom_eq_acc (chars : Str) : ∀ (s : Str) (i acc : Nat),
    (∀ d ∈ s, chars.contains d = false) → findLastOfFrom chars s i acc = acc := by
  intro s
  induction s with
  | nil => intro i acc _; rfl
  | cons c cs ih =>
    intro i acc h
    have hc := h c (List.mem_cons_self _ _)
    rw [findLastOfFrom, hc]
    simp only [Bool.false_eq_true, if_false]
    exact ih (i + 1) acc (fun d hd => h d (List.mem_cons_of_mem _ hd))

theorem findLastOfFrom_eq_add (chars : Str) (c : Char) (rest : Str)
    (hc : chars.contains c = true) (hrest : ∀ d ∈ rest, chars.contains d = false) :
    ∀ (pre : Str) (i acc : Nat),
    findLastOfFrom chars (pre ++ c :: rest) i acc = i + pre.length := by
  intro pre
  induction pre with
  | nil =>
    intro i acc
    simp only [List.nil_append, findLastOfFrom, hc, if_true, List.length_nil, Nat.add_zero]
    exact findLastOfFrom_eq_acc chars rest (i + 1) i hrest
  | cons p pre ih =>
    intro i acc
    rw [List.cons_append, findLastOfFrom, ih, List.length_cons]
    omega

theorem contains_singleton (c d : Char) : ([c] : Str).contains d = decide (d = c) := by
  by_cases h : d = c
  · subst h
    simp
  · simp [h]

theorem find_first_of_char (c : Char) (pre rest : Str) (hpre : c ∉ pre) :
    find_first_of (pre ++ c :: rest) [c] = pre.length := by
  rw [find_first_of, findFirstOfFrom_eq_add [c] c rest (by simp [contains_singleton]) pre 0
    (fun d hd => by
      rw [contains_singleton, decide_eq_false_iff_not]
      rintro rfl
      exact hpre hd), Nat.zero_add]

theorem find_first_of_char_not_mem (c : Char) (s : Str) (h : c ∉ s) :
    find_first_of s [c] = npos :=
  findFirstOfFrom_eq_npos [c] s 0 (fun d hd => by
    rw [contains_singleton, decide_eq_false_iff_not]
    rintro rfl
    exact h hd)

theorem find_last_of_char (c : Char) (pre rest : Str) (hrest : c ∉ rest) :
    find_last_of (pre ++ c :: rest) [c] = pre.length := by
  rw [find_last_of, findLastOfFrom_eq_add [c] c rest (by simp [contains_singleton])
    (fun d hd => by
      rw [contains_singleton, decide_eq_false_iff_not]
      rintro rfl
      exact hrest hd) pre 0 npos, Nat.zero_add]

theorem find_last_of_char_not_mem (c : Char) (s : Str) (h : c ∉ s) :
    find_last_of s [c] = npos :=
  findLastOfFrom_eq_acc [c] s 0 npos (fun d hd => by
    rw [contains_singleton, decide_eq_false_iff_not]
    rintro rfl
    exact h hd)

/-- A string that contains `c` splits at its last `c`. -/
theorem exists_last_occurrence (c : Char) (s : Str) (h : c ∈ s) :
    ∃ pre rest, s = pre ++ c :: rest ∧ c ∉ rest := by
  have hr : c ∈ s.reverse := List.mem_reverse.mpr h
  obtain ⟨a, b, hab, ha⟩ := List.eq_append_cons_of_mem hr
  refine ⟨b.reverse, a.reverse, ?_, fun hm => ha (List.mem_reverse.mp hm)⟩
  have := congrArg List.reverse hab
  simpa using this

/-- A string that contains `c` splits at its first `c`. -/
theorem exists_first_occurrence (c : Char) (s : Str) (h : c ∈ s) :
    ∃ pre rest, s = pre ++ c :: rest ∧ c ∉ pre := by
  obtain ⟨a, b, hab, ha⟩ := List.eq_append_cons_of_mem h
  exact ⟨a, b, hab, ha⟩

/-- Of two splits of a string at a character, the one at the last occurrence
has the shorter rest. -/
theorem suffix_of_last_occurrence (c : Char) (pre rest pre' rest' : Str)
    (h : pre ++ c :: rest = pre' ++ c :: rest') (hrest : c ∉ rest) : rest <:+ rest' := by
  rcases List.append_eq_append_iff.mp h with ⟨a, rfl, ha⟩ | ⟨a, rfl, ha⟩
  · cases a with
    | nil =>
      simp only [List.nil_append, List.cons.injEq, true_and] at ha
      exact ha ▸ List.suffix_refl _
    | cons x a =>
      simp only [List.cons_append, List.cons.injEq] at ha
      obtain ⟨rfl, rfl⟩ := ha
      exact absurd (by simp) hrest
  · cases a with
    | nil =>
      simp only [List.nil_append, List.cons.injEq, true_and] at ha
      exact ha ▸ List.suffix_refl _
    | cons x a =>
      simp only [List.cons_append, List.cons.injEq] at ha
      obtain ⟨rfl, rfl⟩ := ha
      exact ⟨a ++ [c], by simp⟩

/-! ## The query workaround -/

theorem iterRange_zero (s : Str) (k : Nat) (hk : k ≤ s.length) :
    iterRange s 0 k = some (s.take k) := by
  simp [iterRange, hk]

/-- The workaround returns a prefix of the path. -/
theorem cutQueryFragment_isPrefix (path r : Str) (h : cutQueryFragment path = some r) :
    r <+: path := by
  unfold cutQueryFragment at h
  split at h
  · split at h
    · unfold iterRange at h
      split at h
      · simp only [Option.some.injEq, List.drop_zero] at h
        exact h ▸ List.take_prefix _ _
      · cases h
    · simp only [Option.pure_def, Option.some.injEq] at h
      exact h ▸ List.prefix_refl _
  · simp only [Option.pure_def, Option.some.injEq] at h
    exact h ▸ List.prefix_refl _

/-- On a path that is empty or begins with `/`, the workaround cuts at a `?`
lying after the final `/`, if there is one. -/
theorem cutQueryFragment_spec (path : Str) (hsize : path.length < npos)
    (hslash : path = [] ∨ ∃ tail, path = '/' :: tail) :
    ∃ r, cutQueryFragment path = some r ∧ CutAtQuery path r := by
  by_cases hq : '?' ∈ path
  · obtain ⟨pre, rest, hsplit, hrest⟩ := exists_last_occurrence '?' path hq
    have hfind : find path "?".toList ≠ npos :=
      find_ne_npos_of_present _ _ hsize ((singleton_infix_iff _ _).mpr hq)
    have hlastq : find_last_of path "?".toList = pre.length := by
      rw [hsplit]
      exact find_last_of_char '?' pre rest hrest
    by_cases hs : '/' ∈ rest
    · obtain ⟨a, b, hab, hb⟩ := exists_last_occurrence '/' rest hs
      have hlasts : find_last_of path "/".toList = (pre ++ '?' :: a).length := by
        rw [hsplit, hab]
        have : pre ++ '?' :: (a ++ '/' :: b) = (pre ++ '?' :: a) ++ '/' :: b := by simp
        rw [this]
        exact find_last_of_char '/' _ b hb
      refine ⟨path, ?_, Or.inr ⟨rfl, ?_⟩⟩
      · have hnot : ¬ find_last_of path "?".toList > find_last_of path "/".toList := by
          rw [hlastq, hlasts]
          simp
        unfold cutQueryFragment
        rw [if_pos hfind, if_neg hnot]
        rfl
      · intro pre' rest' h'
        rw [hsplit] at h'
        exact (suffix_of_last_occurrence '?' pre rest pre' rest' h' hrest).subset hs
    · have hpre : ∃ tail, pre = '/' :: tail := by
        rcases hslash with hnil | ⟨tail, htail⟩
        · rw [hnil] at hq
          cases hq
        · cases pre with
          | nil =>
            rw [htail] at hsplit
            simp only [List.nil_append, List.cons.injEq] at hsplit
            exact absurd hsplit.1 (by decide)
          | cons p pre =>
            rw [htail] at hsplit
            simp only [List.cons_append, List.cons.injEq] at hsplit
            exact ⟨pre, by rw [← hsplit.1]⟩
      obtain ⟨tail, htail⟩ := hpre
      have hmem : '/' ∈ pre := by rw [htail]; exact List.mem_cons_self _ _
      obtain ⟨a, b, hab, hb⟩ := exists_last_occurrence '/' pre hmem
      have hlasts : find_last_of path "/".toList = a.length := by
        rw [hsplit, hab]
        have : a ++ '/' :: b ++ '?' :: rest = a ++ '/' :: (b ++ '?' :: rest) := by simp
        rw [this]
        refine find_last_of_char '/' a _ ?_
        intro hm
        rcases List.mem_append.mp hm with h1 | h1
        · exact hb h1
        · rcases List.mem_cons.mp h1 with h2 | h2
          · exact absurd h2 (by decide)
          · exact hs h2
      have hgt : find_last_of path "?".toList > find_last_of path "/".toList := by
        rw [hlastq, hlasts, hab]
        simp
      refine ⟨pre, ?_, Or.inl ⟨rest, hsplit, hrest, hs⟩⟩
      have hle : pre.length ≤ path.length := by rw [hsplit]; simp
      unfold cutQueryFragment
      rw [if_pos hfind, if_pos hgt, hlastq, iterRange_zero path pre.length hle, hsplit,
        List.take_left' rfl]
  · have hfind : find path "?".toList = npos :=
      find_eq_npos_of_absent _ _ (fun h => hq ((singleton_infix_iff _ _).mp h))
    refine ⟨path, ?_, Or.inr ⟨rfl, ?_⟩⟩
    · unfold cutQueryFragment
      rw [if_neg (not_not.mpr hfind)]
      rfl
    · intro pre rest h
      exact absurd (by rw [h]; simp) hq

/-! ## The path resolver: claims C5, C6 -/

theorem findFrom_le (pat : Str) : ∀ (s : Str) (i : Nat),
    findFrom pat s i = npos ∨ findFrom pat s i ≤ i + s.length := by
  intro s
  induction s with
  | nil =>
    intro i
    unfold findFrom
    split
    · exact Or.inr (Nat.le_add_right _ _)
    · exact Or.inl rfl
  | cons c cs ih =>
    intro i
    unfold findFrom
    split
    · exact Or.inr (Nat.le_add_right _ _)
    · rcases ih (i + 1) with h | h
      · exact Or.inl h
      · refine Or.inr (Nat.le_trans h ?_)
        simp only [List.length_cons]
        omega

theorem find_le_length (s pat : Str) (h : find s pat ≠ npos) : find s pat ≤ s.length := by
  rcases findFrom_le pat s 0 with h0 | h0
  · exact absurd h0 h
  · simpa [find] using h0

theorem infix_of_find_ne_npos (s pat : Str) (h : find s pat ≠ npos) : pat <:+: s := by
  by_contra hn
  exact h (find_eq_npos_of_absent s pat hn)

/-- The workaround returns the path, or the path cut at a position after its
last `/`. -/
theorem cutQueryFragment_cases (path : Str) :
    cutQueryFragment path = some path ∨
    ∃ k, find_last_of path "/".toList < k ∧ cutQueryFragment path = some (path.take k) := by
  unfold cutQueryFragment
  split
  · split
    · rename_i hgt
      refine Or.inr ⟨find_last_of path "?".toList, hgt, ?_⟩
      unfold iterRange
      split
      · rfl
      · rename_i hn
        exfalso
        apply hn
        refine ⟨Nat.zero_le _, ?_⟩
        by_cases hq : '?' ∈ path
        · obtain ⟨pre, rest, hsplit, hrest⟩ := exists_last_occurrence '?' path hq
          have e1 : find_last_of (pre ++ '?' :: rest) "?".toList = pre.length :=
            find_last_of_char '?' pre rest hrest
          rw [hsplit, e1]
          simp
        · rename_i hfind
          exact absurd (find_eq_npos_of_absent path "?".toList
            (fun h => hq ((singleton_infix_iff _ _).mp h))) hfind
    · exact Or.inl rfl
  · exact Or.inl rfl

/-- C5, as amended: when the unescaped URL contains `?path=`, both markers
`&token=` and `&access_token=`, and a `/<gameSlug>/` segment whose first
occurrence starts at or before the earlier of the two markers, the path
returned is the substring from the first `/<gameSlug>/` to just before the
earlier marker, cut at its last `?` when that lies after the final `/`. -/
theorem getPathFromDownlinkUrl_slug_segment (curl_easy_unescape : Str → Str)
    (downlink_url gamename : Str) (s t a : Nat)
    (hsize : (curl_easy_unescape downlink_url).length < npos)
    (hpath : "?path=".toList <:+: curl_easy_unescape downlink_url)
    (ht : FirstOccurrence (curl_easy_unescape downlink_url) "&token=".toList t)
    (ha : FirstOccurrence (curl_easy_unescape downlink_url) "&access_token=".toList a)
    (hs : FirstOccurrence (curl_easy_unescape downlink_url)
      ("/".toList ++ gamename ++ "/".toList) s)
    (hord : s ≤ min t a) :
    ∃ r, getPathFromDownlinkUrl curl_easy_unescape downlink_url gamename = some r ∧
      CutAtQuery (((curl_easy_unescape downlink_url).take (min t a)).drop s) r := by
  generalize hu : curl_easy_unescape downlink_url = u at *
  have hfp : find u "?path=".toList ≠ npos := find_ne_npos_of_present _ _ hsize hpath
  have hft : find u "&token=".toList = t := find_of_firstOccurrence _ _ _ ht
  have hfa : find u "&access_token=".toList = a := find_of_firstOccurrence _ _ _ ha
  have hfs : find u ("/".toList ++ gamename ++ "/".toList) = s :=
    find_of_firstOccurrence _ _ _ hs
  have htn : t ≠ npos := Nat.ne_of_lt (Nat.lt_of_le_of_lt ht.1 hsize)
  have han : a ≠ npos := Nat.ne_of_lt (Nat.lt_of_le_of_lt ha.1 hsize)
  have hsn : s ≠ npos := Nat.ne_of_lt (Nat.lt_of_le_of_lt hs.1 hsize)
  have hend : filenameEndPos u = min t a := by
    unfold filenameEndPos
    rw [if_pos hfp]
    simp only [hft, hfa]
    rw [if_pos ⟨htn, han⟩]
  have hle : min t a ≤ u.length := Nat.le_trans (Nat.min_le_left _ _) ht.1
  have hrange : iterRange u s (min t a) = some ((u.take (min t a)).drop s) := by
    unfold iterRange
    rw [if_pos ⟨hord, hle⟩]
  have hsub : (u.take (min t a)).drop s = [] ∨
      ∃ tail, (u.take (min t a)).drop s = '/' :: tail := by
    obtain ⟨rest, hrest⟩ := hs.2.1
    rw [List.drop_take, ← hrest]
    cases hd : min t a - s with
    | zero => exact Or.inl rfl
    | succ n => exact Or.inr ⟨_, rfl⟩
  have hlen : ((u.take (min t a)).drop s).length < npos := by
    refine Nat.lt_of_le_of_lt ?_ hsize
    simp only [List.length_drop, List.length_take]
    omega
  obtain ⟨r, hr, hcut⟩ := cutQueryFragment_spec _ hlen hsub
  refine ⟨r, ?_, hcut⟩
  unfold getPathFromDownlinkUrl
  simp only [hu, hend, hfs]
  rw [if_pos hsn, hrange]
  exact hr

theorem getPathFromDownlinkUrl_slug_segment_witness :
    getPathFromDownlinkUrl id
        "https://example/dl?path=/game/file.exe&token=X&access_token=Y".toList "game".toList
      = some "/game/file.exe".toList ∧
    ∃ r, getPathFromDownlinkUrl id
        "https://example/dl?path=/game/file.exe&token=X&access_token=Y".toList "game".toList
        = some r ∧
      CutAtQuery ((("https://example/dl?path=/game/file.exe&token=X&access_token=Y".toList).take
        (min 38 46)).drop 24) r :=
  ⟨by decide,
   getPathFromDownlinkUrl_slug_segment id
    "https://example/dl?path=/game/file.exe&token=X&access_token=Y".toList "game".toList
    24 38 46 (by decide) (by decide) (by unfold FirstOccurrence; decide)
    (by unfold FirstOccurrence; decide) (by unfold FirstOccurrence; decide) (by decide)⟩

/-- C5 fails as stated when the slug segment only occurs after the earlier
marker: the start of the range is then past its end and no path is returned. -/
theorem getPathFromDownlinkUrl_slug_after_marker_counterexample :
    "?path=".toList <:+: "https://example/dl?path=x&token=/game/&access_token=Y".toList ∧
    "&token=".toList <:+: "https://example/dl?path=x&token=/game/&access_token=Y".toList ∧
    "&access_token=".toList <:+:
      "https://example/dl?path=x&token=/game/&access_token=Y".toList ∧
    "/game/".toList <:+: "https://example/dl?path=x&token=/game/&access_token=Y".toList ∧
    getPathFromDownlinkUrl id
      "https://example/dl?path=x&token=/game/&access_token=Y".toList "game".toList = none := by
  decide

theorem npos_succ_wraps : (npos + 1) % 2 ^ 64 = 0 := by
  decide

theorem filenameEndPos_le_length (u : Str) (hq : '?' ∈ u)
    (hamp : "?path=".toList <:+: u → '&' ∈ u) : filenameEndPos u ≤ u.length := by
  unfold filenameEndPos
  split
  · rename_i hfp
    have hin := hamp (infix_of_find_ne_npos _ _ hfp)
    simp only
    split
    · rename_i hboth
      exact Nat.le_trans (Nat.min_le_left _ _) (find_le_length _ _ hboth.1)
    · obtain ⟨pre, rest, hsplit, hpre⟩ := exists_first_occurrence '&' u hin
      have e1 : find_first_of (pre ++ '&' :: rest) "&".toList = pre.length :=
        find_first_of_char '&' pre rest hpre
      rw [hsplit, e1]
      simp
  · obtain ⟨pre, rest, hsplit, hpre⟩ := exists_first_occurrence '?' u hq
    have e1 : find_first_of (pre ++ '?' :: rest) "?".toList = pre.length :=
      find_first_of_char '?' pre rest hpre
    rw [hsplit, e1]
    simp

/-- C6, as amended: for an unescaped URL with no `/` (hence no slug segment)
that contains a `?`, and an `&` when it contains `?path=`, the substring is
taken with the in-range bounds `0 = start ≤ end ≤ length` and the path
returned is `/<gameSlug>/` followed by a prefix of the URL. -/
theorem getPathFromDownlinkUrl_no_slash (curl_easy_unescape : Str → Str)
    (downlink_url gamename : Str)
    (hslash : '/' ∉ curl_easy_unescape downlink_url)
    (hq : '?' ∈ curl_easy_unescape downlink_url)
    (hamp : "?path=".toList <:+: curl_easy_unescape downlink_url →
      '&' ∈ curl_easy_unescape downlink_url) :
    ∃ r,
      (find_last_of (curl_easy_unescape downlink_url) "/".toList + 1) % 2 ^ 64 = 0 ∧
      filenameEndPos (curl_easy_unescape downlink_url)
        ≤ (curl_easy_unescape downlink_url).length ∧
      iterRange (curl_easy_unescape downlink_url)
          ((find_last_of (curl_easy_unescape downlink_url) "/".toList + 1) % 2 ^ 64)
          (filenameEndPos (curl_easy_unescape downlink_url))
        = some ((curl_easy_unescape downlink_url).take
            (filenameEndPos (curl_easy_unescape downlink_url))) ∧
      r <+: curl_easy_unescape downlink_url ∧
      getPathFromDownlinkUrl curl_easy_unescape downlink_url gamename
        = some ("/".toList ++ gamename ++ "/".toList ++ r) := by
  generalize hu : curl_easy_unescape downlink_url = u at *
  have hslug : find u ("/".toList ++ gamename ++ "/".toList) = npos := by
    apply find_eq_npos_of_absent
    rintro ⟨a, b, hab⟩
    apply hslash
    rw [← hab]
    simp
  have hlast : find_last_of u "/".toList = npos := find_last_of_char_not_mem '/' u hslash
  have hle := filenameEndPos_le_length u hq hamp
  have hrange : iterRange u ((find_last_of u "/".toList + 1) % 2 ^ 64) (filenameEndPos u)
      = some (u.take (filenameEndPos u)) := by
    rw [hlast, npos_succ_wraps]
    exact iterRange_zero u _ hle
  have hget : getPathFromDownlinkUrl curl_easy_unescape downlink_url gamename
      = cutQueryFragment ("/".toList ++ gamename ++ "/".toList ++ u.take (filenameEndPos u)) := by
    unfold getPathFromDownlinkUrl
    simp only [hu, hslug, ne_eq, not_true_eq_false, if_false, hrange, Option.bind_eq_bind,
      Option.some_bind, Option.pure_def]
  have hpathsplit : "/".toList ++ gamename ++ "/".toList ++ u.take (filenameEndPos u)
      = ("/".toList ++ gamename) ++ '/' :: u.take (filenameEndPos u) := by
    simp
  have hlastp : find_last_of
      ("/".toList ++ gamename ++ "/".toList ++ u.take (filenameEndPos u)) "/".toList
      = ("/".toList ++ gamename).length := by
    rw [hpathsplit]
    exact find_last_of_char '/' _ _ (fun hm => hslash (List.mem_of_mem_take hm))
  rcases cutQueryFragment_cases
      ("/".toList ++ gamename ++ "/".toList ++ u.take (filenameEndPos u)) with hc | ⟨k, hk, hc⟩
  · exact ⟨u.take (filenameEndPos u), by rw [hlast, npos_succ_wraps], hle, hrange,
      List.take_prefix _ _, by rw [hget, hc]⟩
  · rw [hlastp] at hk
    refine ⟨(u.take (filenameEndPos u)).take
      (k - ("/".toList ++ gamename ++ "/".toList).length),
      by rw [hlast, npos_succ_wraps], hle, hrange,
      (List.take_prefix _ _).trans (List.take_prefix _ _), ?_⟩
    rw [hget, hc, List.take_append_eq_append_take, List.take_of_length_le]
    simp only [List.length_append] at hk ⊢
    have : "/".toList.length = 1 := rfl
    omega

theorem getPathFromDownlinkUrl_no_slash_witness :
    getPathFromDownlinkUrl id "file.exe?x=1".toList "game".toList
      = some "/game/file.exe".toList ∧
    ∃ r,
      (find_last_of (id "file.exe?x=1".toList) "/".toList + 1) % 2 ^ 64 = 0 ∧
      filenameEndPos (id "file.exe?x=1".toList) ≤ (id "file.exe?x=1".toList).length ∧
      iterRange (id "file.exe?x=1".toList)
          ((find_last_of (id "file.exe?x=1".toList) "/".toList + 1) % 2 ^ 64)
          (filenameEndPos (id "file.exe?x=1".toList))
        = some ((id "file.exe?x=1".toList).take (filenameEndPos (id "file.exe?x=1".toList))) ∧
      r <+: id "file.exe?x=1".toList ∧
      getPathFromDownlinkUrl id "file.exe?x=1".toList "game".toList
        = some ("/".toList ++ "game".toList ++ "/".toList ++ r) :=
  ⟨by decide,
   getPathFromDownlinkUrl_no_slash id "file.exe?x=1".toList "game".toList
    (by decide) (by decide) (by decide)⟩

/-- C6 fails as stated on a URL with no `/` and no `?`: on `file.exe` the end
of the range is `npos`, beyond the length of the URL, and no path is returned. -/
theorem getPathFromDownlinkUrl_no_marker_counterexample :
    '/' ∉ "file.exe".toList ∧ ¬ "/game/".toList <:+: "file.exe".toList ∧
    filenameEndPos "file.exe".toList = npos ∧
    ¬ filenameEndPos "file.exe".toList ≤ "file.exe".toList.length ∧
    getPathFromDownlinkUrl id "file.exe".toList "game".toList = none := by
  decide

/-! ## Regular expressions -/

theorem regexParse_literals : ∀ (w : Str) (f : RegexFrame) (fs : List RegexFrame),
    (∀ c ∈ w, isRegexMeta c = false) →
    w.foldlM regexParseStep (f :: fs) = some ({ f with cur := litSeq f.cur w } :: fs) := by
  intro w
  induction w with
  | nil => intro f fs _; rfl
  | cons c w ih =>
    intro f fs h
    have hc := h c (List.mem_cons_self _ _)
    simp only [isRegexMeta, Bool.or_eq_false_iff, decide_eq_false_iff_not] at hc
    obtain ⟨⟨⟨⟨⟨⟨h1, h2⟩, h3⟩, h4⟩, h5⟩, h6⟩, h7⟩ := hc
    have hstep : regexParseStep (f :: fs) c = some (f.push (.char c) :: fs) := by
      simp only [regexParseStep, h1, h2, h3, h4, h5, h6, h7, if_false, Bool.false_eq_true]
    rw [List.foldlM_cons, hstep]
    simp only [Option.bind_eq_bind, Option.some_bind]
    rw [ih _ _ (fun d hd => h d (List.mem_cons_of_mem _ hd))]
    rfl

/-- The pattern compiled from `^(w)$` when `w` has no metacharacter. -/
theorem regexCompile_language (w : Str) (h : ∀ c ∈ w, isRegexMeta c = false) :
    regexCompile ("^(".toList ++ w ++ ")$".toList)
      = some (.seq (.seq (.seq .empty .startLine) (litSeq .empty w)) .endLine) := by
  unfold regexCompile
  rw [List.foldlM_append, List.foldlM_append]
  have h1 : "^(".toList.foldlM regexParseStep [⟨none, .empty⟩]
      = some [⟨none, .empty⟩, ⟨none, .seq .empty .startLine⟩] := by decide
  rw [h1]
  simp only [Option.bind_eq_bind, Option.some_bind]
  rw [regexParse_literals w _ _ h]
  rfl

theorem regexMatchEnds_litSeq (s : Str) : ∀ (w : Str) (acc : Regex) (p : Nat),
    regexMatchEnds s (litSeq acc w) p
      = (regexMatchEnds s acc p).flatMap
          (fun q => if icasePrefix w (s.drop q) then [q + w.length] else []) := by
  intro w
  induction w with
  | nil =>
    intro acc p
    simp [litSeq, icasePrefix]
  | cons c w ih =>
    intro acc p
    have hl : litSeq acc (c :: w) = litSeq (.seq acc (.char c)) w := rfl
    rw [hl, ih, regexMatchEnds, List.flatMap_assoc]
    congr 1
    funext q
    cases hq : s[q]? with
    | none =>
      have hdrop : s.drop q = [] := by
        apply List.drop_eq_nil_of_le
        exact List.getElem?_eq_none_iff.mp hq
      simp [regexMatchEnds, hq, hdrop, icasePrefix]
    | some d =>
      have hlt : q < s.length := by
        by_contra hge
        rw [List.getElem?_eq_none (Nat.le_of_not_lt hge)] at hq
        cases hq
      have hdrop : s.drop q = d :: s.drop (q + 1) := by
        rw [List.drop_eq_getElem_cons hlt]
        rw [List.getElem?_eq_getElem hlt] at hq
        simp only [Option.some.injEq] at hq
        rw [hq]
      by_cases hm : d.toLower = c.toLower
      · simp [regexMatchEnds, hq, hdrop, icasePrefix, hm, List.isPrefixOf, Nat.add_assoc,
          Nat.add_comm 1]
      · have hm' : ¬ c.toLower = d.toLower := fun h => hm h.symm
        simp [regexMatchEnds, hq, hdrop, icasePrefix, hm, hm', List.isPrefixOf]

theorem regexMatchEnds_literals (s w : Str) (p : Nat) :
    regexMatchEnds s (litSeq .empty w) p
      = if icasePrefix w (s.drop p) then [p + w.length] else [] := by
  rw [regexMatchEnds_litSeq]
  simp [regexMatchEnds]

theorem regexMatchEnds_language (s w : Str) (p : Nat) :
    regexMatchEnds s (.seq (.seq (.seq .empty .startLine) (litSeq .empty w)) .endLine) p
      = if atLineStart s p = true ∧ icasePrefix w (s.drop p) = true ∧
            atLineEnd s (p + w.length) = true
        then [p + w.length] else [] := by
  have hseq : ∀ a b q, regexMatchEnds s (.seq a b) q
      = (regexMatchEnds s a q).flatMap (regexMatchEnds s b) := fun _ _ _ => rfl
  have hempty : ∀ q, regexMatchEnds s .empty q = [q] := fun _ => rfl
  have hstart : ∀ q, regexMatchEnds s .startLine q = if atLineStart s q then [q] else [] :=
    fun _ => rfl
  have hend : ∀ q, regexMatchEnds s .endLine q = if atLineEnd s q then [q] else [] :=
    fun _ => rfl
  rw [hseq, hseq, hseq, hempty]
  simp only [List.flatMap_cons, List.flatMap_nil, List.append_nil, hstart]
  by_cases h1 : atLineStart s p = true
  · by_cases h2 : icasePrefix w (s.drop p) = true
    · by_cases h3 : atLineEnd s (p + w.length) = true
      · simp [h1, h2, h3, regexMatchEnds_literals, hend]
      · simp [h1, h2, h3, regexMatchEnds_literals, hend]
    · simp [h1, h2, regexMatchEnds_literals]
  · simp [h1]

theorem atLineStart_of_no_separator (s : Str) (p : Nat)
    (hs : ∀ c ∈ s, isLineSeparator c = false) : atLineStart s p = decide (p = 0) := by
  unfold atLineStart
  by_cases hp : p = 0
  · simp [hp]
  · cases ht : s[p - 1]? with
    | none => simp [hp]
    | some t =>
      have hmem : t ∈ s := List.mem_iff_getElem?.mpr ⟨_, ht⟩
      simp [hp, hs t hmem]

theorem atLineEnd_of_no_separator (s : Str) (p : Nat)
    (hs : ∀ c ∈ s, isLineSeparator c = false) : atLineEnd s p = decide (p = s.length) := by
  unfold atLineEnd
  cases ht : s[p]? with
  | none => rfl
  | some t =>
    have hmem : t ∈ s := List.mem_iff_getElem?.mpr ⟨_, ht⟩
    have hlt : p < s.length := by
      by_contra hge
      rw [List.getElem?_eq_none (Nat.le_of_not_lt hge)] at ht
      cases ht
    simp [hs t hmem, Nat.ne_of_lt hlt]

theorem icasePrefix_full (w s : Str) (hlen : w.length = s.length) :
    icasePrefix w s = true ↔ s.map Char.toLower = w.map Char.toLower := by
  unfold icasePrefix
  rw [List.isPrefixOf_iff_prefix]
  constructor
  · intro hpre
    exact (List.IsPrefix.eq_of_length hpre (by simp [hlen])).symm
  · intro heq
    rw [heq]

/-- On a text without line separators, the pattern `^(w)$` of a `w` without
metacharacters finds a match exactly when the text is `w`, letter case ignored. -/
theorem regex_search_language (s w : Str) (hs : ∀ c ∈ s, isLineSeparator c = false) :
    regex_search s (.seq (.seq (.seq .empty .startLine) (litSeq .empty w)) .endLine)
      = decide (s.map Char.toLower = w.map Char.toLower) := by
  rw [Bool.eq_iff_iff, decide_eq_true_iff]
  unfold regex_search
  rw [List.any_eq_true]
  constructor
  · rintro ⟨p, _, hp⟩
    rw [regexMatchEnds_language, atLineStart_of_no_separator s p hs,
      atLineEnd_of_no_separator s _ hs] at hp
    split at hp
    · rename_i h
      obtain ⟨h1, h2, h3⟩ := h
      rw [decide_eq_true_iff] at h1 h3
      subst h1
      rw [List.drop_zero] at h2
      exact (icasePrefix_full w s (by omega)).mp h2
    · simp at hp
  · intro heq
    have hlen : w.length = s.length := by
      have := congrArg List.length heq
      simpa using this.symm
    refine ⟨0, by simp, ?_⟩
    rw [regexMatchEnds_language, atLineStart_of_no_separator s 0 hs,
      atLineEnd_of_no_separator s _ hs, if_pos]
    · rfl
    · refine ⟨by simp, ?_, by simp [hlen]⟩
      rw [List.drop_zero]
      exact (icasePrefix_full w s hlen).mpr heq

/-! ## Loops over the entries of an array -/

theorem map_getD_range (es : List Json) :
    (List.range es.length).map (fun i => es.getD i .null) = es := by
  apply List.ext_getElem
  · simp
  · intro n h1 h2
    simp [List.getD_eq_getElem?_getD, List.getElem?_eq_getElem h2]

/-- A `for` loop that reads the element of index `j` of an array is a fold
over its elements. -/
theorem forLoop_getD_eq_foldlM {σ : Type} (es : List Json) (f : Json → σ → Option σ)
    (init : σ) :
    forLoop es.length (fun j s => f (es.getD j .null) s) init
      = es.foldlM (fun s e => f e s) init := by
  unfold forLoop
  conv_rhs => rw [← map_getD_range es]
  rw [List.foldlM_map]

theorem flagLoop_eq (test : Str → Bool) : ∀ (es : List Json) (init : Bool),
    es.foldlM (fun sel e => e.asString.bind
        (fun l => if test l = true then some true else some sel)) init
      = (allStrings es).map (fun ls => init || ls.any test) := by
  intro es
  induction es with
  | nil => intro init; simp [allStrings]
  | cons e es ih =>
    intro init
    rw [List.foldlM_cons]
    cases he : e.asString with
    | none => simp [allStrings, he]
    | some l =>
      simp only [Option.bind_eq_bind, Option.some_bind, allStrings, he, Option.pure_def]
      by_cases ht : test l = true
      · rw [if_pos ht, Option.some_bind, ih]
        cases allStrings es <;> simp [ht]
      · rw [if_neg ht, Option.some_bind, ih]
        cases allStrings es <;> simp [ht]

/-- A flag loop of the depot filter over the member `key`: the flag is set when
some entry passes the test. -/
theorem entryLoop_eq (depot_json : Json) (key : Str) (test : Str → Bool) (entries : List Str)
    (v : Json) (hget : depot_json.get key = some v)
    (hentries : listEntries depot_json key = some entries) :
    forLoop v.size (fun j sel => do
        let entry ← (← (← depot_json.get key).idx j).asString
        if test entry = true then pure true else pure sel) false
      = some (entries.any test) := by
  simp only [listEntries, hget, Option.bind_eq_bind, Option.some_bind] at hentries
  cases v with
  | arr es =>
    simp only at hentries
    have hbody : (fun (j : Nat) (sel : Bool) => (do
        let entry ← (← (← depot_json.get key).idx j).asString
        if test entry = true then pure true else pure sel : Option Bool))
        = fun j sel => (fun e sel => e.asString.bind
            (fun l => if test l = true then some true else some sel)) (es.getD j .null) sel := by
      funext j sel
      simp only [hget, Json.idx, Option.bind_eq_bind, Option.some_bind, Option.pure_def]
    rw [hbody]
    simp only [Json.size]
    refine (forLoop_getD_eq_foldlM es (fun e sel => e.asString.bind
      (fun l => if test l = true then some true else some sel)) false).trans ?_
    rw [flagLoop_eq, hentries]
    simp
  | obj ms =>
    cases ms with
    | nil =>
      simp only [Option.some.injEq] at hentries
      subst hentries
      simp [Json.size, forLoop_zero]
    | cons m ms => simp at hentries
  | null | bool _ | int _ | uint _ | real _ _ | str _ =>
    simp only [Option.some.injEq] at hentries
    subst hentries
    simp [Json.size, forLoop_zero]

theorem listEntries_get (depot_json : Json) (key : Str) (entries : List Str)
    (h : listEntries depot_json key = some entries) : ∃ v, depot_json.get key = some v := by
  cases hget : depot_json.get key with
  | none => simp [listEntries, hget] at h
  | some v => exact ⟨v, rfl⟩

/-! ## The depot filter: claims C7, C8 -/

/-- C7, as amended: for a wanted language without regular-expression
metacharacters and language entries without line breaks, the language test
succeeds if and only if some entry of the depot's `languages` list is `*` or
equals the wanted language as a whole string, letter case ignored. -/
theorem languageTest_iff (depot_json : Json) (galaxy_language : Str) (langs : List Str)
    (hlangs : listEntries depot_json "languages" = some langs)
    (hw : ∀ c ∈ galaxy_language, isRegexMeta c = false)
    (hl : ∀ l ∈ langs, ∀ c ∈ l, isLineSeparator c = false) :
    ∃ b, languageTest depot_json galaxy_language = some b ∧
      (b = true ↔ ∃ l ∈ langs, l = "*".toList ∨
        l.map Char.toLower = galaxy_language.map Char.toLower) := by
  obtain ⟨v, hget⟩ := listEntries_get _ _ _ hlangs
  refine ⟨langs.any (fun l => decide (l = "*".toList) ||
    regex_search l (.seq (.seq (.seq .empty .startLine) (litSeq .empty galaxy_language))
      .endLine)), ?_, ?_⟩
  · unfold languageTest
    rw [regexCompile_language galaxy_language hw]
    simp only [Option.bind_eq_bind, Option.some_bind, hget]
    have := entryLoop_eq depot_json "languages".toList (fun l => decide (l = "*".toList) ||
      regex_search l (.seq (.seq (.seq .empty .startLine) (litSeq .empty galaxy_language))
        .endLine)) langs v hget hlangs
    simp only [Option.bind_eq_bind, hget, Option.some_bind, Bool.or_eq_true,
      decide_eq_true_eq] at this
    exact this
  · rw [List.any_eq_true]
    constructor
    · rintro ⟨l, hmem, hl'⟩
      refine ⟨l, hmem, ?_⟩
      rw [Bool.or_eq_true, decide_eq_true_iff, regex_search_language l _ (hl l hmem),
        decide_eq_true_iff] at hl'
      exact hl'
    · rintro ⟨l, hmem, hl'⟩
      refine ⟨l, hmem, ?_⟩
      rw [Bool.or_eq_true, decide_eq_true_iff, regex_search_language l _ (hl l hmem),
        decide_eq_true_iff]
      exact hl'

theorem languageTest_iff_witness :
    languageTest exampleDepot "EN-us".toList = some true ∧
    ∃ b, languageTest exampleDepot "EN-us".toList = some b ∧
      (b = true ↔ ∃ l ∈ ["de-DE".toList, "en-US".toList], l = "*".toList ∨
        l.map Char.toLower = "EN-us".toList.map Char.toLower) :=
  ⟨by decide,
   languageTest_iff exampleDepot "EN-us".toList ["de-DE".toList, "en-US".toList]
    (by decide) (by decide) (by decide)⟩

/-- C7 fails as stated when the wanted language has a metacharacter: the text
is used as a pattern, so `e.` selects a depot whose only language is `en`. -/
theorem languageTest_pattern_counterexample :
    listEntries exampleDepotEn "languages".toList = some ["en".toList] ∧
    languageTest exampleDepotEn "e.".toList = some true ∧
    ¬ ∃ l ∈ ["en".toList], l = "*".toList ∨
      l.map Char.toLower = "e.".toList.map Char.toLower := by
  decide

theorem mergeDuplicate_fst (X : Externals) (type : Nat) (gf : gameFile) :
    ∀ gs : List gameFile,
      (mergeDuplicate X type gf gs).1 = true ↔ gf.path ∈ gs.map (fun g => g.path) := by
  intro gs
  induction gs with
  | nil => simp [mergeDuplicate]
  | cons g gs ih =>
    unfold mergeDuplicate
    by_cases h : g.path = gf.path
    · simp [h]
    · rw [if_neg h]
      simp only [ih, List.map_cons, List.mem_cons]
      constructor
      · exact Or.inr
      · rintro (h' | h')
        · exact absurd h'.symm h
        · exact h'

/-- With distinct paths and a type that is not Extra, the duplicate search
ORs the language of `gf` into the record with its path and changes nothing else. -/
theorem mergeDuplicate_snd (X : Externals) (type : Nat) (gf : gameFile)
    (htype : type &&& X.GFTYPE_EXTRA = 0) :
    ∀ gs : List gameFile, (gs.map (fun g => g.path)).Nodup →
      (mergeDuplicate X type gf gs).2 = gs.map (mergeLanguage gf) := by
  intro gs
  induction gs with
  | nil => intro _; rfl
  | cons g gs ih =>
    intro hnd
    rw [List.map_cons, List.nodup_cons] at hnd
    unfold mergeDuplicate
    by_cases h : g.path = gf.path
    · rw [if_pos h, if_pos htype, List.map_cons]
      have hrest : gs.map (mergeLanguage gf) = gs := by
        conv_rhs => rw [← List.map_id gs]
        apply List.map_congr_left
        intro r hr
        unfold mergeLanguage
        rw [if_neg]
        · rfl
        · intro hrp
          apply hnd.1
          rw [h, ← hrp]
          exact List.mem_map_of_mem _ hr
      simp only [hrest, mergeLanguage, h, if_true]
    · rw [if_neg h, List.map_cons, ih hnd.2]
      simp only [mergeLanguage, h, if_false]

theorem mergeLanguage_path (gf r : gameFile) : (mergeLanguage gf r).path = r.path := by
  unfold mergeLanguage
  split <;> rfl

theorem orAll_append_singleton (l : List Nat) (x : Nat) : orAll (l ++ [x]) = orAll l ||| x := by
  simp [orAll, List.foldl_append]

theorem languagesAt_append_same (acc : List gameFile) (gf : gameFile) :
    languagesAt (acc ++ [gf]) gf.path = languagesAt acc gf.path ++ [gf.language] := by
  simp [languagesAt, List.filter_append]

theorem languagesAt_append_other (acc : List gameFile) (gf : gameFile) (p : Str)
    (h : gf.path ≠ p) : languagesAt (acc ++ [gf]) p = languagesAt acc p := by
  simp [languagesAt, List.filter_append, h]

theorem languagesAt_of_not_mem (acc : List gameFile) (p : Str)
    (h : p ∉ acc.map (fun g => g.path)) : languagesAt acc p = [] := by
  simp only [languagesAt, List.map_eq_nil_iff, List.filter_eq_nil_iff, decide_eq_true_eq]
  intro g hg hp
  exact h (hp ▸ List.mem_map_of_mem _ hg)

theorem mergedOutput_add (X : Externals) (dlConf : DownloadConfig) (type : Nat)
    (hdup : dlConf.bDuplicateHandler = true) (htype : type &&& X.GFTYPE_EXTRA = 0)
    (out acc : List gameFile) (gf : gameFile) (h : MergedOutput out acc) :
    MergedOutput (addGameFile X dlConf type out gf) (acc ++ [gf]) := by
  obtain ⟨hnd, hpaths, hlang⟩ := h
  unfold addGameFile
  rw [if_pos hdup]
  by_cases hmem : gf.path ∈ out.map (fun g => g.path)
  · rw [if_pos ((mergeDuplicate_fst X type gf out).mpr hmem), mergeDuplicate_snd X type gf htype out hnd]
    have hmap : (out.map (mergeLanguage gf)).map (fun g => g.path) = out.map (fun g => g.path) := by
      rw [List.map_map]
      apply List.map_congr_left
      intro r _
      exact mergeLanguage_path gf r
    refine ⟨by rw [hmap]; exact hnd, ?_, ?_⟩
    · intro p
      rw [hmap, hpaths, List.map_append, List.mem_append]
      constructor
      · exact Or.inl
      · rintro (h1 | h1)
        · exact h1
        · simp only [List.map_cons, List.map_nil, List.mem_singleton] at h1
          rw [h1]
          exact (hpaths _).mp hmem
    · intro r' hr'
      obtain ⟨r, hr, rfl⟩ := List.mem_map.mp hr'
      rw [mergeLanguage_path]
      unfold mergeLanguage
      by_cases hp : r.path = gf.path
      · rw [if_pos hp, hp, languagesAt_append_same, orAll_append_singleton, ← hp, ← hlang r hr]
      · rw [if_neg hp, languagesAt_append_other acc gf r.path (fun h => hp h.symm)]
        exact hlang r hr
  · have hnot : ¬ (mergeDuplicate X type gf out).1 = true :=
      fun h => hmem ((mergeDuplicate_fst X type gf out).mp h)
    rw [if_neg hnot]
    refine ⟨?_, ?_, ?_⟩
    · rw [List.map_append, List.nodup_append]
      refine ⟨hnd, by simp, ?_⟩
      intro p hp hp'
      simp only [List.map_cons, List.map_nil, List.mem_singleton] at hp'
      exact hmem (hp' ▸ hp)
    · intro p
      simp only [List.map_append, List.mem_append, hpaths]
    · intro r hr
      rcases List.mem_append.mp hr with hr | hr
      · have hp : gf.path ≠ r.path := fun h => hmem (h ▸ List.mem_map_of_mem _ hr)
        rw [languagesAt_append_other acc gf r.path hp]
        exact hlang r hr
      · rw [List.mem_singleton] at hr
        subst hr
        rw [languagesAt_append_same, languagesAt_of_not_mem acc r.path
          (fun h => hmem ((hpaths _).mpr h)), List.nil_append]
        simp [orAll]

theorem mergedOutput_foldl (X : Externals) (dlConf : DownloadConfig) (type : Nat)
    (hdup : dlConf.bDuplicateHandler = true) (htype : type &&& X.GFTYPE_EXTRA = 0) :
    ∀ (rest out acc : List gameFile), MergedOutput out acc →
      MergedOutput (rest.foldl (addGameFile X dlConf type) out) (acc ++ rest) := by
  intro rest
  induction rest with
  | nil => intro out acc h; simpa using h
  | cons gf rest ih =>
    intro out acc h
    have := ih _ _ (mergedOutput_add X dlConf type hdup htype out acc gf h)
    simpa using this

theorem filter_eq_singleton_of_nodup (out : List gameFile) (r : gameFile)
    (hnd : (out.map (fun g => g.path)).Nodup) (hr : r ∈ out) :
    out.filter (fun g => decide (g.path = r.path)) = [r] := by
  induction out with
  | nil => cases hr
  | cons g gs ih =>
    rw [List.map_cons, List.nodup_cons] at hnd
    rcases List.mem_cons.mp hr with rfl | hr'
    · have : gs.filter (fun g => decide (g.path = r.path)) = [] := by
        rw [List.filter_eq_nil_iff]
        intro x hx
        simp only [decide_eq_true_eq]
        intro hxp
        exact hnd.1 (hxp ▸ List.mem_map_of_mem _ hx)
      simp [List.filter_cons, this]
    · have hne : g.path ≠ r.path := fun h => hnd.1 (h ▸ List.mem_map_of_mem _ hr')
      simp [List.filter_cons, hne, ih hnd.2 hr']

/-! ## Two runs of the file loops -/

/-- Two loops whose bodies keep a relation between their states end in
related states. -/
theorem forLoop_sim {σ τ : Type} (R : σ → τ → Prop) (f : Nat → σ → Option σ)
    (g : Nat → τ → Option τ)
    (hstep : ∀ i s t s', R s t → f i s = some s' → ∃ t', g i t = some t' ∧ R s' t') :
    ∀ (n : Nat) (s : σ) (t : τ) (s' : σ), R s t → forLoop n f s = some s' →
      ∃ t', forLoop n g t = some t' ∧ R s' t' := by
  intro n
  induction n with
  | zero =>
    intro s t s' hR h
    rw [forLoop_zero, Option.some.injEq] at h
    exact ⟨t, forLoop_zero g t, h ▸ hR⟩
  | succ n ih =>
    intro s t s' hR h
    rw [forLoop_succ, Option.bind_eq_some] at h
    obtain ⟨mid, hmid, hlast⟩ := h
    obtain ⟨tmid, htmid, hRmid⟩ := ih s t mid hR hmid
    obtain ⟨t', ht', hR'⟩ := hstep n mid tmid s' hRmid hlast
    exact ⟨t', by rw [forLoop_succ, htmid, Option.some_bind, ht'], hR'⟩

theorem addGameFile_off (X : Externals) (dlConf : DownloadConfig) (type : Nat)
    (gamefiles : List gameFile) (gf : gameFile) :
    addGameFile X { dlConf with bDuplicateHandler := false } type gamefiles gf
      = gamefiles ++ [gf] := by
  simp [addGameFile]

theorem fileLoopBody_sim (X : Externals) (gamename : Str) (infoNode : Json) (name version : Str)
    (iPlatform iLanguage type : Nat) (dlConf : DownloadConfig) (j : Nat)
    (s t s' : List gameFile × Nat) (hR : MergesInto X dlConf type s t)
    (h : fileLoopBody X gamename infoNode name version iPlatform iLanguage type dlConf j s
      = some s') :
    ∃ t', fileLoopBody X gamename infoNode name version iPlatform iLanguage type
        { dlConf with bDuplicateHandler := false } j t = some t' ∧
      MergesInto X dlConf type s' t' := by
  obtain ⟨hk, hfiles⟩ := hR
  unfold fileLoopBody at h ⊢
  rw [← hk]
  cases hc : gameFileOfNode X gamename infoNode name version iPlatform iLanguage type j s.2 with
  | none => simp [hc] at h
  | some c =>
    rw [hc] at h
    cases c with
    | none =>
      simp only [Option.bind_eq_bind, Option.some_bind, Option.pure_def, Option.some.injEq] at h ⊢
      subst h
      exact ⟨_, rfl, rfl, hfiles⟩
    | some gf =>
      simp only [Option.bind_eq_bind, Option.some_bind, Option.pure_def, Option.some.injEq] at h ⊢
      subst h
      refine ⟨_, rfl, rfl, ?_⟩
      simp only [addGameFile_off, List.foldl_append, List.foldl_cons, List.foldl_nil, hfiles]

theorem infoNodeFiles_sim (X : Externals) (gamename : Str) (infoNode : Json) (iFiles : Nat)
    (name version : Str) (iPlatform iLanguage type : Nat) (dlConf : DownloadConfig)
    (s t s' : List gameFile × Nat) (hR : MergesInto X dlConf type s t)
    (h : infoNodeFiles X gamename infoNode iFiles name version iPlatform iLanguage type dlConf s
      = some s') :
    ∃ t', infoNodeFiles X gamename infoNode iFiles name version iPlatform iLanguage type
        { dlConf with bDuplicateHandler := false } t = some t' ∧
      MergesInto X dlConf type s' t' := by
  simp only [infoNodeFiles, Option.bind_eq_bind, Option.bind_eq_some] at h
  obtain ⟨cj, hcj, c, hc, tj, htj, ts, hts, h⟩ := h
  simp only [infoNodeFiles, Option.bind_eq_bind, hcj, hc, htj, hts, Option.some_bind]
  by_cases hzero : c = 0 ∧ ts = 0
  · rw [if_pos hzero] at h ⊢
    simp only [Option.pure_def, Option.some.injEq] at h
    exact ⟨t, rfl, h ▸ hR⟩
  · rw [if_neg hzero] at h ⊢
    exact forLoop_sim (MergesInto X dlConf type) _ _
      (fun j s t s' => fileLoopBody_sim X gamename infoNode name version iPlatform iLanguage
        type dlConf j s t s') iFiles s t s' hR h

theorem infoNodeLoopBody_sim (X : Externals) (gamename : Str) (json : Json) (type : Nat)
    (dlConf : DownloadConfig) (i : Nat) (s t s' : List gameFile × Nat)
    (hR : MergesInto X dlConf type s t)
    (h : infoNodeLoopBody X gamename json type dlConf i s = some s') :
    ∃ t', infoNodeLoopBody X gamename json type { dlConf with bDuplicateHandler := false } i t
        = some t' ∧
      MergesInto X dlConf type s' t' := by
  simp only [infoNodeLoopBody, Option.bind_eq_bind, Option.bind_eq_some] at h
  obtain ⟨infoNode, hnode, fj, hfj, nj, hnj, name, hname, version, hversion, h⟩ := h
  simp only [infoNodeLoopBody, Option.bind_eq_bind, hnode, hfj, hnj, hname, hversion,
    Option.some_bind]
  by_cases hextra : type &&& X.GFTYPE_EXTRA = 0
  · rw [if_pos hextra] at h ⊢
    simp only [Option.bind_eq_some] at h
    obtain ⟨oj, hoj, os, hos, lj, hlj, language, hlanguage, h⟩ := h
    simp only [hoj, hos, hlj, hlanguage, Option.some_bind]
    by_cases hp : X.platformValue os &&& dlConf.iInstallerPlatform = 0
    · rw [if_pos hp] at h ⊢
      simp only [Option.pure_def, Option.some.injEq] at h
      exact ⟨t, rfl, h ▸ hR⟩
    · rw [if_neg hp] at h ⊢
      by_cases hl : X.languageValue language &&& dlConf.iInstallerLanguage = 0
      · rw [if_pos hl] at h ⊢
        simp only [Option.pure_def, Option.some.injEq] at h
        exact ⟨t, rfl, h ▸ hR⟩
      · rw [if_neg hl] at h ⊢
        exact infoNodeFiles_sim X gamename infoNode _ name version _ _ type dlConf s t s' hR h
  · rw [if_neg hextra] at h ⊢
    exact infoNodeFiles_sim X gamename infoNode _ name version _ _ type dlConf s t s' hR h

/-! ## The product file normaliser: claim C9 -/

/-- C9: with duplicate handling and a file type that is not Extra, the run
without duplicate handling gives the accepted files, and the output has, for
each path of an accepted file, exactly one record, whose language is the
bitwise OR of the languages of all accepted files with that path. -/
theorem fileJsonNodeToGameFileVector_merged_languages (X : Externals) (gamename : Str)
    (json : Json) (type : Nat) (dlConf : DownloadConfig) (k k' : Nat) (out : List gameFile)
    (hdup : dlConf.bDuplicateHandler = true) (htype : type &&& X.GFTYPE_EXTRA = 0)
    (h : fileJsonNodeToGameFileVector X gamename json type dlConf k = some (out, k')) :
    ∃ accepted,
      fileJsonNodeToGameFileVector X gamename json type
        { dlConf with bDuplicateHandler := false } k = some (accepted, k') ∧
      (∀ p, p ∈ out.map (fun g => g.path) ↔ p ∈ accepted.map (fun g => g.path)) ∧
      ∀ p ∈ accepted.map (fun g => g.path),
        ∃ r, out.filter (fun g => decide (g.path = p)) = [r] ∧
          r.language = orAll (languagesAt accepted p) := by
  unfold fileJsonNodeToGameFileVector at h ⊢
  obtain ⟨t', ht', hk, hout⟩ := forLoop_sim (MergesInto X dlConf type) _ _
    (fun i s t s' => infoNodeLoopBody_sim X gamename json type dlConf i s t s')
    json.size ([], k) ([], k) (out, k') ⟨rfl, rfl⟩ h
  simp only at hk hout
  have hmerged : MergedOutput out ([] ++ t'.1) := by
    rw [hout]
    exact mergedOutput_foldl X dlConf type hdup htype t'.1 [] []
      ⟨List.nodup_nil, fun p => Iff.rfl, fun r hr => absurd hr (List.not_mem_nil r)⟩
  rw [List.nil_append] at hmerged
  obtain ⟨hnd, hpaths, hlang⟩ := hmerged
  refine ⟨t'.1, by rw [ht', hk], hpaths, ?_⟩
  intro p hp
  obtain ⟨r, hr, hrp⟩ := List.mem_map.mp ((hpaths p).mpr hp)
  subst hrp
  exact ⟨r, filter_eq_singleton_of_nodup out r hnd hr, hlang r hr⟩

theorem fileJsonNodeToGameFileVector_merged_languages_witness :
    fileJsonNodeToGameFileVector exampleExternals "game".toList exampleInstallers 1
      exampleConfig 0 = some (exampleMergedFiles, 3) ∧
    ∃ accepted,
      fileJsonNodeToGameFileVector exampleExternals "game".toList exampleInstallers 1
        { exampleConfig with bDuplicateHandler := false } 0 = some (accepted, 3) ∧
      (∀ p, p ∈ exampleMergedFiles.map (fun g => g.path) ↔
        p ∈ accepted.map (fun g => g.path)) ∧
      ∀ p ∈ accepted.map (fun g => g.path),
        ∃ r, exampleMergedFiles.filter (fun g => decide (g.path = p)) = [r] ∧
          r.language = orAll (languagesAt accepted p) :=
  ⟨by decide,
   fileJsonNodeToGameFileVector_merged_languages exampleExternals "game".toList
    exampleInstallers 1 exampleConfig 0 3 exampleMergedFiles (by decide) (by decide)
    (by decide)⟩

/-! ## DLCs: claim C10 -/

theorem lor_land_self (a d : Nat) : (a ||| d) &&& d = d := by
  apply Nat.eq_of_testBit_eq
  intro i
  rw [Nat.testBit_land, Nat.testBit_lor]
  cases a.testBit i <;> cases d.testBit i <;> rfl

theorem addDlcType_type (X : Externals) (files : List gameFile) :
    ∀ f ∈ addDlcType X files, f.type &&& X.GFTYPE_DLC = X.GFTYPE_DLC := by
  intro f hf
  obtain ⟨g, _, rfl⟩ := List.mem_map.mp hf
  exact lor_land_self _ _

theorem markDlc_type (X : Externals) (gd : gameDetails) :
    ∀ f ∈ (markDlc X gd).installers ++ (markDlc X gd).extras ++ (markDlc X gd).patches
        ++ (markDlc X gd).languagepacks,
      f.type &&& X.GFTYPE_DLC = X.GFTYPE_DLC := by
  intro f hf
  simp only [markDlc, List.mem_append] at hf
  rcases hf with ((h | h) | h) | h <;> exact addDlcType_type X _ f h

theorem hasFiles_iff (gd : gameDetails) :
    hasFiles gd = true ↔
      gd.installers ≠ [] ∨ gd.extras ≠ [] ∨ gd.patches ≠ [] ∨ gd.languagepacks ≠ [] := by
  simp [hasFiles, List.isEmpty_iff, or_assoc]

/-- One iteration of the DLC loop: the details of the element of index `i`,
with the DLC type added, are appended when they have a file. -/
theorem dlcLoopBody_eq_some (X : Externals)
    (recurse : Json → DownloadConfig → Nat → Option (gameDetails × Nat))
    (json : Json) (dlConf : DownloadConfig) (i : Nat) (st st' : List gameDetails × Nat)
    (h : dlcLoopBody X recurse json dlConf i st = some st') :
    ∃ dlcsJson dlcJson r, json.get "expanded_dlcs" = some dlcsJson ∧
      dlcsJson.idx i = some dlcJson ∧ recurse dlcJson dlConf st.2 = some r ∧
      st'.1 = st.1 ++ [markDlc X r.1].filter hasFiles ∧ st'.2 = r.2 := by
  simp only [dlcLoopBody, Option.bind_eq_bind, Option.bind_eq_some] at h
  obtain ⟨dj, hdj, ej, hej, r, hr, h⟩ := h
  refine ⟨dj, ej, r, hdj, hej, hr, ?_⟩
  by_cases hf : hasFiles (markDlc X r.1) = true
  · rw [if_pos hf] at h
    simp only [Option.pure_def, Option.some.injEq] at h
    subst h
    simp [hf]
  · rw [if_neg hf] at h
    simp only [Option.pure_def, Option.some.injEq] at h
    subst h
    simp [hf]

/-- The DLC loop run `n` times: one normalised aggregate for each element, in
order, of which those with a file are appended. -/
theorem dlcLoop_spec (X : Externals)
    (recurse : Json → DownloadConfig → Nat → Option (gameDetails × Nat))
    (json : Json) (dlConf : DownloadConfig) :
    ∀ (n : Nat) (init out : List gameDetails × Nat),
      forLoop n (dlcLoopBody X recurse json dlConf) init = some out →
      ∃ N : List gameDetails, N.length = n ∧ out.1 = init.1 ++ N.filter hasFiles ∧
        ∀ (i : Nat) (nd : gameDetails), N[i]? = some nd →
          ∃ dlcsJson dlcJson k0 r, json.get "expanded_dlcs" = some dlcsJson ∧
            dlcsJson.idx i = some dlcJson ∧ recurse dlcJson dlConf k0 = some r ∧
            nd = markDlc X r.1 := by
  intro n
  induction n with
  | zero =>
    intro init out h
    rw [forLoop_zero, Option.some.injEq] at h
    subst h
    exact ⟨[], rfl, by simp, by simp⟩
  | succ n ih =>
    intro init out h
    rw [forLoop_succ, Option.bind_eq_some] at h
    obtain ⟨mid, hmid, hstep⟩ := h
    obtain ⟨N, hlen, hout, hN⟩ := ih init mid hmid
    obtain ⟨dj, ej, r, hdj, hej, hr, h1, _⟩ := dlcLoopBody_eq_some _ _ _ _ _ _ _ hstep
    refine ⟨N ++ [markDlc X r.1], by simp [hlen], ?_, ?_⟩
    · rw [h1, hout, List.filter_append, List.append_assoc]
    · intro i nd hi
      rcases Nat.lt_or_ge i N.length with hlt | hge
      · rw [List.getElem?_append_left hlt] at hi
        exact hN i nd hi
      · rw [List.getElem?_append_right hge] at hi
        have hi0 : i = n := by
          by_contra hne
          have : i - N.length ≠ 0 := by omega
          obtain ⟨m, hm⟩ := Nat.exists_eq_succ_of_ne_zero this
          rw [hm] at hi
          simp at hi
        subst hi0
        simp only [hlen, Nat.sub_self, List.getElem?_cons_zero, Option.some.injEq] at hi
        subst hi
        exact ⟨dj, ej, mid.2, r, hdj, hej, hr, rfl⟩

/-! ## The depth of a document bounds the recursion -/

theorem depth_le_depthList (e : Json) : ∀ es : List Json, e ∈ es → e.depth ≤ Json.depthList es := by
  intro es
  induction es with
  | nil => intro h; cases h
  | cons x xs ih =>
    intro h
    rw [Json.depthList]
    rcases List.mem_cons.mp h with rfl | h'
    · exact Nat.le_max_left _ _
    · exact Nat.le_trans (ih h') (Nat.le_max_right _ _)

theorem depth_le_depthMembers (key : Str) (v : Json) :
    ∀ ms : List (Str × Json), Json.lookup key ms = some v → v.depth ≤ Json.depthMembers ms := by
  intro ms
  induction ms with
  | nil => intro h; cases h
  | cons m ms ih =>
    intro h
    obtain ⟨k, x⟩ := m
    rw [Json.depthMembers]
    unfold Json.lookup at h
    split at h
    · simp only [Option.some.injEq] at h
      subst h
      exact Nat.le_max_left _ _
    · exact Nat.le_trans (ih h) (Nat.le_max_right _ _)

/-- An element of an array member of a document lies two levels below it. -/
theorem depth_of_element (json : Json) (key : Str) (dlcsJson dlcJson : Json) (i : Nat)
    (hget : json.get key = some dlcsJson) (hi : i < dlcsJson.size)
    (hidx : dlcsJson.idx i = some dlcJson) : dlcJson.depth + 2 ≤ json.depth := by
  cases dlcsJson with
  | arr es =>
    simp only [Json.size] at hi
    simp only [Json.idx, Option.some.injEq] at hidx
    have hmem : dlcJson ∈ es := by
      rw [← hidx, List.getD_eq_getElem?_getD, List.getElem?_eq_getElem hi]
      exact List.getElem_mem hi
    have h1 := depth_le_depthList dlcJson es hmem
    cases json with
    | obj ms =>
      simp only [Json.get, Option.some.injEq] at hget
      cases hl : Json.lookup key ms with
      | none => simp [hl] at hget
      | some v =>
        simp only [hl, Option.getD_some] at hget
        subst hget
        have h2 := depth_le_depthMembers key _ ms hl
        have e1 : (Json.arr es).depth = Json.depthList es + 1 := by rw [Json.depth]
        have e2 : (Json.obj ms).depth = Json.depthMembers ms + 1 := by rw [Json.depth]
        rw [e1] at h2
        rw [e2]
        omega
    | null => simp [Json.get] at hget
    | bool _ | int _ | uint _ | real _ _ | str _ | arr _ => simp [Json.get] at hget
  | obj ms => simp [Json.idx] at hidx
  | null | bool _ | int _ | uint _ | real _ _ | str _ => simp [Json.size] at hi

theorem forLoop_congr {σ : Type} (f g : Nat → σ → Option σ) :
    ∀ (n : Nat) (init : σ), (∀ i, i < n → ∀ s, f i s = g i s) →
      forLoop n f init = forLoop n g init := by
  intro n
  induction n with
  | zero => intro init _; rw [forLoop_zero, forLoop_zero]
  | succ n ih =>
    intro init h
    rw [forLoop_succ, forLoop_succ, ih init (fun i hi s => h i (Nat.lt_succ_of_lt hi) s)]
    cases forLoop n g init with
    | none => rfl
    | some s => exact h n (Nat.lt_succ_self n) s

theorem productDlcs_congr (X : Externals)
    (f g : Json → DownloadConfig → Nat → Option (gameDetails × Nat))
    (json : Json) (dlConf : DownloadConfig) (k : Nat)
    (h : ∀ dlcsJson dlcJson i, json.get "expanded_dlcs" = some dlcsJson → i < dlcsJson.size →
      dlcsJson.idx i = some dlcJson → ∀ k0, f dlcJson dlConf k0 = g dlcJson dlConf k0) :
    productDlcs X f json dlConf k = productDlcs X g json dlConf k := by
  unfold productDlcs
  split
  · cases json.isMember "expanded_dlcs" with
    | none => rfl
    | some b =>
      simp only [Option.bind_eq_bind, Option.some_bind]
      split
      · cases hget : json.get "expanded_dlcs" with
        | none => rfl
        | some dlcsJson =>
          simp only [Option.some_bind]
          apply forLoop_congr
          intro i hi s
          simp only [dlcLoopBody, hget, Option.bind_eq_bind, Option.some_bind]
          cases hidx : dlcsJson.idx i with
          | none => rfl
          | some dlcJson =>
            simp only [Option.some_bind]
            rw [h dlcsJson dlcJson i hget hi hidx s.2]
      · rfl
  · rfl

/-- Any two bounds above the depth of the document give the same result: the
recursion never runs out. -/
theorem productInfoJsonToGameDetailsFuel_stable (X : Externals) :
    ∀ (a b : Nat) (json : Json), json.depth < a → json.depth < b →
      ∀ (dlConf : DownloadConfig) (k : Nat),
        productInfoJsonToGameDetailsFuel X a json dlConf k
          = productInfoJsonToGameDetailsFuel X b json dlConf k := by
  intro a
  induction a with
  | zero => intro b json ha; exact absurd ha (Nat.not_lt_zero _)
  | succ a ih =>
    intro b json ha hb dlConf k
    cases b with
    | zero => exact absurd hb (Nat.not_lt_zero _)
    | succ b =>
      simp only [productInfoJsonToGameDetailsFuel]
      cases productHeader json with
      | none => rfl
      | some header =>
        simp only [Option.bind_eq_bind, Option.some_bind]
        cases productFiles X json dlConf header k with
        | none => rfl
        | some files =>
          simp only [Option.some_bind]
          rw [productDlcs_congr X (productInfoJsonToGameDetailsFuel X a)
            (productInfoJsonToGameDetailsFuel X b) json dlConf files.2]
          intro dlcsJson dlcJson i hget hi hidx k0
          have hd := depth_of_element json _ dlcsJson dlcJson i hget hi hidx
          exact ih b dlcJson (by omega) (by omega) dlConf k0

theorem isMember_false_get (json : Json) (key : Str) (h : json.isMember key = some false) :
    json.get key = some .null := by
  cases json with
  | null => rfl
  | obj ms =>
    simp only [Json.isMember, Option.some.injEq] at h
    cases hl : Json.lookup key ms with
    | none => simp [Json.get, hl]
    | some v => simp [hl] at h
  | bool _ | int _ | uint _ | real _ _ | str _ | arr _ => simp [Json.isMember] at h

/-- What the DLC step gives: nothing when DLCs are switched off; else one
normalised aggregate for each element of `expanded_dlcs`, in order, of which
those with a file are the result. -/
theorem productDlcs_spec (X : Externals)
    (recurse : Json → DownloadConfig → Nat → Option (gameDetails × Nat))
    (json : Json) (dlConf : DownloadConfig) (k : Nat) (dlcs : List gameDetails × Nat)
    (h : productDlcs X recurse json dlConf k = some dlcs) :
    (dlConf.bDLC = false ∧ dlcs.1 = []) ∨
    (dlConf.bDLC = true ∧ ∃ (dlcsJson : Json) (N : List gameDetails), json.get "expanded_dlcs" = some dlcsJson ∧
      N.length = dlcsJson.size ∧ dlcs.1 = N.filter hasFiles ∧
      ∀ (i : Nat) (nd : gameDetails), N[i]? = some nd →
        ∃ dlcJson k0 r, dlcsJson.idx i = some dlcJson ∧ recurse dlcJson dlConf k0 = some r ∧
          nd = markDlc X r.1) := by
  unfold productDlcs at h
  by_cases hdlc : dlConf.bDLC = true
  · rw [if_pos hdlc] at h
    refine Or.inr ⟨hdlc, ?_⟩
    simp only [Option.bind_eq_bind, Option.bind_eq_some] at h
    obtain ⟨b, hb, h⟩ := h
    cases b with
    | true =>
      simp only [if_true, Option.bind_eq_some] at h
      obtain ⟨dlcsJson, hget, hloop⟩ := h
      obtain ⟨N, hlen, hout, hN⟩ := dlcLoop_spec X recurse json dlConf _ _ _ hloop
      refine ⟨dlcsJson, N, hget, hlen, by simpa using hout, ?_⟩
      intro i nd hi
      obtain ⟨dj, ej, k0, r, hdj, hej, hr, hnd⟩ := hN i nd hi
      rw [hget, Option.some.injEq] at hdj
      subst hdj
      exact ⟨ej, k0, r, hej, hr, hnd⟩
    | false =>
      simp only [Bool.false_eq_true, if_false, Option.pure_def, Option.some.injEq] at h
      subst h
      exact ⟨.null, [], isMember_false_get json _ hb, rfl, rfl, by simp⟩
  · rw [if_neg hdlc, Option.some.injEq] at h
    subst h
    exact Or.inl ⟨by simpa using hdlc, rfl⟩

/-- C10: every entry of the `dlcs` list returned by
`productInfoJsonToGameDetails` has a non-empty list among installers, extras,
patches and language packs, and every file of these lists has the DLC bit in
its type. With DLCs switched on, the list is made of the normalised details of
the elements of `expanded_dlcs`, in order, those without any file left out. -/
theorem productInfoJsonToGameDetails_dlcs (X : Externals) (json : Json)
    (dlConf : DownloadConfig) (k k' : Nat) (gd : gameDetails)
    (h : productInfoJsonToGameDetails X json dlConf k = some (gd, k')) :
    (∀ dlc ∈ gd.dlcs,
      (dlc.installers ≠ [] ∨ dlc.extras ≠ [] ∨ dlc.patches ≠ [] ∨ dlc.languagepacks ≠ []) ∧
      ∀ f ∈ dlc.installers ++ dlc.extras ++ dlc.patches ++ dlc.languagepacks,
        f.type &&& X.GFTYPE_DLC = X.GFTYPE_DLC) ∧
    (dlConf.bDLC = true → ∃ (dlcsJson : Json) (N : List gameDetails), json.get "expanded_dlcs" = some dlcsJson ∧
      N.length = dlcsJson.size ∧ gd.dlcs = N.filter hasFiles ∧
      ∀ (i : Nat) (nd : gameDetails), N[i]? = some nd →
        ∃ dlcJson k0 r, dlcsJson.idx i = some dlcJson ∧
          productInfoJsonToGameDetails X dlcJson dlConf k0 = some r ∧ nd = markDlc X r.1) := by
  unfold productInfoJsonToGameDetails at h
  simp only [productInfoJsonToGameDetailsFuel, Option.bind_eq_bind, Option.bind_eq_some,
    Option.pure_def, Option.some.injEq, Prod.mk.injEq] at h
  obtain ⟨header, _, files, _, dlcs, hdlcs, hgd, _⟩ := h
  have hgd' : gd.dlcs = dlcs.1 := by rw [← hgd]
  rcases productDlcs_spec X _ json dlConf files.2 dlcs hdlcs with ⟨hoff, hnil⟩ |
    ⟨hon, dlcsJson, N, hget, hlen, hout, hN⟩
  · refine ⟨?_, ?_⟩
    · intro dlc hmem
      rw [hgd', hnil] at hmem
      cases hmem
    · intro hon
      rw [hoff] at hon
      cases hon
  · refine ⟨?_, fun _ => ⟨dlcsJson, N, hget, hlen, by rw [hgd', hout], ?_⟩⟩
    · intro dlc hmem
      rw [hgd', hout, List.mem_filter] at hmem
      obtain ⟨hmemN, hfiles⟩ := hmem
      obtain ⟨i, hi⟩ := List.mem_iff_getElem?.mp hmemN
      obtain ⟨_, _, r, _, _, rfl⟩ := hN i dlc hi
      exact ⟨(hasFiles_iff _).mp hfiles, markDlc_type X r.1⟩
    · intro i nd hi
      obtain ⟨dlcJson, k0, r, hidx, hr, hnd⟩ := hN i nd hi
      have hlt : i < dlcsJson.size := by
        rw [← hlen]
        by_contra hge
        rw [List.getElem?_eq_none (Nat.le_of_not_lt hge)] at hi
        cases hi
      have hd := depth_of_element json _ dlcsJson dlcJson i hget hlt hidx
      refine ⟨dlcJson, k0, r, hidx, ?_, hnd⟩
      unfold productInfoJsonToGameDetails
      rw [← hr]
      exact productInfoJsonToGameDetailsFuel_stable X _ _ dlcJson (by omega) (by omega) dlConf k0

theorem productInfoJsonToGameDetails_dlcs_witness :
    productInfoJsonToGameDetails exampleExternals exampleProduct exampleConfig 0
      = some (exampleGameDetails, 4) ∧
    (∀ dlc ∈ exampleGameDetails.dlcs,
      (dlc.installers ≠ [] ∨ dlc.extras ≠ [] ∨ dlc.patches ≠ [] ∨ dlc.languagepacks ≠ []) ∧
      ∀ f ∈ dlc.installers ++ dlc.extras ++ dlc.patches ++ dlc.languagepacks,
        f.type &&& exampleExternals.GFTYPE_DLC = exampleExternals.GFTYPE_DLC) ∧
    (exampleConfig.bDLC = true → ∃ (dlcsJson : Json) (N : List gameDetails),
      exampleProduct.get "expanded_dlcs" = some dlcsJson ∧
      N.length = dlcsJson.size ∧ exampleGameDetails.dlcs = N.filter hasFiles ∧
      ∀ (i : Nat) (nd : gameDetails), N[i]? = some nd →
        ∃ dlcJson k0 r, dlcsJson.idx i = some dlcJson ∧
          productInfoJsonToGameDetails exampleExternals dlcJson exampleConfig k0 = some r ∧
          nd = markDlc exampleExternals r.1) :=
  ⟨rfl, productInfoJsonToGameDetails_dlcs exampleExternals exampleProduct exampleConfig 0 4
    exampleGameDetails rfl⟩

/-! ## The record of a file -/

theorem regexCompile_secure : regexCompile "/secure$".toList = some securePattern := by
  have hsplit : "/secure$".toList = "/secure".toList ++ "$".toList := rfl
  unfold regexCompile
  rw [hsplit, List.foldlM_append,
    regexParse_literals "/secure".toList ⟨none, .empty⟩ [] (by decide)]
  rfl

/-- The record of the file of index `j` of a node is the record of that file. -/
theorem gameFileOfNode_eq (X : Externals) (gamename : Str) (infoNode : Json)
    (name version : Str) (iPlatform iLanguage type : Nat) (j k : Nat) :
    gameFileOfNode X gamename infoNode name version iPlatform iLanguage type j k
      = (infoNode.get "files").bind (fun filesJson => (filesJson.idx j).bind (fun fileNode =>
          gameFileOfFile X gamename fileNode name version iPlatform iLanguage type k)) := by
  unfold gameFileOfNode gameFileOfFile
  simp only [regexCompile_secure, Option.bind_eq_bind, Option.some_bind, Option.pure_def]
  cases h1 : infoNode.get "files" with
  | none => simp only [Option.none_bind]
  | some filesJson =>
    simp only [Option.some_bind]
    cases h2 : filesJson.idx j with
    | none => simp only [Option.none_bind]
    | some fileNode =>
      simp only [Option.some_bind]
      cases h3 : fileNode.get "downlink" with
      | none => simp only [Option.none_bind]
      | some dj =>
        simp only [Option.some_bind]
        cases h4 : dj.asString with
        | none => simp only [Option.none_bind]
        | some downlink =>
          simp only [Option.some_bind]
          by_cases h5 : (X.getResponseJson k downlink).empty = true
          · simp only [h5, if_true]
          · simp only [h5, if_false, Bool.false_eq_true]
            cases h6 : (X.getResponseJson k downlink).get "downlink" with
            | none => simp only [Option.none_bind]
            | some uj =>
              simp only [Option.some_bind]
              cases h7 : uj.asString with
              | none => simp only [Option.none_bind]
              | some url =>
                simp only [Option.some_bind]
                cases h8 : getPathFromDownlinkUrl X.curl_easy_unescape url gamename with
                | none => simp only [Option.none_bind]
                | some path =>
                  simp only [Option.some_bind]
                  by_cases h9 : regex_search path securePattern = true
                  · simp only [h9, if_true]
                  · simp only [h9, if_false, Bool.false_eq_true]
                    cases h10 : fileNode.get "id" with
                    | none => simp only [Option.none_bind]
                    | some ij =>
                      simp only [Option.some_bind]
                      cases h11 : ij.asString with
                      | none => simp only [Option.none_bind]
                      | some id =>
                        simp only [Option.some_bind]
                        cases h12 : fileNode.get "size" with
                        | none => simp only [Option.none_bind]
                        | some sj =>
                          simp only [Option.some_bind, recordOf]
                          split <;> rfl

/-- A record that is built is `recordOf` the texts read for the file, and its
path did not match `/secure$`. -/
theorem gameFileOfFile_some (X : Externals) (gamename : Str) (fileNode : Json)
    (name version : Str) (iPlatform iLanguage type : Nat) (k : Nat) (gf : gameFile)
    (h : gameFileOfFile X gamename fileNode name version iPlatform iLanguage type k
      = some (some gf)) :
    ∃ id path size downlink downlink_url,
      gf = recordOf X gamename name version iPlatform iLanguage type id path size downlink ∧
      regex_search path securePattern = false ∧
      (fileNode.get "id").bind Json.asString = some id ∧
      (fileNode.get "downlink").bind Json.asString = some downlink ∧
      getPathFromDownlinkUrl X.curl_easy_unescape downlink_url gamename = some path := by
  simp only [gameFileOfFile, Option.bind_eq_bind, Option.bind_eq_some, Option.pure_def] at h
  obtain ⟨dj, hdj, downlink, hdownlink, h⟩ := h
  by_cases h5 : (X.getResponseJson k downlink).empty = true
  · simp only [h5, if_true, Option.some.injEq] at h
    cases h
  · simp only [h5, if_false, Bool.false_eq_true, Option.bind_eq_some] at h
    obtain ⟨uj, _, url, _, path, hpath, h⟩ := h
    by_cases h9 : regex_search path securePattern = true
    · simp only [h9, if_true, Option.some.injEq] at h
      cases h
    · simp only [h9, if_false, Bool.false_eq_true, Option.bind_eq_some,
        Option.some.injEq] at h
      obtain ⟨ij, hij, id, hid, sj, _, h⟩ := h
      refine ⟨id, path, _, downlink, url, h.symm, by simpa using h9, ?_, ?_, hpath⟩
      · rw [hij, Option.some_bind, hid]
      · rw [hdj, Option.some_bind, hdownlink]

theorem gameFileOfNode_some (X : Externals) (gamename : Str) (infoNode : Json)
    (name version : Str) (iPlatform iLanguage type : Nat) (j k : Nat) (gf : gameFile)
    (h : gameFileOfNode X gamename infoNode name version iPlatform iLanguage type j k
      = some (some gf)) :
    ∃ id path size downlink,
      gf = recordOf X gamename name version iPlatform iLanguage type id path size downlink ∧
      regex_search path securePattern = false := by
  rw [gameFileOfNode_eq] at h
  simp only [Option.bind_eq_some] at h
  obtain ⟨_, _, fileNode, _, h⟩ := h
  obtain ⟨id, path, size, downlink, _, hgf, hre, _⟩ := gameFileOfFile_some _ _ _ _ _ _ _ _ _ _ h
  exact ⟨id, path, size, downlink, hgf, hre⟩

theorem recordOf_path (X : Externals) (gamename name version : Str)
    (iPlatform iLanguage type : Nat) (id path size downlink : Str) :
    (recordOf X gamename name version iPlatform iLanguage type id path size downlink).path
      = path := by
  unfold recordOf
  split <;> rfl

theorem recordOf_id (X : Externals) (gamename name version : Str)
    (iPlatform iLanguage type : Nat) (id path size downlink : Str) :
    (recordOf X gamename name version iPlatform iLanguage type id path size downlink).id
      = id := by
  unfold recordOf
  split <;> rfl

/-! ## Invariants of the output -/

/-- A property of the output that every addition of a record keeps, for the
records that the loops can build, holds of the output of
`fileJsonNodeToGameFileVector`. -/
theorem fileJsonNodeToGameFileVector_inv (X : Externals) (gamename : Str) (json : Json)
    (type : Nat) (dlConf : DownloadConfig) (P : List gameFile → Prop) (Q : gameFile → Prop)
    (hQ : ∀ name version iPlatform iLanguage id path size downlink,
      (type &&& X.GFTYPE_EXTRA = 0 →
        iPlatform &&& dlConf.iInstallerPlatform ≠ 0 ∧
        iLanguage &&& dlConf.iInstallerLanguage ≠ 0) →
      regex_search path securePattern = false →
      Q (recordOf X gamename name version iPlatform iLanguage type id path size downlink))
    (hP : ∀ l gf, P l → Q gf → P (addGameFile X dlConf type l gf))
    (h0 : P []) (k k' : Nat) (out : List gameFile)
    (h : fileJsonNodeToGameFileVector X gamename json type dlConf k = some (out, k')) :
    P out := by
  have hfiles : ∀ infoNode iFiles name version iPlatform iLanguage
      (st st' : List gameFile × Nat),
      (type &&& X.GFTYPE_EXTRA = 0 →
        iPlatform &&& dlConf.iInstallerPlatform ≠ 0 ∧
        iLanguage &&& dlConf.iInstallerLanguage ≠ 0) →
      P st.1 →
      infoNodeFiles X gamename infoNode iFiles name version iPlatform iLanguage type dlConf st
        = some st' → P st'.1 := by
    intro infoNode iFiles name version iPlatform iLanguage st st' hmask hst h
    simp only [infoNodeFiles, Option.bind_eq_bind, Option.bind_eq_some] at h
    obtain ⟨cj, _, c, _, tj, _, ts, _, h⟩ := h
    by_cases hzero : c = 0 ∧ ts = 0
    · rw [if_pos hzero] at h
      simp only [Option.pure_def, Option.some.injEq] at h
      exact h ▸ hst
    · rw [if_neg hzero] at h
      refine forLoop_inv (fun s => P s.1) iFiles _ ?_ st st' hst h
      intro j s s' hs hstep
      unfold fileLoopBody at hstep
      cases hc : gameFileOfNode X gamename infoNode name version iPlatform iLanguage type j s.2
        with
      | none => simp [hc] at hstep
      | some c =>
        rw [hc] at hstep
        cases c with
        | none =>
          simp only [Option.bind_eq_bind, Option.some_bind, Option.pure_def,
            Option.some.injEq] at hstep
          exact hstep ▸ hs
        | some gf =>
          simp only [Option.bind_eq_bind, Option.some_bind, Option.pure_def,
            Option.some.injEq] at hstep
          obtain ⟨id, path, size, downlink, hgf, hre⟩ := gameFileOfNode_some _ _ _ _ _ _ _ _ _ _ _ hc
          subst hstep
          exact hP _ _ hs (hgf ▸ hQ name version iPlatform iLanguage id path size downlink hmask hre)
  unfold fileJsonNodeToGameFileVector at h
  refine forLoop_inv (fun s => P s.1) json.size _ ?_ ([], k) (out, k') h0 h
  intro i s s' hs hstep
  simp only [infoNodeLoopBody, Option.bind_eq_bind, Option.bind_eq_some] at hstep
  obtain ⟨infoNode, _, fj, _, nj, _, name, _, version, _, hstep⟩ := hstep
  by_cases hextra : type &&& X.GFTYPE_EXTRA = 0
  · rw [if_pos hextra] at hstep
    simp only [Option.bind_eq_some] at hstep
    obtain ⟨oj, _, os, _, lj, _, language, _, hstep⟩ := hstep
    by_cases hp : X.platformValue os &&& dlConf.iInstallerPlatform = 0
    · rw [if_pos hp] at hstep
      simp only [Option.pure_def, Option.some.injEq] at hstep
      exact hstep ▸ hs
    · rw [if_neg hp] at hstep
      by_cases hl : X.languageValue language &&& dlConf.iInstallerLanguage = 0
      · rw [if_pos hl] at hstep
        simp only [Option.pure_def, Option.some.injEq] at hstep
        exact hstep ▸ hs
      · rw [if_neg hl] at hstep
        exact hfiles _ _ _ _ _ _ s s' (fun _ => ⟨hp, hl⟩) hs hstep
  · rw [if_neg hextra] at hstep
    exact hfiles _ _ _ _ _ _ s s' (fun h => absurd h hextra) hs hstep

theorem land_ne_zero_of_lor (a b m : Nat) (h : a &&& m ≠ 0) : (a ||| b) &&& m ≠ 0 := by
  obtain ⟨i, hi⟩ := Nat.ne_zero_implies_bit_true h
  intro h0
  have : ((a ||| b) &&& m).testBit i = true := by
    rw [Nat.testBit_land, Nat.testBit_lor]
    rw [Nat.testBit_land] at hi
    cases ha : a.testBit i <;> cases hm : m.testBit i <;> simp [ha, hm] at hi ⊢
  rw [h0, Nat.zero_testBit] at this
  cases this

theorem forLoop_inv_lt {σ : Type} (P : σ → Prop) (body : Nat → σ → Option σ) :
    ∀ (n : Nat), (∀ i, i < n → ∀ s s', P s → body i s = some s' → P s') →
      ∀ (init r : σ), P init → forLoop n body init = some r → P r := by
  intro n
  induction n with
  | zero =>
    intro _ init r h0 h
    rw [forLoop_zero, Option.some.injEq] at h
    exact h ▸ h0
  | succ n ih =>
    intro hstep init r h0 h
    rw [forLoop_succ, Option.bind_eq_some] at h
    obtain ⟨mid, hmid, hlast⟩ := h
    exact hstep n (Nat.lt_succ_self n) mid r
      (ih (fun i hi => hstep i (Nat.lt_succ_of_lt hi)) init mid h0 hmid) hlast

theorem mergeDuplicate_paths (X : Externals) (type : Nat) (gf : gameFile) :
    ∀ gs : List gameFile,
      (mergeDuplicate X type gf gs).2.map (fun g => g.path) = gs.map (fun g => g.path) := by
  intro gs
  induction gs with
  | nil => rfl
  | cons g gs ih =>
    unfold mergeDuplicate
    by_cases h : g.path = gf.path
    · rw [if_pos h]
      simp only [List.map_cons, List.cons.injEq, and_true]
      split <;> rfl
    · rw [if_neg h]
      simp only [List.map_cons, ih]

/-- What the duplicate search does to the records: each one is left as it was
or gets the language of `gf` OR-ed in; for an Extra type nothing changes. -/
theorem mergeDuplicate_forall₂ (X : Externals) (type : Nat) (gf : gameFile) :
    ∀ gs : List gameFile,
      List.Forall₂ (fun old new => new = old ∨
          (type &&& X.GFTYPE_EXTRA = 0 ∧ old.path = gf.path ∧
            new = { old with language := old.language ||| gf.language }))
        gs (mergeDuplicate X type gf gs).2 := by
  intro gs
  induction gs with
  | nil => exact List.Forall₂.nil
  | cons g gs ih =>
    unfold mergeDuplicate
    by_cases h : g.path = gf.path
    · rw [if_pos h]
      refine List.Forall₂.cons ?_ (List.forall₂_same.mpr (fun x _ => Or.inl rfl))
      by_cases ht : type &&& X.GFTYPE_EXTRA = 0
      · rw [if_pos ht]
        exact Or.inr ⟨ht, h, rfl⟩
      · rw [if_neg ht]
        exact Or.inl rfl
    · rw [if_neg h]
      exact List.Forall₂.cons (Or.inl rfl) ih

theorem forall₂_exists_mem_right {α β : Type} {R : α → β → Prop} :
    ∀ {xs : List α} {ys : List β}, List.Forall₂ R xs ys → ∀ x ∈ xs, ∃ y ∈ ys, R x y := by
  intro xs ys h
  induction h with
  | nil => intro x hx; cases hx
  | cons hxy _ ih =>
    intro x hx
    rcases List.mem_cons.mp hx with rfl | hx'
    · exact ⟨_, List.mem_cons_self _ _, hxy⟩
    · obtain ⟨y, hy, hr⟩ := ih x hx'
      exact ⟨y, List.mem_cons_of_mem _ hy, hr⟩

/-! ## Distinct paths: claim C20 -/

/-- C20: with duplicate handling, for every file type, the paths of the
records returned by `fileJsonNodeToGameFileVector` are pairwise distinct. -/
theorem fileJsonNodeToGameFileVector_paths_nodup (X : Externals) (gamename : Str)
    (json : Json) (type : Nat) (dlConf : DownloadConfig) (k k' : Nat) (out : List gameFile)
    (hdup : dlConf.bDuplicateHandler = true)
    (h : fileJsonNodeToGameFileVector X gamename json type dlConf k = some (out, k')) :
    (out.map (fun g => g.path)).Nodup := by
  refine fileJsonNodeToGameFileVector_inv X gamename json type dlConf
    (fun l => (l.map (fun g => g.path)).Nodup) (fun _ => True)
    (fun _ _ _ _ _ _ _ _ _ _ => trivial) ?_ List.nodup_nil k k' out h
  intro l gf hl _
  unfold addGameFile
  rw [if_pos hdup]
  by_cases hmem : (mergeDuplicate X type gf l).1 = true
  · rw [if_pos hmem, mergeDuplicate_paths]
    exact hl
  · rw [if_neg hmem, List.map_append, List.nodup_append]
    refine ⟨hl, by simp, ?_⟩
    intro p hp hp'
    simp only [List.map_cons, List.map_nil, List.mem_singleton] at hp'
    exact hmem ((mergeDuplicate_fst X type gf l).mpr (hp' ▸ hp))

theorem fileJsonNodeToGameFileVector_paths_nodup_witness :
    fileJsonNodeToGameFileVector exampleExternals "game".toList exampleInstallers 1
      exampleConfig 0 = some (exampleMergedFiles, 3) ∧
    (exampleMergedFiles.map (fun g => g.path)).Nodup :=
  ⟨by decide,
   fileJsonNodeToGameFileVector_paths_nodup exampleExternals "game".toList exampleInstallers 1
    exampleConfig 0 3 exampleMergedFiles (by decide) (by decide)⟩

/-! ## Skipped nodes and masks: claims C11, C12 -/

theorem infoNodeFiles_zero (X : Externals) (gamename : Str) (infoNode : Json) (iFiles : Nat)
    (name version : Str) (iPlatform iLanguage type : Nat) (dlConf : DownloadConfig)
    (st st' : List gameFile × Nat)
    (hcount : (infoNode.get "count").bind Json.asUInt = some 0)
    (hsize : (infoNode.get "total_size").bind Json.asLargestUInt = some 0)
    (h : infoNodeFiles X gamename infoNode iFiles name version iPlatform iLanguage type dlConf st
      = some st') : st' = st := by
  simp only [infoNodeFiles, Option.bind_eq_bind, Option.bind_eq_some] at h
  obtain ⟨cj, hcj, c, hc, tj, htj, ts, hts, h⟩ := h
  rw [hcj, Option.some_bind, hc, Option.some.injEq] at hcount
  rw [htj, Option.some_bind, hts, Option.some.injEq] at hsize
  rw [if_pos ⟨hcount, hsize⟩] at h
  simp only [Option.pure_def, Option.some.injEq] at h
  exact h.symm

theorem infoNodeLoopBody_zero (X : Externals) (gamename : Str) (json : Json) (type : Nat)
    (dlConf : DownloadConfig) (i : Nat) (st st' : List gameFile × Nat)
    (hzero : ZeroCountNode json i)
    (h : infoNodeLoopBody X gamename json type dlConf i st = some st') : st' = st := by
  obtain ⟨node, hnode', hcount, hsize⟩ := hzero
  simp only [infoNodeLoopBody, Option.bind_eq_bind, Option.bind_eq_some] at h
  obtain ⟨infoNode, hnode, fj, _, nj, _, name, _, version, _, h⟩ := h
  rw [hnode', Option.some.injEq] at hnode
  subst hnode
  by_cases hextra : type &&& X.GFTYPE_EXTRA = 0
  · rw [if_pos hextra] at h
    simp only [Option.bind_eq_some] at h
    obtain ⟨oj, _, os, _, lj, _, language, _, h⟩ := h
    by_cases hp : X.platformValue os &&& dlConf.iInstallerPlatform = 0
    · rw [if_pos hp] at h
      simp only [Option.pure_def, Option.some.injEq] at h
      exact h.symm
    · rw [if_neg hp] at h
      by_cases hl : X.languageValue language &&& dlConf.iInstallerLanguage = 0
      · rw [if_pos hl] at h
        simp only [Option.pure_def, Option.some.injEq] at h
        exact h.symm
      · rw [if_neg hl] at h
        exact infoNodeFiles_zero _ _ _ _ _ _ _ _ _ _ _ _ hcount hsize h
  · rw [if_neg hextra] at h
    exact infoNodeFiles_zero _ _ _ _ _ _ _ _ _ _ _ _ hcount hsize h

/-- C11: for every file type and config, a node whose `count` is 0 and whose
`total_size` is 0 leaves the output as it was, whatever its `files` list; when
every node is such a node the output is empty and nothing is fetched. -/
theorem fileJsonNodeToGameFileVector_zero_count (X : Externals) (gamename : Str) (json : Json)
    (type : Nat) (dlConf : DownloadConfig) :
    (∀ (i : Nat) (st st' : List gameFile × Nat), ZeroCountNode json i →
      infoNodeLoopBody X gamename json type dlConf i st = some st' → st' = st) ∧
    (∀ (k k' : Nat) (out : List gameFile), (∀ i, i < json.size → ZeroCountNode json i) →
      fileJsonNodeToGameFileVector X gamename json type dlConf k = some (out, k') →
      out = [] ∧ k' = k) := by
  refine ⟨fun i st st' hz h => infoNodeLoopBody_zero X gamename json type dlConf i st st' hz h,
    ?_⟩
  intro k k' out hall h
  unfold fileJsonNodeToGameFileVector at h
  have := forLoop_inv_lt (fun s => s = (([] : List gameFile), k))
    (infoNodeLoopBody X gamename json type dlConf) json.size
    (fun i hi s s' hs hstep => by
      rw [infoNodeLoopBody_zero X gamename json type dlConf i s s' (hall i hi) hstep]
      exact hs)
    ([], k) (out, k') rfl h
  simp only [Prod.mk.injEq] at this
  exact this

theorem fileJsonNodeToGameFileVector_zero_count_witness :
    ZeroCountNode exampleEmptyNodes 0 ∧
    fileJsonNodeToGameFileVector exampleExternals "game".toList exampleEmptyNodes 1
      exampleConfig 0 = some ([], 0) ∧
    (([] : List gameFile) = [] ∧ 0 = 0) :=
  have hz : ∀ i, i < exampleEmptyNodes.size → ZeroCountNode exampleEmptyNodes i := by
    intro i hi
    have hsize : exampleEmptyNodes.size = 2 := rfl
    rw [hsize] at hi
    rcases i with _ | _ | i
    · exact ⟨_, rfl, rfl, rfl⟩
    · exact ⟨_, rfl, rfl, rfl⟩
    · omega
  ⟨hz 0 (by decide), by decide,
   (fileJsonNodeToGameFileVector_zero_count exampleExternals "game".toList exampleEmptyNodes 1
    exampleConfig).2 0 0 [] hz (by decide)⟩

theorem recordOf_masks (X : Externals) (gamename name version : Str)
    (iPlatform iLanguage type : Nat) (id path size downlink : Str)
    (htype : type &&& X.GFTYPE_EXTRA = 0) :
    (recordOf X gamename name version iPlatform iLanguage type id path size downlink).platform
      = iPlatform ∧
    (recordOf X gamename name version iPlatform iLanguage type id path size downlink).language
      = iLanguage := by
  unfold recordOf
  rw [if_pos htype]
  exact ⟨rfl, rfl⟩

theorem infoNodeLoopBody_mask_skip (X : Externals) (gamename : Str) (json : Json) (type : Nat)
    (dlConf : DownloadConfig) (htype : type &&& X.GFTYPE_EXTRA = 0) (i p l : Nat)
    (st st' : List gameFile × Nat)
    (hp : nodePlatform X json i = some p) (hl : nodeLanguage X json i = some l)
    (hskip : p &&& dlConf.iInstallerPlatform = 0 ∨ l &&& dlConf.iInstallerLanguage = 0)
    (h : infoNodeLoopBody X gamename json type dlConf i st = some st') : st' = st := by
  simp only [infoNodeLoopBody, Option.bind_eq_bind, Option.bind_eq_some] at h
  obtain ⟨infoNode, hnode, fj, _, nj, _, name, _, version, _, h⟩ := h
  rw [if_pos htype] at h
  simp only [Option.bind_eq_some] at h
  obtain ⟨oj, hoj, os, hos, lj, hlj, language, hlanguage, h⟩ := h
  simp only [nodePlatform, Option.bind_eq_bind, hnode, hoj, hos, Option.some_bind,
    Option.pure_def, Option.some.injEq] at hp
  simp only [nodeLanguage, Option.bind_eq_bind, hnode, hlj, hlanguage, Option.some_bind,
    Option.pure_def, Option.some.injEq] at hl
  subst hp
  subst hl
  by_cases hp0 : X.platformValue os &&& dlConf.iInstallerPlatform = 0
  · rw [if_pos hp0] at h
    simp only [Option.pure_def, Option.some.injEq] at h
    exact h.symm
  · rw [if_neg hp0] at h
    rcases hskip with h1 | h1
    · exact absurd h1 hp0
    · rw [if_pos h1] at h
      simp only [Option.pure_def, Option.some.injEq] at h
      exact h.symm

/-- C12: for a file type that is not Extra, with or without duplicate
handling, every record of the output has a platform mask that shares a bit
with the wanted platforms and a language mask that shares a bit with the wanted
languages; a node whose platform or language mask shares no bit leaves the
output as it was. -/
theorem fileJsonNodeToGameFileVector_masks (X : Externals) (gamename : Str) (json : Json)
    (type : Nat) (dlConf : DownloadConfig) (htype : type &&& X.GFTYPE_EXTRA = 0) :
    (∀ (k k' : Nat) (out : List gameFile),
      fileJsonNodeToGameFileVector X gamename json type dlConf k = some (out, k') →
      ∀ r ∈ out, r.platform &&& dlConf.iInstallerPlatform ≠ 0 ∧
        r.language &&& dlConf.iInstallerLanguage ≠ 0) ∧
    (∀ (i p l : Nat) (st st' : List gameFile × Nat),
      nodePlatform X json i = some p → nodeLanguage X json i = some l →
      (p &&& dlConf.iInstallerPlatform = 0 ∨ l &&& dlConf.iInstallerLanguage = 0) →
      infoNodeLoopBody X gamename json type dlConf i st = some st' → st' = st) := by
  refine ⟨?_, fun i p l st st' hp hl hskip h =>
    infoNodeLoopBody_mask_skip X gamename json type dlConf htype i p l st st' hp hl hskip h⟩
  intro k k' out h
  refine fileJsonNodeToGameFileVector_inv X gamename json type dlConf
    (fun l => ∀ r ∈ l, r.platform &&& dlConf.iInstallerPlatform ≠ 0 ∧
      r.language &&& dlConf.iInstallerLanguage ≠ 0)
    (fun gf => gf.platform &&& dlConf.iInstallerPlatform ≠ 0 ∧
      gf.language &&& dlConf.iInstallerLanguage ≠ 0) ?_ ?_ (fun r hr => absurd hr (List.not_mem_nil r)) k k' out h
  · intro name version iPlatform iLanguage id path size downlink hmask _
    obtain ⟨h1, h2⟩ := recordOf_masks X gamename name version iPlatform iLanguage type id path
      size downlink htype
    rw [h1, h2]
    exact hmask htype
  · intro l gf hl hgf
    unfold addGameFile
    have happ : ∀ r ∈ l ++ [gf], r.platform &&& dlConf.iInstallerPlatform ≠ 0 ∧
        r.language &&& dlConf.iInstallerLanguage ≠ 0 := by
      intro r hr
      rcases List.mem_append.mp hr with hr | hr
      · exact hl r hr
      · rw [List.mem_singleton] at hr
        exact hr ▸ hgf
    by_cases hdup : dlConf.bDuplicateHandler = true
    · rw [if_pos hdup]
      by_cases hmem : (mergeDuplicate X type gf l).1 = true
      · rw [if_pos hmem]
        intro r hr
        obtain ⟨old, hold, hrel⟩ :=
          forall₂_exists_mem_left (mergeDuplicate_forall₂ X type gf l) r hr
        rcases hrel with rfl | ⟨_, _, rfl⟩
        · exact hl r hold
        · exact ⟨(hl old hold).1, land_ne_zero_of_lor _ _ _ (hl old hold).2⟩
      · rw [if_neg hmem]
        exact happ
    · rw [if_neg hdup]
      exact happ

theorem fileJsonNodeToGameFileVector_masks_witness :
    fileJsonNodeToGameFileVector exampleExternals "game".toList exampleInstallers 1
      exampleConfigEn 0 = some (exampleEnglishFiles, 1) ∧
    (∀ r ∈ exampleEnglishFiles, r.platform &&& exampleConfigEn.iInstallerPlatform ≠ 0 ∧
      r.language &&& exampleConfigEn.iInstallerLanguage ≠ 0) ∧
    infoNodeLoopBody exampleExternals "game".toList exampleInstallers 1 exampleConfigEn 1
      (exampleEnglishFiles, 1) = some (exampleEnglishFiles, 1) :=
  ⟨by decide,
   (fileJsonNodeToGameFileVector_masks exampleExternals "game".toList exampleInstallers 1
    exampleConfigEn (by decide)).1 0 1 exampleEnglishFiles (by decide),
   by decide⟩

/-! ## Extras: claim C13 -/

theorem addGameFile_congr (X : Externals) (dlConf dlConf' : DownloadConfig) (type : Nat)
    (hdup : dlConf'.bDuplicateHandler = dlConf.bDuplicateHandler) (l : List gameFile)
    (gf : gameFile) : addGameFile X dlConf' type l gf = addGameFile X dlConf type l gf := by
  unfold addGameFile
  rw [hdup]

theorem fileLoopBody_congr (X : Externals) (gamename : Str) (infoNode infoNode' : Json)
    (name version : Str) (iPlatform iLanguage type : Nat) (dlConf dlConf' : DownloadConfig)
    (hdup : dlConf'.bDuplicateHandler = dlConf.bDuplicateHandler)
    (hfiles : infoNode'.get "files" = infoNode.get "files") (j : Nat)
    (st : List gameFile × Nat) :
    fileLoopBody X gamename infoNode' name version iPlatform iLanguage type dlConf' j st
      = fileLoopBody X gamename infoNode name version iPlatform iLanguage type dlConf j st := by
  unfold fileLoopBody
  rw [gameFileOfNode_eq, gameFileOfNode_eq, hfiles]
  simp only [addGameFile_congr X dlConf dlConf' type hdup]

theorem infoNodeFiles_congr (X : Externals) (gamename : Str) (infoNode infoNode' : Json)
    (iFiles : Nat) (name version : Str) (iPlatform iLanguage type : Nat)
    (dlConf dlConf' : DownloadConfig)
    (hdup : dlConf'.bDuplicateHandler = dlConf.bDuplicateHandler)
    (hsame : SameButTags infoNode' infoNode) (st : List gameFile × Nat) :
    infoNodeFiles X gamename infoNode' iFiles name version iPlatform iLanguage type dlConf' st
      = infoNodeFiles X gamename infoNode iFiles name version iPlatform iLanguage type dlConf
          st := by
  have hcount : infoNode'.get "count" = infoNode.get "count" :=
    hsame _ (by decide) (by decide)
  have hsize : infoNode'.get "total_size" = infoNode.get "total_size" :=
    hsame _ (by decide) (by decide)
  have hfiles : infoNode'.get "files" = infoNode.get "files" :=
    hsame _ (by decide) (by decide)
  unfold infoNodeFiles
  rw [hcount, hsize]
  have hbody : fileLoopBody X gamename infoNode' name version iPlatform iLanguage type dlConf'
      = fileLoopBody X gamename infoNode name version iPlatform iLanguage type dlConf := by
    funext j s
    exact fileLoopBody_congr X gamename infoNode infoNode' name version iPlatform iLanguage
      type dlConf dlConf' hdup hfiles j s
  rw [hbody]

theorem sameButTags_refl (n : Json) : SameButTags n n :=
  fun _ _ _ => rfl

/-- For an Extra type the body of the node loop reads neither the masks of the
config nor the tags of the node. -/
theorem infoNodeLoopBody_extra_congr (X : Externals) (gamename : Str) (json json' : Json)
    (type : Nat) (dlConf dlConf' : DownloadConfig) (htype : type &&& X.GFTYPE_EXTRA ≠ 0)
    (hdup : dlConf'.bDuplicateHandler = dlConf.bDuplicateHandler) (i : Nat)
    (n n' : Json) (hn : json.idx i = some n) (hn' : json'.idx i = some n')
    (hsame : SameButTags n' n) (st : List gameFile × Nat) :
    infoNodeLoopBody X gamename json' type dlConf' i st
      = infoNodeLoopBody X gamename json type dlConf i st := by
  have hfiles : n'.get "files" = n.get "files" := hsame _ (by decide) (by decide)
  have hname : n'.get "name" = n.get "name" := hsame _ (by decide) (by decide)
  have hversion : infoNodeVersion n' = infoNodeVersion n := by
    unfold infoNodeVersion
    rw [hsame "version".toList (by decide) (by decide)]
  unfold infoNodeLoopBody
  simp only [hn, hn', Option.bind_eq_bind, Option.some_bind, hfiles, hname, hversion,
    if_neg htype]
  cases n.get "files" with
  | none => rfl
  | some fj =>
    simp only [Option.some_bind]
    cases n.get "name" with
    | none => rfl
    | some nj =>
      simp only [Option.some_bind]
      cases nj.asString with
      | none => rfl
      | some name =>
        simp only [Option.some_bind]
        cases infoNodeVersion n with
        | none => rfl
        | some version =>
          simp only [Option.some_bind]
          exact infoNodeFiles_congr X gamename n n' _ name version _ _ type dlConf dlConf' hdup
            hsame st

theorem recordOf_extra (X : Externals) (gamename name version : Str)
    (iPlatform iLanguage type : Nat) (id path size downlink : Str)
    (htype : type &&& X.GFTYPE_EXTRA ≠ 0) :
    (recordOf X gamename name version iPlatform iLanguage type id path size downlink).platform
      = X.newGameFile.platform ∧
    (recordOf X gamename name version iPlatform iLanguage type id path size downlink).language
      = X.newGameFile.language := by
  unfold recordOf
  rw [if_neg htype]
  exact ⟨rfl, rfl⟩

/-- C13: for an Extra type the output of `fileJsonNodeToGameFileVector` is the
same for two configs that differ in the wanted platforms and languages only,
and for two info-node lists that differ in the `os` and `language` tags of
their nodes only; in every record of the output the platform and the language
are those of a new record. -/
theorem fileJsonNodeToGameFileVector_extra (X : Externals) (gamename : Str) (json : Json)
    (type : Nat) (dlConf : DownloadConfig) (k : Nat) (htype : type &&& X.GFTYPE_EXTRA ≠ 0) :
    (∀ p l : Nat,
      fileJsonNodeToGameFileVector X gamename json type
        { dlConf with iInstallerPlatform := p, iInstallerLanguage := l } k
        = fileJsonNodeToGameFileVector X gamename json type dlConf k) ∧
    (∀ json' : Json, SameNodesButTags json json' →
      fileJsonNodeToGameFileVector X gamename json' type dlConf k
        = fileJsonNodeToGameFileVector X gamename json type dlConf k) ∧
    (∀ (k' : Nat) (out : List gameFile),
      fileJsonNodeToGameFileVector X gamename json type dlConf k = some (out, k') →
      ∀ r ∈ out, r.platform = X.newGameFile.platform ∧ r.language = X.newGameFile.language) := by
  refine ⟨?_, ?_, ?_⟩
  · intro p l
    unfold fileJsonNodeToGameFileVector
    apply forLoop_congr
    intro i _ s
    cases hn : json.idx i with
    | none => simp only [infoNodeLoopBody, hn, Option.bind_eq_bind, Option.none_bind]
    | some n =>
      exact infoNodeLoopBody_extra_congr X gamename json json type dlConf
        { dlConf with iInstallerPlatform := p, iInstallerLanguage := l } htype rfl i n n hn hn
        (sameButTags_refl n) s
  · intro json' hsame
    obtain ⟨hsize, hnodes⟩ := hsame
    unfold fileJsonNodeToGameFileVector
    rw [← hsize]
    apply forLoop_congr
    intro i hi s
    obtain ⟨n, n', hn, hn', hnn⟩ := hnodes i hi
    exact infoNodeLoopBody_extra_congr X gamename json json' type dlConf dlConf htype rfl i n n'
      hn hn' (fun key h1 h2 => (hnn key h1 h2).symm) s
  · intro k' out h
    refine fileJsonNodeToGameFileVector_inv X gamename json type dlConf
      (fun l => ∀ r ∈ l, r.platform = X.newGameFile.platform ∧
        r.language = X.newGameFile.language)
      (fun gf => gf.platform = X.newGameFile.platform ∧ gf.language = X.newGameFile.language)
      ?_ ?_ (fun r hr => absurd hr (List.not_mem_nil r)) k k' out h
    · intro name version iPlatform iLanguage id path size downlink _ _
      exact recordOf_extra X gamename name version iPlatform iLanguage type id path size
        downlink htype
    · intro l gf hl hgf
      unfold addGameFile
      have happ : ∀ r ∈ l ++ [gf], r.platform = X.newGameFile.platform ∧
          r.language = X.newGameFile.language := by
        intro r hr
        rcases List.mem_append.mp hr with hr | hr
        · exact hl r hr
        · rw [List.mem_singleton] at hr
          exact hr ▸ hgf
      by_cases hdup : dlConf.bDuplicateHandler = true
      · rw [if_pos hdup]
        by_cases hmem : (mergeDuplicate X type gf l).1 = true
        · rw [if_pos hmem]
          intro r hr
          obtain ⟨old, hold, hrel⟩ :=
            forall₂_exists_mem_left (mergeDuplicate_forall₂ X type gf l) r hr
          rcases hrel with rfl | ⟨h0, _, _⟩
          · exact hl r hold
          · exact absurd h0 htype
        · rw [if_neg hmem]
          exact happ
      · rw [if_neg hdup]
        exact happ

theorem fileJsonNodeToGameFileVector_extra_witness :
    fileJsonNodeToGameFileVector exampleExternals "game".toList
      (.arr [exampleExtraNode "windows" "en"]) 2 exampleConfig 0
      = some (exampleExtraFiles, 1) ∧
    fileJsonNodeToGameFileVector exampleExternals "game".toList
      (.arr [exampleExtraNode "windows" "en"]) 2
      { exampleConfig with iInstallerPlatform := 0, iInstallerLanguage := 0 } 0
      = fileJsonNodeToGameFileVector exampleExternals "game".toList
          (.arr [exampleExtraNode "windows" "en"]) 2 exampleConfig 0 ∧
    fileJsonNodeToGameFileVector exampleExternals "game".toList
      (.arr [exampleExtraNode "amiga" "la"]) 2 exampleConfig 0
      = fileJsonNodeToGameFileVector exampleExternals "game".toList
          (.arr [exampleExtraNode "windows" "en"]) 2 exampleConfig 0 ∧
    ∀ r ∈ exampleExtraFiles, r.platform = exampleExternals.newGameFile.platform ∧
      r.language = exampleExternals.newGameFile.language :=
  have hsame : SameNodesButTags (.arr [exampleExtraNode "windows" "en"])
      (.arr [exampleExtraNode "amiga" "la"]) := by
    refine ⟨rfl, ?_⟩
    intro i hi
    have hi0 : i = 0 := by
      have : (Json.arr [exampleExtraNode "windows" "en"]).size = 1 := rfl
      omega
    subst hi0
    refine ⟨exampleExtraNode "windows" "en", exampleExtraNode "amiga" "la", rfl, rfl, ?_⟩
    intro key h1 h2
    simp only [exampleExtraNode, Json.get, Json.lookup, if_neg (Ne.symm h1), if_neg (Ne.symm h2)]
  have hthm := fileJsonNodeToGameFileVector_extra exampleExternals "game".toList
    (.arr [exampleExtraNode "windows" "en"]) 2 exampleConfig 0 (by decide)
  ⟨by decide, hthm.1 0 0, hthm.2.1 _ hsame, hthm.2.2 1 exampleExtraFiles (by decide)⟩

/-! ## Duplicates: claim C17 -/

theorem forall₂_eq_of_eq {α : Type} :
    ∀ {xs ys : List α}, List.Forall₂ (fun old new => new = old) xs ys → ys = xs := by
  intro xs ys h
  induction h with
  | nil => rfl
  | cons hxy _ ih => rw [hxy, ih]

/-- Lines 375-392 on a record whose path is in the list already. -/
theorem addGameFile_duplicate (X : Externals) (dlConf : DownloadConfig) (type : Nat)
    (hdup : dlConf.bDuplicateHandler = true) (gamefiles : List gameFile) (gf : gameFile)
    (hmem : gf.path ∈ gamefiles.map (fun g => g.path)) :
    (addGameFile X dlConf type gamefiles gf).length = gamefiles.length ∧
    List.Forall₂ (fun old new => new = { old with language := new.language })
      gamefiles (addGameFile X dlConf type gamefiles gf) ∧
    (type &&& X.GFTYPE_EXTRA ≠ 0 → addGameFile X dlConf type gamefiles gf = gamefiles) := by
  unfold addGameFile
  rw [if_pos hdup, if_pos ((mergeDuplicate_fst X type gf gamefiles).mpr hmem)]
  have h := mergeDuplicate_forall₂ X type gf gamefiles
  refine ⟨h.length_eq.symm, ?_, ?_⟩
  · apply forall₂_imp_of_mem h
    intro old _ new hrel
    rcases hrel with rfl | ⟨_, _, rfl⟩ <;> rfl
  · intro hextra
    apply forall₂_eq_of_eq
    apply forall₂_imp_of_mem h
    intro old _ new hrel
    rcases hrel with rfl | ⟨h0, _, _⟩
    · rfl
    · exact absurd h0 hextra

theorem keepsFirstRecords_add (X : Externals) (dlConf : DownloadConfig) (type : Nat)
    (hdup : dlConf.bDuplicateHandler = true) (out acc : List gameFile) (gf : gameFile)
    (h : KeepsFirstRecords (type &&& X.GFTYPE_EXTRA ≠ 0) out acc) :
    KeepsFirstRecords (type &&& X.GFTYPE_EXTRA ≠ 0) (addGameFile X dlConf type out gf)
      (acc ++ [gf]) := by
  obtain ⟨hpaths, hlen, hrec⟩ := h
  by_cases hmem : gf.path ∈ out.map (fun g => g.path)
  · unfold addGameFile
    rw [if_pos hdup, if_pos ((mergeDuplicate_fst X type gf out).mpr hmem)]
    have h2 := mergeDuplicate_forall₂ X type gf out
    refine ⟨?_, ?_, ?_⟩
    · intro p
      rw [mergeDuplicate_paths, hpaths p, List.map_append, List.mem_append]
      constructor
      · exact Or.inl
      · rintro (hp | hp)
        · exact hp
        · rw [List.map_singleton, List.mem_singleton] at hp
          rw [hp]
          exact (hpaths _).mp hmem
    · rw [← h2.length_eq, List.length_append]
      omega
    · intro r hr
      obtain ⟨old, hold, hrel⟩ := forall₂_exists_mem_left h2 r hr
      obtain ⟨first, hfirst, hkeep, hsame⟩ := hrec old hold
      have hpath : r.path = old.path := by
        rcases hrel with rfl | ⟨_, _, rfl⟩ <;> rfl
      refine ⟨first, ?_, ?_, ?_⟩
      · rw [hpath, List.find?_append, hfirst]
        rfl
      · rcases hrel with rfl | ⟨_, _, rfl⟩
        · exact hkeep
        · rw [hkeep]
      · intro hextra
        rcases hrel with rfl | ⟨h0, _, _⟩
        · exact hsame hextra
        · exact absurd h0 hextra
  · unfold addGameFile
    rw [if_pos hdup]
    have hfst : ¬ (mergeDuplicate X type gf out).1 = true :=
      fun hc => hmem ((mergeDuplicate_fst X type gf out).mp hc)
    rw [if_neg hfst]
    refine ⟨?_, ?_, ?_⟩
    · intro p
      rw [List.map_append, List.map_append, List.mem_append, List.mem_append, hpaths p]
    · rw [List.length_append, List.length_append]
      omega
    · intro r hr
      rcases List.mem_append.mp hr with hr | hr
      · obtain ⟨first, hfirst, hkeep, hsame⟩ := hrec r hr
        refine ⟨first, ?_, hkeep, hsame⟩
        rw [List.find?_append, hfirst]
        rfl
      · rw [List.mem_singleton] at hr
        subst hr
        have hnone : acc.find? (fun g => decide (g.path = r.path)) = none := by
          rw [List.find?_eq_none]
          intro g hg hp
          apply hmem
          rw [hpaths]
          exact List.mem_map.mpr ⟨g, hg, of_decide_eq_true hp⟩
        refine ⟨r, ?_, rfl, fun _ => rfl⟩
        rw [List.find?_append, hnone]
        simp

theorem keepsFirstRecords_foldl (X : Externals) (dlConf : DownloadConfig) (type : Nat)
    (hdup : dlConf.bDuplicateHandler = true) :
    ∀ (rest out acc : List gameFile), KeepsFirstRecords (type &&& X.GFTYPE_EXTRA ≠ 0) out acc →
      KeepsFirstRecords (type &&& X.GFTYPE_EXTRA ≠ 0)
        (rest.foldl (addGameFile X dlConf type) out) (acc ++ rest) := by
  intro rest
  induction rest with
  | nil => intro out acc h; simpa using h
  | cons gf rest ih =>
    intro out acc h
    have := ih _ _ (keepsFirstRecords_add X dlConf type hdup out acc gf h)
    simpa using this

/-- C17: with duplicate handling, adding a record whose path is in the output
already (lines 375-392) keeps the length of the output and every field but the
language of every record, and leaves the output as it is for an Extra type;
over a whole run the output is not longer than the list of the accepted files,
and each of its records is the first accepted file with its path in every field
but the language, and in the language too for an Extra type. -/
theorem fileJsonNodeToGameFileVector_duplicates (X : Externals) (gamename : Str)
    (json : Json) (type : Nat) (dlConf : DownloadConfig) (k k' : Nat) (out : List gameFile)
    (hdup : dlConf.bDuplicateHandler = true)
    (h : fileJsonNodeToGameFileVector X gamename json type dlConf k = some (out, k')) :
    (∀ (gamefiles : List gameFile) (gf : gameFile),
      gf.path ∈ gamefiles.map (fun g => g.path) →
      (addGameFile X dlConf type gamefiles gf).length = gamefiles.length ∧
      List.Forall₂ (fun old new => new = { old with language := new.language })
        gamefiles (addGameFile X dlConf type gamefiles gf) ∧
      (type &&& X.GFTYPE_EXTRA ≠ 0 → addGameFile X dlConf type gamefiles gf = gamefiles)) ∧
    ∃ accepted,
      fileJsonNodeToGameFileVector X gamename json type
        { dlConf with bDuplicateHandler := false } k = some (accepted, k') ∧
      out.length ≤ accepted.length ∧
      ∀ r ∈ out, ∃ first,
        accepted.find? (fun g => decide (g.path = r.path)) = some first ∧
        r.id = first.id ∧ r.name = first.name ∧ r.version = first.version ∧
        r.size = first.size ∧ r.platform = first.platform ∧ r.type = first.type ∧
        r.galaxy_downlink_json_url = first.galaxy_downlink_json_url ∧
        r = { first with language := r.language } ∧
        (type &&& X.GFTYPE_EXTRA ≠ 0 → r = first) := by
  refine ⟨fun gamefiles gf hmem => addGameFile_duplicate X dlConf type hdup gamefiles gf hmem, ?_⟩
  unfold fileJsonNodeToGameFileVector at h ⊢
  obtain ⟨t', ht', hk, hout⟩ := forLoop_sim (MergesInto X dlConf type) _ _
    (fun i s t s' => infoNodeLoopBody_sim X gamename json type dlConf i s t s')
    json.size ([], k) ([], k) (out, k') ⟨rfl, rfl⟩ h
  simp only at hk hout
  have hkeeps : KeepsFirstRecords (type &&& X.GFTYPE_EXTRA ≠ 0) out ([] ++ t'.1) := by
    rw [hout]
    exact keepsFirstRecords_foldl X dlConf type hdup t'.1 [] []
      ⟨fun p => Iff.rfl, Nat.le_refl _, fun r hr => absurd hr (List.not_mem_nil r)⟩
  rw [List.nil_append] at hkeeps
  obtain ⟨_, hlen, hrec⟩ := hkeeps
  refine ⟨t'.1, by rw [ht', hk], hlen, ?_⟩
  intro r hr
  obtain ⟨first, hfirst, hkeep, hsame⟩ := hrec r hr
  refine ⟨first, hfirst, ?_, ?_, ?_, ?_, ?_, ?_, ?_, hkeep, hsame⟩ <;> rw [hkeep]

theorem fileJsonNodeToGameFileVector_duplicates_witness :
    fileJsonNodeToGameFileVector exampleExternals "game".toList exampleInstallers 1
      exampleConfig 0 = some (exampleMergedFiles, 3) ∧
    (∀ (gamefiles : List gameFile) (gf : gameFile),
      gf.path ∈ gamefiles.map (fun g => g.path) →
      (addGameFile exampleExternals exampleConfig 1 gamefiles gf).length = gamefiles.length ∧
      List.Forall₂ (fun old new => new = { old with language := new.language })
        gamefiles (addGameFile exampleExternals exampleConfig 1 gamefiles gf) ∧
      (1 &&& exampleExternals.GFTYPE_EXTRA ≠ 0 →
        addGameFile exampleExternals exampleConfig 1 gamefiles gf = gamefiles)) ∧
    ∃ accepted,
      fileJsonNodeToGameFileVector exampleExternals "game".toList exampleInstallers 1
        { exampleConfig with bDuplicateHandler := false } 0 = some (accepted, 3) ∧
      exampleMergedFiles.length ≤ accepted.length ∧
      ∀ r ∈ exampleMergedFiles, ∃ first,
        accepted.find? (fun g => decide (g.path = r.path)) = some first ∧
        r.id = first.id ∧ r.name = first.name ∧ r.version = first.version ∧
        r.size = first.size ∧ r.platform = first.platform ∧ r.type = first.type ∧
        r.galaxy_downlink_json_url = first.galaxy_downlink_json_url ∧
        r = { first with language := r.language } ∧
        (1 &&& exampleExternals.GFTYPE_EXTRA ≠ 0 → r = first) :=
  ⟨by decide,
   fileJsonNodeToGameFileVector_duplicates exampleExternals "game".toList
    exampleInstallers 1 exampleConfig 0 3 exampleMergedFiles (by decide) (by decide)⟩

/-! ## The depot filter: claim C14 -/

theorem regexMatchEnds_secure (s : Str) (p : Nat) :
    regexMatchEnds s securePattern p
      = if icasePrefix "/secure".toList (s.drop p) = true ∧ atLineEnd s (p + 7) = true
        then [p + 7] else [] := by
  have hseq : ∀ a b q, regexMatchEnds s (.seq a b) q
      = (regexMatchEnds s a q).flatMap (regexMatchEnds s b) := fun _ _ _ => rfl
  have hend : ∀ q, regexMatchEnds s .endLine q = if atLineEnd s q then [q] else [] :=
    fun _ => rfl
  unfold securePattern
  rw [hseq, regexMatchEnds_literals]
  have hlen : "/secure".toList.length = 7 := rfl
  rw [hlen]
  by_cases h1 : icasePrefix "/secure".toList (s.drop p) = true
  · by_cases h2 : atLineEnd s (p + 7) = true
    · rw [if_pos h1, if_pos ⟨h1, h2⟩]
      simp only [List.flatMap_cons, List.flatMap_nil, hend, if_pos h2, List.append_nil]
    · rw [if_pos h1, if_neg (fun hc => h2 hc.2)]
      simp only [List.flatMap_cons, List.flatMap_nil, hend, if_neg h2, List.append_nil]
  · rw [if_neg h1, if_neg (fun hc => h1 hc.1)]
    rfl

/-- A path that ends in `/secure`, in any letter case, matches the pattern. -/
theorem regex_search_secure_of_ends (s : Str) (h : EndsInSecure s) :
    regex_search s securePattern = true := by
  obtain ⟨t, ht⟩ := h
  have hlen : s.length = t.length + 7 := by
    have := congrArg List.length ht
    rw [List.length_append, List.length_map] at this
    exact this.symm
  unfold regex_search
  rw [List.any_eq_true]
  refine ⟨t.length, List.mem_range.mpr (by omega), ?_⟩
  have hpre : icasePrefix "/secure".toList (s.drop t.length) = true := by
    unfold icasePrefix
    rw [List.map_drop, ← ht, List.drop_left]
    decide
  have hend : atLineEnd s (t.length + 7) = true := by
    unfold atLineEnd
    rw [List.getElem?_eq_none (by omega)]
    exact decide_eq_true hlen.symm
  rw [regexMatchEnds_secure, if_pos ⟨hpre, hend⟩]
  rfl

/-- On a path without line separators the pattern matches only when the path
ends in `/secure`, letter case ignored. -/
theorem ends_of_regex_search_secure (s : Str) (hs : ∀ c ∈ s, isLineSeparator c = false)
    (h : regex_search s securePattern = true) : EndsInSecure s := by
  unfold regex_search at h
  rw [List.any_eq_true] at h
  obtain ⟨p, _, hp⟩ := h
  rw [regexMatchEnds_secure, atLineEnd_of_no_separator s _ hs] at hp
  split at hp
  · rename_i hc
    obtain ⟨hpre, hend⟩ := hc
    rw [decide_eq_true_iff] at hend
    have hdrop : (s.drop p).length = 7 := by
      rw [List.length_drop]
      omega
    have heq := (icasePrefix_full "/secure".toList (s.drop p) hdrop.symm).mp hpre
    refine ⟨(s.take p).map Char.toLower, ?_⟩
    have hlow : "/secure".toList.map Char.toLower = "/secure".toList := by decide
    rw [← hlow, ← heq, ← List.map_append, List.take_append_drop]
  · simp at hp

/-- The file loop on a file whose downlink body gives the path `path`. -/
theorem gameFileOfNode_of_path (X : Externals) (gamename : Str) (infoNode fileNode : Json)
    (name version : Str) (iPlatform iLanguage type : Nat) (j k : Nat)
    (downlink downlink_url path : Str)
    (hfile : (infoNode.get "files").bind (fun filesJson => filesJson.idx j) = some fileNode)
    (hdownlink : (fileNode.get "downlink").bind Json.asString = some downlink)
    (hbody : (X.getResponseJson k downlink).empty = false)
    (hurl : ((X.getResponseJson k downlink).get "downlink").bind Json.asString
      = some downlink_url)
    (hpath : getPathFromDownlinkUrl X.curl_easy_unescape downlink_url gamename = some path) :
    gameFileOfNode X gamename infoNode name version iPlatform iLanguage type j k
      = if regex_search path securePattern = true then some none
        else (fileNode.get "id").bind (fun idJson => idJson.asString.bind (fun id =>
          (fileNode.get "size").bind (fun sizeJson =>
            some (some (recordOf X gamename name version iPlatform iLanguage type id path
              (X.getJsonUIntValueAsString sizeJson) downlink))))) := by
  obtain ⟨filesJson, hfiles, hidx⟩ := Option.bind_eq_some.mp hfile
  obtain ⟨dj, hdj, hdjs⟩ := Option.bind_eq_some.mp hdownlink
  obtain ⟨uj, huj, hujs⟩ := Option.bind_eq_some.mp hurl
  rw [gameFileOfNode_eq, hfiles, Option.some_bind, hidx, Option.some_bind]
  simp only [gameFileOfFile, Option.bind_eq_bind, hdj, hdjs, Option.some_bind, hbody,
    Bool.false_eq_true, if_false, huj, hujs, hpath, Option.pure_def]

/-- C19: a file of a node whose downlink body gives a path without line break
is dropped by the path check if and only if the path ends in `/secure`, letter
case ignored; when the path does not end so and the `id` of the file is a
text, the file gives a record with that path; and no record of the output of
`fileJsonNodeToGameFileVector` has a path that ends in `/secure`, in any
letter case. -/
theorem fileJsonNodeToGameFileVector_secure (X : Externals) (gamename : Str)
    (infoNode fileNode : Json) (name version : Str) (iPlatform iLanguage type : Nat) (j k : Nat)
    (downlink downlink_url path : Str)
    (hfile : (infoNode.get "files").bind (fun filesJson => filesJson.idx j) = some fileNode)
    (hdownlink : (fileNode.get "downlink").bind Json.asString = some downlink)
    (hbody : (X.getResponseJson k downlink).empty = false)
    (hurl : ((X.getResponseJson k downlink).get "downlink").bind Json.asString
      = some downlink_url)
    (hpath : getPathFromDownlinkUrl X.curl_easy_unescape downlink_url gamename = some path)
    (hline : ∀ c ∈ path, isLineSeparator c = false) :
    (gameFileOfNode X gamename infoNode name version iPlatform iLanguage type j k = some none
      ↔ EndsInSecure path) ∧
    (¬ EndsInSecure path → ∀ (id : Str) (sizeJson : Json),
      (fileNode.get "id").bind Json.asString = some id →
      fileNode.get "size" = some sizeJson →
      gameFileOfNode X gamename infoNode name version iPlatform iLanguage type j k
        = some (some (recordOf X gamename name version iPlatform iLanguage type id path
            (X.getJsonUIntValueAsString sizeJson) downlink))) ∧
    (∀ (json : Json) (dlConf : DownloadConfig) (k0 k' : Nat) (out : List gameFile),
      fileJsonNodeToGameFileVector X gamename json type dlConf k0 = some (out, k') →
      ∀ r ∈ out, ¬ EndsInSecure r.path ∧ ¬ "/secure".toList <:+ r.path) := by
  have hrun := gameFileOfNode_of_path X gamename infoNode fileNode name version iPlatform
    iLanguage type j k downlink downlink_url path hfile hdownlink hbody hurl hpath
  refine ⟨?_, ?_, ?_⟩
  · constructor
    · intro h
      by_cases hre : regex_search path securePattern = true
      · exact ends_of_regex_search_secure path hline hre
      · rw [hrun, if_neg hre] at h
        simp only [Option.bind_eq_some] at h
        obtain ⟨_, _, _, _, _, _, h⟩ := h
        simp at h
    · intro h
      rw [hrun, if_pos (regex_search_secure_of_ends path h)]
  · intro hne id sizeJson hid hsize
    obtain ⟨ij, hij, hijs⟩ := Option.bind_eq_some.mp hid
    have hre : ¬ regex_search path securePattern = true :=
      fun hc => hne (ends_of_regex_search_secure path hline hc)
    rw [hrun, if_neg hre, hij, Option.some_bind, hijs, Option.some_bind, hsize,
      Option.some_bind]
  · intro json dlConf k0 k' out h
    have hlit : ∀ p : Str, ¬ EndsInSecure p → ¬ "/secure".toList <:+ p := by
      intro p hp hc
      apply hp
      obtain ⟨t, ht⟩ := hc
      refine ⟨t.map Char.toLower, ?_⟩
      have hlow : "/secure".toList.map Char.toLower = "/secure".toList := by decide
      rw [← ht, List.map_append, hlow]
    have hall : ∀ r ∈ out, ¬ EndsInSecure r.path := by
      refine fileJsonNodeToGameFileVector_inv X gamename json type dlConf
        (fun l => ∀ r ∈ l, ¬ EndsInSecure r.path) (fun gf => ¬ EndsInSecure gf.path)
        ?_ ?_ (fun r hr => absurd hr (List.not_mem_nil r)) k0 k' out h
      · intro name version iPlatform iLanguage id path size downlink _ hre hc
        rw [recordOf_path] at hc
        rw [regex_search_secure_of_ends path hc] at hre
        cases hre
      · intro l gf hl hgf
        unfold addGameFile
        have happ : ∀ r ∈ l ++ [gf], ¬ EndsInSecure r.path := by
          intro r hr
          rcases List.mem_append.mp hr with hr | hr
          · exact hl r hr
          · rw [List.mem_singleton] at hr
            exact hr ▸ hgf
        by_cases hdup : dlConf.bDuplicateHandler = true
        · rw [if_pos hdup]
          by_cases hmem : (mergeDuplicate X type gf l).1 = true
          · rw [if_pos hmem]
            intro r hr
            obtain ⟨old, hold, hrel⟩ :=
              forall₂_exists_mem_left (mergeDuplicate_forall₂ X type gf l) r hr
            have hp : r.path = old.path := by
              rcases hrel with rfl | ⟨_, _, rfl⟩ <;> rfl
            rw [hp]
            exact hl old hold
          · rw [if_neg hmem]
            exact happ
        · rw [if_neg hdup]
          exact happ
    exact fun r hr => ⟨hall r hr, hlit _ (hall r hr)⟩

theorem fileJsonNodeToGameFileVector_secure_witness :
    (gameFileOfNode exampleExternals "game".toList
        (exampleInfoNode "Game" "windows" "en" "en1" "game/setup.exe") "Game".toList [] 1 1 1 0 0
        = some none ↔ EndsInSecure "/game/setup.exe".toList) ∧
    (¬ EndsInSecure "/game/setup.exe".toList → ∀ (id : Str) (sizeJson : Json),
      (Json.get (.obj [("id", .str "en1"), ("size", .uint 1000),
          ("downlink", .str "game/setup.exe")]) "id").bind Json.asString = some id →
      Json.get (.obj [("id", .str "en1"), ("size", .uint 1000),
          ("downlink", .str "game/setup.exe")]) "size" = some sizeJson →
      gameFileOfNode exampleExternals "game".toList
        (exampleInfoNode "Game" "windows" "en" "en1" "game/setup.exe") "Game".toList [] 1 1 1 0 0
        = some (some (recordOf exampleExternals "game".toList "Game".toList [] 1 1 1 id
            "/game/setup.exe".toList (exampleExternals.getJsonUIntValueAsString sizeJson)
            "game/setup.exe".toList))) ∧
    (∀ (json : Json) (dlConf : DownloadConfig) (k0 k' : Nat) (out : List gameFile),
      fileJsonNodeToGameFileVector exampleExternals "game".toList json 1 dlConf k0
        = some (out, k') →
      ∀ r ∈ out, ¬ EndsInSecure r.path ∧ ¬ "/secure".toList <:+ r.path) :=
  fileJsonNodeToGameFileVector_secure exampleExternals "game".toList
    (exampleInfoNode "Game" "windows" "en" "en1" "game/setup.exe")
    (.obj [("id", .str "en1"), ("size", .uint 1000), ("downlink", .str "game/setup.exe")])
    "Game".toList [] 1 1 1 0 0 "game/setup.exe".toList
    "https://cdn.example/game/setup.exe?token=t".toList "/game/setup.exe".toList
    rfl (by decide) (by decide) (by decide) (by decide) (by decide)

/-- The file of `exampleSecureNode` resolves to `/game/SECURE`, which does not
end in the text `/secure`, and the path check drops it: the output is empty. -/
theorem fileJsonNodeToGameFileVector_secure_case_counterexample :
    getPathFromDownlinkUrl exampleExternals.curl_easy_unescape
      "https://cdn.example/game/SECURE?token=t".toList "game".toList
      = some "/game/SECURE".toList ∧
    ¬ "/secure".toList <:+ "/game/SECURE".toList ∧
    gameFileOfNode exampleExternals "game".toList exampleSecureNode "Game".toList [] 1 1 1 0 0
      = some none ∧
    fileJsonNodeToGameFileVector exampleExternals "game".toList (.arr [exampleSecureNode]) 1
      exampleConfig 0 = some ([], 1) := by
  refine ⟨by decide, by decide, by decide, by decide⟩

/-! ## The query workaround: claim C15 -/

theorem getPathFromDownlinkUrl_eq (curl_easy_unescape : Str → Str)
    (downlink_url gamename : Str) :
    getPathFromDownlinkUrl curl_easy_unescape downlink_url gamename
      = (substringPath curl_easy_unescape downlink_url gamename).bind cutQueryFragment := by
  unfold getPathFromDownlinkUrl substringPath
  by_cases h : find (curl_easy_unescape downlink_url)
      ("/".toList ++ gamename ++ "/".toList) ≠ npos
  · simp only [if_pos h, Option.bind_eq_bind]
  · simp only [if_neg h, Option.bind_eq_bind]
    cases iterRange (curl_easy_unescape downlink_url)
      ((find_last_of (curl_easy_unescape downlink_url) "/".toList + 1) % 2 ^ 64)
      (filenameEndPos (curl_easy_unescape downlink_url)) with
    | none => rfl
    | some name => rfl

/-- Where `find` gives a position, the pattern stands at that position. -/
theorem isPrefix_drop_find (s pat : Str) (h : find s pat ≠ npos) :
    pat <+: s.drop (find s pat) := by
  obtain ⟨k, hk⟩ := exists_firstOccurrence s pat (infix_of_find_ne_npos s pat h)
  rw [find_of_firstOccurrence s pat k hk]
  exact hk.2.1

theorem queriesInName_of_all_followed (s : Str)
    (h : ∀ pre rest, s = pre ++ '?' :: rest → '/' ∈ rest) : queriesInName s = 0 := by
  unfold queriesInName
  rw [List.count_eq_zero]
  intro hmem
  obtain ⟨a, b, hab⟩ := List.append_of_mem hmem
  have hpre : (a ++ '?' :: b) <+: s.reverse := by
    rw [← hab]
    exact List.takeWhile_prefix _
  obtain ⟨t, ht⟩ := hpre
  have hs : s = (t.reverse ++ b.reverse) ++ '?' :: a.reverse := by
    have := congrArg List.reverse ht
    simpa using this.symm
  have hslash := h _ _ hs
  have hno : ∀ c ∈ a ++ '?' :: b, c ≠ '/' := by
    intro c hc
    rw [← hab] at hc
    simpa using List.mem_takeWhile_imp hc
  exact hno '/' (by simp [List.mem_reverse.mp hslash]) rfl

theorem queriesInName_append_query (r rest : Str) (hq : '?' ∉ rest) (hs : '/' ∉ rest) :
    queriesInName (r ++ '?' :: rest) = queriesInName r + 1 := by
  unfold queriesInName
  have hrev : (r ++ '?' :: rest).reverse = (rest.reverse ++ ['?']) ++ r.reverse := by simp
  have hall : ∀ c ∈ rest.reverse ++ ['?'], decide (c ≠ '/') = true := by
    intro c hc
    rw [decide_eq_true_iff]
    rintro rfl
    rcases List.mem_append.mp hc with h | h
    · exact hs (List.mem_reverse.mp h)
    · simp at h
  rw [hrev, List.takeWhile_append_of_pos hall, List.count_append, List.count_append]
  have h0 : rest.reverse.count '?' = 0 :=
    List.count_eq_zero.mpr (fun hc => hq (List.mem_reverse.mp hc))
  rw [h0]
  simp
  omega

/-- What lines 498-506 give: a path that is empty or begins with `/`, not
longer than the URL and the slug. -/
theorem substringPath_shape (curl_easy_unescape : Str → Str) (downlink_url gamename sub : Str)
    (h : substringPath curl_easy_unescape downlink_url gamename = some sub) :
    sub.length ≤ (curl_easy_unescape downlink_url).length + gamename.length + 2 ∧
    (sub = [] ∨ ∃ tail, sub = '/' :: tail) := by
  unfold substringPath at h
  generalize curl_easy_unescape downlink_url = u at h ⊢
  by_cases hf : find u ("/".toList ++ gamename ++ "/".toList) ≠ npos
  · rw [if_pos hf] at h
    unfold iterRange at h
    split at h
    · rename_i hb
      simp only [Option.some.injEq] at h
      subst h
      constructor
      · rw [List.length_drop, List.length_take]
        omega
      · obtain ⟨t, ht⟩ := isPrefix_drop_find u _ hf
        rw [List.drop_take, ← ht]
        cases hn : filenameEndPos u - find u ("/".toList ++ gamename ++ "/".toList) with
        | zero => exact Or.inl (by simp)
        | succ n => exact Or.inr ⟨_, rfl⟩
    · cases h
  · rw [if_neg hf] at h
    simp only [Option.bind_eq_bind, Option.bind_eq_some, Option.pure_def,
      Option.some.injEq] at h
    obtain ⟨name, hname, rfl⟩ := h
    unfold iterRange at hname
    split at hname
    · simp only [Option.some.injEq] at hname
      subst hname
      constructor
      · simp only [List.length_append, List.length_drop, List.length_take]
        have : "/".toList.length = 1 := rfl
        omega
      · exact Or.inr ⟨_, rfl⟩
    · cases hname

/-- C15: when `getPathFromDownlinkUrl` returns a path, it is the path taken
from the URL by lines 498-506, cut at its last `?` when that lies after its
final `/`; the returned path has one `?` less after its final `/` than the path
taken from the URL if that has any, so it has none there when the path taken
from the URL has at most one. -/
theorem getPathFromDownlinkUrl_query (curl_easy_unescape : Str → Str)
    (downlink_url gamename r : Str)
    (hsize : (curl_easy_unescape downlink_url).length + gamename.length + 2 < npos)
    (h : getPathFromDownlinkUrl curl_easy_unescape downlink_url gamename = some r) :
    ∃ sub, substringPath curl_easy_unescape downlink_url gamename = some sub ∧
      CutAtQuery sub r ∧
      queriesInName r = queriesInName sub - 1 ∧
      (queriesInName sub ≤ 1 → queriesInName r = 0) := by
  rw [getPathFromDownlinkUrl_eq, Option.bind_eq_some] at h
  obtain ⟨sub, hsub, hcut⟩ := h
  obtain ⟨hlen, hshape⟩ := substringPath_shape curl_easy_unescape downlink_url gamename sub hsub
  obtain ⟨r', hr', hspec⟩ := cutQueryFragment_spec sub (Nat.lt_of_le_of_lt hlen hsize) hshape
  rw [hcut, Option.some.injEq] at hr'
  subst hr'
  have hcount : queriesInName r = queriesInName sub - 1 := by
    rcases hspec with ⟨rest, hsplit, hq, hs⟩ | ⟨heq, hall⟩
    · rw [hsplit, queriesInName_append_query r rest hq hs]
      rfl
    · rw [heq, queriesInName_of_all_followed sub hall]
  exact ⟨sub, hsub, hspec, hcount, fun hle => by omega⟩

theorem getPathFromDownlinkUrl_query_witness :
    ∃ sub, substringPath id "https://example/dl?path=/game/file.exe?a&token=X&access_token=Y".toList
        "game".toList = some sub ∧
      CutAtQuery sub "/game/file.exe".toList ∧
      queriesInName "/game/file.exe".toList = queriesInName sub - 1 ∧
      (queriesInName sub ≤ 1 → queriesInName "/game/file.exe".toList = 0) :=
  getPathFromDownlinkUrl_query id
    "https://example/dl?path=/game/file.exe?a&token=X&access_token=Y".toList "game".toList
    "/game/file.exe".toList (by decide) (by decide)

/-- A URL whose file name carries two `?`: the bounds are in range, and the
path returned has a `?` after its final `/`. -/
theorem getPathFromDownlinkUrl_two_queries_counterexample :
    getPathFromDownlinkUrl id
      "https://example/dl?path=/game/file.exe?a?b&token=X&access_token=Y".toList "game".toList
      = some "/game/file.exe?a".toList ∧
    "/game/file.exe?a".toList = "/game/file.exe".toList ++ '?' :: "a".toList ∧
    '/' ∉ "a".toList ∧
    queriesInName "/game/file.exe?a".toList = 1 := by
  refine ⟨by decide, by decide, by decide, by decide⟩

/-! ## The older URL format: claim C16 -/

/-- The workaround leaves a path alone when no `?` lies after its final `/`. -/
theorem cutQueryFragment_no_query_in_name (a b : Str) (hq : '?' ∉ b) (hs : '/' ∉ b) :
    cutQueryFragment (a ++ '/' :: b) = some (a ++ '/' :: b) := by
  have hlasts : find_last_of (a ++ '/' :: b) "/".toList = a.length :=
    find_last_of_char '/' a b hs
  unfold cutQueryFragment
  split
  · rename_i hfind
    split
    · rename_i hgt
      exfalso
      rw [hlasts] at hgt
      by_cases ha : '?' ∈ a
      · obtain ⟨p, q, hpq, hq'⟩ := exists_last_occurrence '?' a ha
        have hsplit : a ++ '/' :: b = p ++ '?' :: (q ++ '/' :: b) := by
          rw [hpq]
          simp
        have hnot : '?' ∉ q ++ '/' :: b := by
          intro hc
          rcases List.mem_append.mp hc with h | h
          · exact hq' h
          · rcases List.mem_cons.mp h with h | h
            · cases h
            · exact hq h
        have hlastq : find_last_of (a ++ '/' :: b) "?".toList = p.length := by
          rw [hsplit]
          exact find_last_of_char '?' p _ hnot
        rw [hlastq, hpq, List.length_append, List.length_cons] at hgt
        omega
      · apply hfind
        apply find_eq_npos_of_absent
        intro hinf
        have hc : '?' ∈ a ++ '/' :: b := (singleton_infix_iff '?' _).mp hinf
        rcases List.mem_append.mp hc with h | h
        · exact ha h
        · rcases List.mem_cons.mp h with h | h
          · cases h
          · exact hq h
    · rfl
  · rfl

/-- C16: for an unescaped URL without `?path=` and without a `/<gameSlug>/`
segment, that has a `?` and no `/` after its first `?`, `getPathFromDownlinkUrl`
returns `/<gameSlug>/` and then the text between the final `/` of the URL (its
start, when it has no `/`) and the first `?`, and the bounds of the substring
are in range. -/
theorem getPathFromDownlinkUrl_older_format (curl_easy_unescape : Str → Str)
    (downlink_url gamename dir name rest : Str)
    (hsize : (curl_easy_unescape downlink_url).length < npos)
    (hpath : ¬ "?path=".toList <:+: curl_easy_unescape downlink_url)
    (hslug : ¬ ("/".toList ++ gamename ++ "/".toList) <:+: curl_easy_unescape downlink_url)
    (hsplit : curl_easy_unescape downlink_url = dir ++ name ++ '?' :: rest)
    (hdir : dir = [] ∨ ∃ d, dir = d ++ ['/'])
    (hname : '/' ∉ name ∧ '?' ∉ name) (hfirst : '?' ∉ dir) (hrest : '/' ∉ rest) :
    (find_last_of (curl_easy_unescape downlink_url) "/".toList + 1) % 2 ^ 64 = dir.length ∧
    filenameEndPos (curl_easy_unescape downlink_url) = (dir ++ name).length ∧
    dir.length ≤ (dir ++ name).length ∧
    (dir ++ name).length ≤ (curl_easy_unescape downlink_url).length ∧
    getPathFromDownlinkUrl curl_easy_unescape downlink_url gamename
      = some ("/".toList ++ gamename ++ "/".toList ++ name) := by
  have hfp : find (curl_easy_unescape downlink_url) "?path=".toList = npos :=
    find_eq_npos_of_absent _ _ hpath
  have hfs : find (curl_easy_unescape downlink_url) ("/".toList ++ gamename ++ "/".toList)
      = npos := find_eq_npos_of_absent _ _ hslug
  unfold getPathFromDownlinkUrl
  simp only [hfs, ne_eq, not_true_eq_false, if_false]
  have hend : filenameEndPos (curl_easy_unescape downlink_url) = (dir ++ name).length := by
    unfold filenameEndPos
    rw [if_neg (fun hc => hc hfp), hsplit]
    apply find_first_of_char
    intro hc
    rcases List.mem_append.mp hc with h | h
    · exact hfirst h
    · exact hname.2 h
  generalize curl_easy_unescape downlink_url = u at *
  have htail : '/' ∉ name ++ '?' :: rest := by
    intro hc
    rcases List.mem_append.mp hc with h | h
    · exact hname.1 h
    · rcases List.mem_cons.mp h with h | h
      · cases h
      · exact hrest h
  have hstart : (find_last_of u "/".toList + 1) % 2 ^ 64 = dir.length := by
    rcases hdir with hd | ⟨d, hd⟩
    · subst hd
      rw [List.nil_append] at hsplit
      have e : find_last_of u "/".toList = npos :=
        find_last_of_char_not_mem '/' u (hsplit ▸ htail)
      rw [e]
      exact npos_succ_wraps
    · have hu : u = d ++ '/' :: (name ++ '?' :: rest) := by
        rw [hsplit, hd]
        simp
      have hlast : find_last_of u "/".toList = d.length := by
        rw [hu]
        exact find_last_of_char '/' d _ htail
      have hlen : d.length + 1 ≤ u.length := by
        rw [hu, List.length_append, List.length_cons]
        omega
      have hn : npos = 2 ^ 64 - 1 := rfl
      rw [hlast, hd, List.length_append, List.length_singleton]
      apply Nat.mod_eq_of_lt
      omega
  have hle1 : dir.length ≤ (dir ++ name).length := by
    rw [List.length_append]
    omega
  have hle2 : (dir ++ name).length ≤ u.length := by
    rw [hsplit, List.length_append (dir ++ name)]
    omega
  refine ⟨hstart, hend, hle1, hle2, ?_⟩
  have hrange : iterRange u ((find_last_of u "/".toList + 1) % 2 ^ 64) (filenameEndPos u)
      = some name := by
    rw [hstart, hend]
    unfold iterRange
    rw [if_pos ⟨hle1, hle2⟩, hsplit, List.take_left, List.drop_left]
  rw [hrange]
  simp only [Option.bind_eq_bind, Option.some_bind, Option.pure_def]
  have hshape : "/".toList ++ gamename ++ "/".toList ++ name
      = ("/".toList ++ gamename) ++ '/' :: name := by simp
  rw [hshape]
  exact cutQueryFragment_no_query_in_name _ name hname.2 hname.1

theorem getPathFromDownlinkUrl_older_format_witness :
    (find_last_of "https://cdn.example/file.exe?token=t".toList "/".toList + 1) % 2 ^ 64
      = "https://cdn.example/".toList.length ∧
    filenameEndPos "https://cdn.example/file.exe?token=t".toList
      = ("https://cdn.example/".toList ++ "file.exe".toList).length ∧
    "https://cdn.example/".toList.length
      ≤ ("https://cdn.example/".toList ++ "file.exe".toList).length ∧
    ("https://cdn.example/".toList ++ "file.exe".toList).length
      ≤ "https://cdn.example/file.exe?token=t".toList.length ∧
    getPathFromDownlinkUrl id "https://cdn.example/file.exe?token=t".toList "game".toList
      = some ("/".toList ++ "game".toList ++ "/".toList ++ "file.exe".toList) :=
  getPathFromDownlinkUrl_older_format id "https://cdn.example/file.exe?token=t".toList
    "game".toList "https://cdn.example/".toList "file.exe".toList "token=t".toList
    (by decide) (by decide) (by decide) (by decide)
    (Or.inr ⟨"https://cdn.example".toList, by decide⟩) (by decide) (by decide) (by decide)

/-- A URL of the older format with a `?` and no `/game/` segment, whose final
`/` lies after the first `?`: the range of line 504 starts after its end and
nothing is returned. -/
theorem getPathFromDownlinkUrl_slash_in_query_counterexample :
    ¬ "?path=".toList <:+: "https://cdn.example/file.exe?next=/x".toList ∧
    '?' ∈ "https://cdn.example/file.exe?next=/x".toList ∧
    ¬ "/game/".toList <:+: "https://cdn.example/file.exe?next=/x".toList ∧
    find_last_of "https://cdn.example/file.exe?next=/x".toList "/".toList + 1 = 35 ∧
    filenameEndPos "https://cdn.example/file.exe?next=/x".toList = 28 ∧
    getPathFromDownlinkUrl id "https://cdn.example/file.exe?next=/x".toList "game".toList
      = none := by
  refine ⟨by decide, by decide, by decide, by decide, by decide, by decide⟩

/-! ## The order of the output: claim C18 -/

theorem collectInOrder_append (g : Json → Nat → Option (List gameFile × Nat)) :
    ∀ (xs ys : List Json) (k : Nat),
      collectInOrder g (xs ++ ys) k
        = (collectInOrder g xs k).bind (fun r =>
            (collectInOrder g ys r.2).map (fun r' => (r.1 ++ r'.1, r'.2))) := by
  intro xs
  induction xs with
  | nil =>
    intro ys k
    simp only [List.nil_append, collectInOrder, Option.some_bind, List.nil_append]
    cases collectInOrder g ys k with
    | none => rfl
    | some r => rfl
  | cons x xs ih =>
    intro ys k
    have e1 : collectInOrder g (x :: (xs ++ ys)) k
        = (g x k).bind (fun r =>
            (collectInOrder g (xs ++ ys) r.2).map (fun r' => (r.1 ++ r'.1, r'.2))) := rfl
    have e2 : collectInOrder g (x :: xs) k
        = (g x k).bind (fun r =>
            (collectInOrder g xs r.2).map (fun r' => (r.1 ++ r'.1, r'.2))) := rfl
    rw [List.cons_append, e1, e2]
    cases g x k with
    | none => rfl
    | some r =>
      rw [Option.some_bind, Option.some_bind, ih]
      cases collectInOrder g xs r.2 with
      | none => rfl
      | some r1 =>
        rw [Option.some_bind, Option.map_some', Option.some_bind]
        cases collectInOrder g ys r1.2 with
        | none => rfl
        | some r2 => simp only [Option.map_some', List.append_assoc]

theorem collectInOrder_singleton (g : Json → Nat → Option (List gameFile × Nat))
    (e : Json) (k : Nat) : collectInOrder g [e] k = g e k := by
  simp only [collectInOrder]
  cases g e k with
  | none => rfl
  | some r => simp

/-- A loop over the indices of a list that adds to the output, at each index,
what `g` gives for the element: the output grows by the lists of the elements,
in their order. -/
theorem forLoop_collect (j : Json) (g : Json → Nat → Option (List gameFile × Nat))
    (body : Nat → List gameFile × Nat → Option (List gameFile × Nat))
    (hbody : ∀ i st st', body i st = some st' →
      ∃ e a, j.idx i = some e ∧ g e st.2 = some (a, st'.2) ∧ st'.1 = st.1 ++ a)
    (init r : List gameFile × Nat) (h : forLoop j.size body init = some r) :
    ∃ a, collectInOrder g j.elements init.2 = some (a, r.2) ∧ r.1 = init.1 ++ a := by
  have hzero : j.size = 0 → j.elements = [] →
      ∃ a, collectInOrder g j.elements init.2 = some (a, r.2) ∧ r.1 = init.1 ++ a := by
    intro hs he
    rw [hs, forLoop_zero, Option.some.injEq] at h
    subst h
    rw [he]
    exact ⟨[], rfl, (List.append_nil _).symm⟩
  cases j with
  | arr es =>
    have hprefix : ∀ n, n ≤ es.length → ∀ mid, forLoop n body init = some mid →
        ∃ a, collectInOrder g (es.take n) init.2 = some (a, mid.2) ∧ mid.1 = init.1 ++ a := by
      intro n
      induction n with
      | zero =>
        intro _ mid hmid
        rw [forLoop_zero, Option.some.injEq] at hmid
        subst hmid
        exact ⟨[], rfl, (List.append_nil _).symm⟩
      | succ n ih =>
        intro hn mid hmid
        rw [forLoop_succ, Option.bind_eq_some] at hmid
        obtain ⟨prev, hprev, hlast⟩ := hmid
        obtain ⟨a, ha, hpa⟩ := ih (Nat.le_of_succ_le hn) prev hprev
        obtain ⟨e, b, he, hb, hpb⟩ := hbody n prev mid hlast
        have hlt : n < es.length := hn
        have hen : e = es[n] := by
          simp only [Json.idx, Option.some.injEq] at he
          rw [← he, List.getD_eq_getElem?_getD, List.getElem?_eq_getElem hlt]
          rfl
        refine ⟨a ++ b, ?_, ?_⟩
        · rw [List.take_succ, List.getElem?_eq_getElem hlt, Option.toList,
            collectInOrder_append, ha, Option.some_bind, collectInOrder_singleton, ← hen, hb]
          rfl
        · rw [hpb, hpa, List.append_assoc]
    have := hprefix es.length (Nat.le_refl _) r h
    rw [List.take_length] at this
    exact this
  | obj ms =>
    cases ms with
    | nil => exact hzero rfl rfl
    | cons m ms =>
      exfalso
      have hs : (Json.obj (m :: ms)).size = ms.length + 1 := rfl
      rw [hs, forLoop_succ, Option.bind_eq_some] at h
      obtain ⟨prev, _, hlast⟩ := h
      obtain ⟨e, _, he, _⟩ := hbody ms.length prev r hlast
      cases he
  | null => exact hzero rfl rfl
  | bool b => exact hzero rfl rfl
  | int i => exact hzero rfl rfl
  | uint n => exact hzero rfl rfl
  | real t u => exact hzero rfl rfl
  | str s => exact hzero rfl rfl

/-- Without duplicate handling, the body of the file loop adds the accepted
file of the file of index `j`. -/
theorem fileLoopBody_accepted (X : Externals) (gamename : Str) (infoNode filesJson : Json)
    (name version : Str) (iPlatform iLanguage type : Nat) (dlConf : DownloadConfig)
    (hdup : dlConf.bDuplicateHandler = false) (hfiles : infoNode.get "files" = some filesJson)
    (j : Nat) (st st' : List gameFile × Nat)
    (h : fileLoopBody X gamename infoNode name version iPlatform iLanguage type dlConf j st
      = some st') :
    ∃ e a, filesJson.idx j = some e ∧
      acceptedOfFile X gamename name version iPlatform iLanguage type e st.2 = some (a, st'.2) ∧
      st'.1 = st.1 ++ a := by
  unfold fileLoopBody at h
  rw [gameFileOfNode_eq, hfiles, Option.some_bind] at h
  cases he : filesJson.idx j with
  | none =>
    rw [he] at h
    cases h
  | some e =>
    rw [he, Option.some_bind] at h
    cases hr : gameFileOfFile X gamename e name version iPlatform iLanguage type st.2 with
    | none =>
      rw [hr] at h
      cases h
    | some r =>
      rw [hr] at h
      cases r with
      | none =>
        simp only [Option.bind_eq_bind, Option.some_bind, Option.pure_def,
          Option.some.injEq] at h
        subst h
        exact ⟨e, [], rfl, by simp [acceptedOfFile, hr], (List.append_nil _).symm⟩
      | some gf =>
        simp only [Option.bind_eq_bind, Option.some_bind, Option.pure_def,
          Option.some.injEq] at h
        subst h
        refine ⟨e, [gf], rfl, by simp [acceptedOfFile, hr], ?_⟩
        simp [addGameFile, hdup]

theorem infoNodeFiles_accepted (X : Externals) (gamename : Str) (infoNode filesJson : Json)
    (name version : Str) (iPlatform iLanguage type : Nat) (dlConf : DownloadConfig)
    (hdup : dlConf.bDuplicateHandler = false) (hfiles : infoNode.get "files" = some filesJson)
    (st st' : List gameFile × Nat)
    (h : infoNodeFiles X gamename infoNode filesJson.size name version iPlatform iLanguage type
      dlConf st = some st') :
    ∃ a, acceptedOfKeptNode X gamename infoNode name version iPlatform iLanguage type st.2
        = some (a, st'.2) ∧ st'.1 = st.1 ++ a := by
  simp only [infoNodeFiles, Option.bind_eq_bind, Option.bind_eq_some] at h
  obtain ⟨cj, hcj, c, hc, tj, htj, ts, hts, h⟩ := h
  simp only [acceptedOfKeptNode, Option.bind_eq_bind, hcj, hc, htj, hts, hfiles,
    Option.some_bind]
  by_cases hzero : c = 0 ∧ ts = 0
  · rw [if_pos hzero] at h ⊢
    simp only [Option.pure_def, Option.some.injEq] at h
    subst h
    exact ⟨[], rfl, (List.append_nil _).symm⟩
  · rw [if_neg hzero] at h ⊢
    exact forLoop_collect filesJson
      (acceptedOfFile X gamename name version iPlatform iLanguage type) _
      (fun j s s' hs => fileLoopBody_accepted X gamename infoNode filesJson name version
        iPlatform iLanguage type dlConf hdup hfiles j s s' hs) st st' h

theorem infoNodeLoopBody_accepted (X : Externals) (gamename : Str) (json : Json) (type : Nat)
    (dlConf : DownloadConfig) (hdup : dlConf.bDuplicateHandler = false) (i : Nat)
    (st st' : List gameFile × Nat)
    (h : infoNodeLoopBody X gamename json type dlConf i st = some st') :
    ∃ e a, json.idx i = some e ∧
      acceptedOfNode X gamename type dlConf.iInstallerPlatform dlConf.iInstallerLanguage e st.2
        = some (a, st'.2) ∧
      st'.1 = st.1 ++ a := by
  simp only [infoNodeLoopBody, Option.bind_eq_bind, Option.bind_eq_some] at h
  obtain ⟨infoNode, hnode, fj, hfj, nj, hnj, name, hname, version, hversion, h⟩ := h
  refine ⟨infoNode, ?_⟩
  simp only [acceptedOfNode, Option.bind_eq_bind, hnj, hname, hversion, Option.some_bind]
  by_cases hextra : type &&& X.GFTYPE_EXTRA = 0
  · rw [if_pos hextra] at h ⊢
    simp only [Option.bind_eq_some] at h
    obtain ⟨oj, hoj, os, hos, lj, hlj, language, hlanguage, h⟩ := h
    simp only [hoj, hos, hlj, hlanguage, Option.some_bind]
    by_cases hp : X.platformValue os &&& dlConf.iInstallerPlatform = 0
    · rw [if_pos hp] at h ⊢
      simp only [Option.pure_def, Option.some.injEq] at h
      subst h
      exact ⟨[], hnode, rfl, (List.append_nil _).symm⟩
    · rw [if_neg hp] at h ⊢
      by_cases hl : X.languageValue language &&& dlConf.iInstallerLanguage = 0
      · rw [if_pos hl] at h ⊢
        simp only [Option.pure_def, Option.some.injEq] at h
        subst h
        exact ⟨[], hnode, rfl, (List.append_nil _).symm⟩
      · rw [if_neg hl] at h ⊢
        obtain ⟨a, ha, hst⟩ := infoNodeFiles_accepted X gamename infoNode fj name version _ _
          type dlConf hdup hfj st st' h
        exact ⟨a, hnode, ha, hst⟩
  · rw [if_neg hextra] at h ⊢
    obtain ⟨a, ha, hst⟩ := infoNodeFiles_accepted X gamename infoNode fj name version _ _
      type dlConf hdup hfj st st' h
    exact ⟨a, hnode, ha, hst⟩

/-- Without duplicate handling the output is the list of the accepted files. -/
theorem fileJsonNodeToGameFileVector_accepted (X : Externals) (gamename : Str) (json : Json)
    (type : Nat) (dlConf : DownloadConfig) (hdup : dlConf.bDuplicateHandler = false)
    (k k' : Nat) (out : List gameFile)
    (h : fileJsonNodeToGameFileVector X gamename json type dlConf k = some (out, k')) :
    acceptedFiles X gamename json type dlConf k = some (out, k') := by
  unfold fileJsonNodeToGameFileVector at h
  obtain ⟨a, ha, hout⟩ := forLoop_collect json
    (acceptedOfNode X gamename type dlConf.iInstallerPlatform dlConf.iInstallerLanguage) _
    (fun i s s' hs => infoNodeLoopBody_accepted X gamename json type dlConf hdup i s s' hs)
    ([], k) (out, k') h
  simp only [List.nil_append] at hout
  rw [hout]
  exact ha

theorem collectInOrder_ids (g : Json → Nat → Option (List gameFile × Nat))
    (ids : Json → List Str)
    (hg : ∀ e k a k', g e k = some (a, k') → (a.map (fun r => r.id)).Sublist (ids e)) :
    ∀ (es : List Json) (k : Nat) (a : List gameFile) (k' : Nat),
      collectInOrder g es k = some (a, k') →
      (a.map (fun r => r.id)).Sublist (es.flatMap ids) := by
  intro es
  induction es with
  | nil =>
    intro k a k' h
    simp only [collectInOrder, Option.some.injEq, Prod.mk.injEq] at h
    rw [← h.1]
    exact List.Sublist.refl _
  | cons e es ih =>
    intro k a k' h
    simp only [collectInOrder, Option.bind_eq_some, Option.map_eq_some'] at h
    obtain ⟨r, hr, r', hr', heq⟩ := h
    simp only [Prod.mk.injEq] at heq
    rw [← heq.1, List.map_append, List.flatMap_cons]
    exact List.Sublist.append (hg e k r.1 r.2 hr) (ih r.2 r'.1 r'.2 hr')

theorem acceptedOfFile_ids (X : Externals) (gamename name version : Str)
    (iPlatform iLanguage type : Nat) (fileNode : Json) (k : Nat) (a : List gameFile) (k' : Nat)
    (h : acceptedOfFile X gamename name version iPlatform iLanguage type fileNode k
      = some (a, k')) :
    (a.map (fun r => r.id)).Sublist (fileIdOf fileNode) := by
  simp only [acceptedOfFile, Option.map_eq_some', Prod.mk.injEq] at h
  obtain ⟨r, hr, ha, _⟩ := h
  subst ha
  cases r with
  | none => exact List.nil_sublist _
  | some gf =>
    obtain ⟨id, path, size, downlink, _, hgf, _, hid, _⟩ :=
      gameFileOfFile_some _ _ _ _ _ _ _ _ _ _ hr
    rw [fileIdOf, hid, hgf]
    simp only [Option.toList, List.map_cons, List.map_nil, recordOf_id]
    exact List.Sublist.refl _

theorem acceptedOfKeptNode_ids (X : Externals) (gamename : Str) (infoNode : Json)
    (name version : Str) (iPlatform iLanguage type : Nat) (k : Nat) (a : List gameFile)
    (k' : Nat)
    (h : acceptedOfKeptNode X gamename infoNode name version iPlatform iLanguage type k
      = some (a, k')) :
    (a.map (fun r => r.id)).Sublist (nodeFileIds infoNode) := by
  simp only [acceptedOfKeptNode, Option.bind_eq_bind, Option.bind_eq_some] at h
  obtain ⟨cj, _, c, _, tj, _, ts, _, fj, hfj, h⟩ := h
  by_cases hzero : c = 0 ∧ ts = 0
  · rw [if_pos hzero] at h
    simp only [Option.pure_def, Option.some.injEq, Prod.mk.injEq] at h
    rw [← h.1]
    exact List.nil_sublist _
  · rw [if_neg hzero] at h
    have := collectInOrder_ids _ fileIdOf
      (acceptedOfFile_ids X gamename name version iPlatform iLanguage type) fj.elements k a k' h
    simpa only [nodeFileIds, hfj, Option.map_some', Option.getD_some] using this

theorem acceptedOfNode_ids (X : Externals) (gamename : Str) (type : Nat)
    (wantedPlatform wantedLanguage : Nat) (infoNode : Json) (k : Nat) (a : List gameFile)
    (k' : Nat)
    (h : acceptedOfNode X gamename type wantedPlatform wantedLanguage infoNode k
      = some (a, k')) :
    (a.map (fun r => r.id)).Sublist (nodeFileIds infoNode) := by
  simp only [acceptedOfNode, Option.bind_eq_bind, Option.bind_eq_some] at h
  obtain ⟨nj, _, name, _, version, _, h⟩ := h
  have hskip : ∀ k0, (some (([] : List gameFile), k0) = some (a, k')) →
      (a.map (fun r => r.id)).Sublist (nodeFileIds infoNode) := by
    intro k0 hk
    simp only [Option.some.injEq, Prod.mk.injEq] at hk
    rw [← hk.1]
    exact List.nil_sublist _
  by_cases hextra : type &&& X.GFTYPE_EXTRA = 0
  · rw [if_pos hextra] at h
    simp only [Option.bind_eq_some] at h
    obtain ⟨oj, _, os, _, lj, _, language, _, h⟩ := h
    by_cases hp : X.platformValue os &&& wantedPlatform = 0
    · rw [if_pos hp] at h
      exact hskip k h
    · rw [if_neg hp] at h
      by_cases hl : X.languageValue language &&& wantedLanguage = 0
      · rw [if_pos hl] at h
        exact hskip k h
      · rw [if_neg hl] at h
        exact acceptedOfKeptNode_ids X gamename infoNode name version _ _ type k a k' h
  · rw [if_neg hextra] at h
    exact acceptedOfKeptNode_ids X gamename infoNode name version _ _ type k a k' h

theorem forall₂_ids_eq :
    ∀ {xs ys : List gameFile}, List.Forall₂ (fun old new => new.id = old.id) xs ys →
      ys.map (fun r => r.id) = xs.map (fun r => r.id) := by
  intro xs ys h
  induction h with
  | nil => rfl
  | cons hxy _ ih => rw [List.map_cons, List.map_cons, hxy, ih]

/-- Adding records one by one keeps the ids in the order of the additions. -/
theorem addGameFile_foldl_ids (X : Externals) (dlConf : DownloadConfig) (type : Nat) :
    ∀ (rest out : List gameFile),
      ((rest.foldl (addGameFile X dlConf type) out).map (fun r => r.id)).Sublist
        (out.map (fun r => r.id) ++ rest.map (fun r => r.id)) := by
  intro rest
  induction rest with
  | nil =>
    intro out
    simp
  | cons gf rest ih =>
    intro out
    have hstep : ((addGameFile X dlConf type out gf).map (fun r => r.id)).Sublist
        (out.map (fun r => r.id) ++ [gf.id]) := by
      unfold addGameFile
      have happ : ((out ++ [gf]).map (fun r => r.id)).Sublist
          (out.map (fun r => r.id) ++ [gf.id]) := by
        rw [List.map_append]
        exact List.Sublist.refl _
      by_cases hdup : dlConf.bDuplicateHandler = true
      · rw [if_pos hdup]
        by_cases hmem : (mergeDuplicate X type gf out).1 = true
        · rw [if_pos hmem]
          have hids : (mergeDuplicate X type gf out).2.map (fun r => r.id)
              = out.map (fun r => r.id) := by
            have h2 := mergeDuplicate_forall₂ X type gf out
            have h3 : List.Forall₂ (fun old new => new.id = old.id) out
                (mergeDuplicate X type gf out).2 := by
              apply forall₂_imp_of_mem h2
              intro old _ new hrel
              rcases hrel with rfl | ⟨_, _, rfl⟩ <;> rfl
            exact forall₂_ids_eq h3
          rw [hids]
          exact List.sublist_append_left _ _
        · rw [if_neg hmem]
          exact happ
      · rw [if_neg hdup]
        exact happ
    have := ih (addGameFile X dlConf type out gf)
    rw [List.foldl_cons]
    refine this.trans ?_
    rw [List.map_cons]
    have hsplit : out.map (fun r => r.id) ++ gf.id :: rest.map (fun r => r.id)
        = (out.map (fun r => r.id) ++ [gf.id]) ++ rest.map (fun r => r.id) := by simp
    rw [hsplit]
    exact List.Sublist.append hstep (List.Sublist.refl _)

/-- C18: the output of `fileJsonNodeToGameFileVector` is the list of the
accepted files, taken node by node and within a node in the order of `files`,
with the files added one by one by lines 375-392; without duplicate handling it
is that list; the ids of the output are a subsequence of the ids of the
accepted files, which are a subsequence of the ids of the input files in that
order. -/
theorem fileJsonNodeToGameFileVector_order (X : Externals) (gamename : Str) (json : Json)
    (type : Nat) (dlConf : DownloadConfig) (k k' : Nat) (out : List gameFile)
    (h : fileJsonNodeToGameFileVector X gamename json type dlConf k = some (out, k')) :
    ∃ accepted,
      acceptedFiles X gamename json type dlConf k = some (accepted, k') ∧
      out = accepted.foldl (addGameFile X dlConf type) [] ∧
      (dlConf.bDuplicateHandler = false → out = accepted) ∧
      (out.map (fun r => r.id)).Sublist (accepted.map (fun r => r.id)) ∧
      (accepted.map (fun r => r.id)).Sublist (inputFileIds json) ∧
      (out.map (fun r => r.id)).Sublist (inputFileIds json) := by
  have hsim := h
  unfold fileJsonNodeToGameFileVector at hsim
  obtain ⟨t', ht', hk, hout⟩ := forLoop_sim (MergesInto X dlConf type) _ _
    (fun i s t s' => infoNodeLoopBody_sim X gamename json type dlConf i s t s')
    json.size ([], k) ([], k) (out, k') ⟨rfl, rfl⟩ hsim
  simp only at hk hout
  have hoff : fileJsonNodeToGameFileVector X gamename json type
      { dlConf with bDuplicateHandler := false } k = some (t'.1, k') := by
    unfold fileJsonNodeToGameFileVector
    rw [ht', hk]
  have hacc : acceptedFiles X gamename json type dlConf k = some (t'.1, k') :=
    fileJsonNodeToGameFileVector_accepted X gamename json type
      { dlConf with bDuplicateHandler := false } rfl k k' t'.1 hoff
  have h1 : (out.map (fun r => r.id)).Sublist (t'.1.map (fun r => r.id)) := by
    have := addGameFile_foldl_ids X dlConf type t'.1 []
    rw [← hout, List.map_nil, List.nil_append] at this
    exact this
  have h2 : (t'.1.map (fun r => r.id)).Sublist (inputFileIds json) :=
    collectInOrder_ids _ nodeFileIds
      (acceptedOfNode_ids X gamename type dlConf.iInstallerPlatform dlConf.iInstallerLanguage)
      json.elements k t'.1 k' hacc
  refine ⟨t'.1, hacc, hout, ?_, h1, h2, h1.trans h2⟩
  intro hdup
  have := fileJsonNodeToGameFileVector_accepted X gamename json type dlConf hdup k k' out h
  rw [hacc, Option.some.injEq, Prod.mk.injEq] at this
  exact this.1.symm

theorem fileJsonNodeToGameFileVector_order_witness :
    fileJsonNodeToGameFileVector exampleExternals "game".toList exampleInstallers 1
      exampleConfig 0 = some (exampleMergedFiles, 3) ∧
    acceptedFiles exampleExternals "game".toList exampleInstallers 1 exampleConfig 0
      = some (exampleAcceptedFiles, 3) ∧
    inputFileIds exampleInstallers = ["en1".toList, "de1".toList, "fr1".toList] ∧
    exampleMergedFiles.map (fun r => r.id) = ["en1".toList, "fr1".toList] ∧
    ∃ accepted,
      acceptedFiles exampleExternals "game".toList exampleInstallers 1 exampleConfig 0
        = some (accepted, 3) ∧
      exampleMergedFiles = accepted.foldl (addGameFile exampleExternals exampleConfig 1) [] ∧
      (exampleConfig.bDuplicateHandler = false → exampleMergedFiles = accepted) ∧
      (exampleMergedFiles.map (fun r => r.id)).Sublist (accepted.map (fun r => r.id)) ∧
      (accepted.map (fun r => r.id)).Sublist (inputFileIds exampleInstallers) ∧
      (exampleMergedFiles.map (fun r => r.id)).Sublist (inputFileIds exampleInstallers) :=
  ⟨by decide, by decide, by decide, by decide,
   fileJsonNodeToGameFileVector_order exampleExternals "game".toList exampleInstallers 1
    exampleConfig 0 3 exampleMergedFiles (by decide)⟩

end GalaxyApi
